import Mathlib

/-!
# PrairieDogTown: the gopher puzzle solver (`puzzle.cpp`)

A shallow embedding of `puzzle.cpp` and theorems about it.

* C++ `int` and `spaceType` values are `Int` codes; the enumerators keep their
  source names and values.
* Fixed-size C arrays (`piece[3]`, `spaces[3][4][3]`, `placed[6]`,
  `tileDirection[4]`, `pieces[6]`) are records with one field per slot; an index
  outside the declared bounds is undefined behaviour in the source and is
  reported here as `Fault.outOfBounds`.
* A `throw` is an `Except.error`; the two `throw` sites of `fitsAbove` are
  `Fault.messedUp` and `Fault.illegalInput`.
* Member functions take the object (`self`) and return the updated object next
  to the return value; the global counter `iterations` is threaded explicitly.
* `Print` only writes to standard output and is left out.
* The recursion of `Solve` carries a bound on the depth of nested calls
  (`SolveAux`); `SolveAux_depth` shows that the bound `Solve` starts with is
  never used up.
* The search as the specification words it is `specSearch`, over sequences of
  `Choice`s; `SolveAux_refines` relates `Solve` to it on the puzzles of `Reach`,
  the puzzles the search can call `Solve` on.
-/

namespace PrairieDog

/-! ## Values -/

/-- Ways a run can stop without a return value: the two `throw` statements of
`fitsAbove`, an array index outside the declared bounds, and exhaustion of the
recursion budget of `CPuzzle.SolveAux`. -/
inductive Fault where
  | messedUp
  | illegalInput
  | outOfBounds
  | outOfFuel
  deriving DecidableEq, Repr

/-- Enumerator of `spaceType` (value 0). -/
abbrev SPACE_EMPTY : Int := 0
/-- Enumerator of `spaceType` (value 1). -/
abbrev SPACE_HOLE : Int := 1
/-- Enumerator of `spaceType` (value 2). -/
abbrev SPACE_BUMP_UP : Int := 2
/-- Enumerator of `spaceType` (value 3). -/
abbrev SPACE_BUMP_DOWN : Int := 3

/-- Enumerator of the anonymous tiling enum (value 0). -/
abbrev TILE_LEFT_RIGHT : Int := 0
/-- Enumerator of the anonymous tiling enum (value 1). -/
abbrev TILE_UP_DOWN : Int := 1

/-- Constant `CPuzzle::DIM`. -/
abbrev DIM : Int := 3
/-- Constant `CPuzzle::LEVEL_COUNT`. -/
abbrev LEVEL_COUNT : Int := 4

/-- The C++ operator `!` on an `int`. -/
def lnot (x : Int) : Int := if x = 0 then 1 else 0

/-- The index values `0, 1, ..., n-1` visited by `for (i = 0; i < n; i++)`. -/
def intRange (n : Int) : List Int := (List.range n.toNat).map Int.ofNat

/-! ## Fixed-size arrays -/

/-- A C array `T a[3]`. -/
structure Arr3 (α : Type) where
  a0 : α
  a1 : α
  a2 : α
  deriving DecidableEq, Repr

/-- A C array `T a[4]`. -/
structure Arr4 (α : Type) where
  a0 : α
  a1 : α
  a2 : α
  a3 : α
  deriving DecidableEq, Repr

/-- A C array `T a[6]`. -/
structure Arr6 (α : Type) where
  a0 : α
  a1 : α
  a2 : α
  a3 : α
  a4 : α
  a5 : α
  deriving DecidableEq, Repr

/-- Read `a[i]`. -/
def Arr3.get {α : Type} (a : Arr3 α) (i : Int) : Except Fault α :=
  if i = 0 then .ok a.a0
  else if i = 1 then .ok a.a1
  else if i = 2 then .ok a.a2
  else .error .outOfBounds

/-- Write `a[i] = v`. -/
def Arr3.set {α : Type} (a : Arr3 α) (i : Int) (v : α) : Except Fault (Arr3 α) :=
  if i = 0 then .ok { a with a0 := v }
  else if i = 1 then .ok { a with a1 := v }
  else if i = 2 then .ok { a with a2 := v }
  else .error .outOfBounds

/-- Read `a[i]`. -/
def Arr4.get {α : Type} (a : Arr4 α) (i : Int) : Except Fault α :=
  if i = 0 then .ok a.a0
  else if i = 1 then .ok a.a1
  else if i = 2 then .ok a.a2
  else if i = 3 then .ok a.a3
  else .error .outOfBounds

/-- Write `a[i] = v`. -/
def Arr4.set {α : Type} (a : Arr4 α) (i : Int) (v : α) : Except Fault (Arr4 α) :=
  if i = 0 then .ok { a with a0 := v }
  else if i = 1 then .ok { a with a1 := v }
  else if i = 2 then .ok { a with a2 := v }
  else if i = 3 then .ok { a with a3 := v }
  else .error .outOfBounds

/-- Read `a[i]`. -/
def Arr6.get {α : Type} (a : Arr6 α) (i : Int) : Except Fault α :=
  if i = 0 then .ok a.a0
  else if i = 1 then .ok a.a1
  else if i = 2 then .ok a.a2
  else if i = 3 then .ok a.a3
  else if i = 4 then .ok a.a4
  else if i = 5 then .ok a.a5
  else .error .outOfBounds

/-- Write `a[i] = v`. -/
def Arr6.set {α : Type} (a : Arr6 α) (i : Int) (v : α) : Except Fault (Arr6 α) :=
  if i = 0 then .ok { a with a0 := v }
  else if i = 1 then .ok { a with a1 := v }
  else if i = 2 then .ok { a with a2 := v }
  else if i = 3 then .ok { a with a3 := v }
  else if i = 4 then .ok { a with a4 := v }
  else if i = 5 then .ok { a with a5 := v }
  else .error .outOfBounds

/-! ## `CPiece` -/

/-- Data members of `class CPiece`. -/
structure CPiece where
  flipped : Int
  reversed : Int
  piece : Arr3 Int
  deriving DecidableEq, Repr

/-- Constructor `CPiece::CPiece()`. -/
def CPiece.new : CPiece :=
  { flipped := 0, reversed := 0, piece := ⟨SPACE_EMPTY, SPACE_EMPTY, SPACE_EMPTY⟩ }

/-- Constructor `CPiece::CPiece(int s1, int s2, int s3)`. -/
def CPiece.new3 (s1 s2 s3 : Int) : CPiece :=
  { flipped := 0, reversed := 0, piece := ⟨s1, s2, s3⟩ }

/-- Member `CPiece::operator[](int index)`. -/
def CPiece.index (self : CPiece) (index : Int) : Except Fault Int := do
  let piecePart ←
    if self.reversed ≠ 0 then self.piece.get (3 - index - 1)
    else self.piece.get index
  if self.flipped ≠ 0 then
    if piecePart = SPACE_BUMP_UP then pure SPACE_BUMP_DOWN
    else if piecePart = SPACE_BUMP_DOWN then pure SPACE_BUMP_UP
    else pure piecePart
  else pure piecePart

/-- Member `CPiece::operator=`: the value of `*this` after `*this = p`; every
data member is copied, so the old value of `*this` plays no part. -/
def CPiece.assign (p : CPiece) : CPiece :=
  { flipped := p.flipped, reversed := p.reversed,
    piece := ⟨p.piece.a0, p.piece.a1, p.piece.a2⟩ }

/-- Member `CPiece::Reverse()`. -/
def CPiece.Reverse (self : CPiece) : CPiece :=
  { self with reversed := lnot self.reversed }

/-- Member `CPiece::Flip()`. -/
def CPiece.Flip (self : CPiece) : CPiece :=
  { self with flipped := lnot self.flipped }

/-! ## `CPuzzle` -/

/-- Data members of `class CPuzzle`; `spaces` is indexed
`spaces[column][level][row]`. -/
structure CPuzzle where
  spaces : Arr3 (Arr4 (Arr3 Int))
  pieceCount : Int
  placedCount : Int
  placed : Arr6 Int
  tileDirection : Arr4 Int
  level : Int
  deriving DecidableEq, Repr

/-- The static table `CPuzzle::pieces[6]`. -/
def pieces : Arr6 CPiece :=
  { a0 := CPiece.new3 SPACE_BUMP_UP SPACE_BUMP_DOWN SPACE_BUMP_UP
    a1 := CPiece.new3 SPACE_BUMP_DOWN SPACE_HOLE SPACE_BUMP_UP
    a2 := CPiece.new3 SPACE_BUMP_DOWN SPACE_BUMP_DOWN SPACE_BUMP_UP
    a3 := CPiece.new3 SPACE_BUMP_DOWN SPACE_HOLE SPACE_HOLE
    a4 := CPiece.new3 SPACE_BUMP_DOWN SPACE_BUMP_UP SPACE_HOLE
    a5 := CPiece.new3 SPACE_BUMP_DOWN SPACE_BUMP_UP SPACE_HOLE }

/-- One column `spaces[i]` as `CPuzzle::CPuzzle()` fills it: levels 0 and 3 are
holes, levels 1 and 2 are empty. -/
def newColumn : Arr4 (Arr3 Int) :=
  { a0 := ⟨SPACE_HOLE, SPACE_HOLE, SPACE_HOLE⟩
    a1 := ⟨SPACE_EMPTY, SPACE_EMPTY, SPACE_EMPTY⟩
    a2 := ⟨SPACE_EMPTY, SPACE_EMPTY, SPACE_EMPTY⟩
    a3 := ⟨SPACE_HOLE, SPACE_HOLE, SPACE_HOLE⟩ }

/-- Constructor `CPuzzle::CPuzzle()`. -/
def CPuzzle.new : CPuzzle :=
  { spaces := ⟨newColumn, newColumn, newColumn⟩
    pieceCount := 6
    placedCount := 0
    placed := ⟨-1, -1, -1, -1, -1, -1⟩
    tileDirection := ⟨TILE_LEFT_RIGHT, TILE_LEFT_RIGHT, TILE_LEFT_RIGHT, TILE_LEFT_RIGHT⟩
    level := 0 }

/-- Read `spaces[i][j][k]`. -/
def CPuzzle.cell (self : CPuzzle) (i j k : Int) : Except Fault Int := do
  let column ← self.spaces.get i
  let row ← column.get j
  row.get k

/-- Write `spaces[i][j][k] = v`. -/
def CPuzzle.setCell (self : CPuzzle) (i j k v : Int) : Except Fault CPuzzle := do
  let column ← self.spaces.get i
  let row ← column.get j
  let row ← row.set k v
  let column ← column.set j row
  let spaces ← self.spaces.set i column
  pure { self with spaces := spaces }

/-- The loop `for (i = 0; i < pieceCount; i++) placed[i] = p.placed[i];` of
`CPuzzle::operator=`, over the remaining index values. -/
def copyPlaced (src : Arr6 Int) : List Int → Arr6 Int → Except Fault (Arr6 Int)
  | [], dst => pure dst
  | i :: rest, dst => do
    let v ← src.get i
    let dst ← dst.set i v
    copyPlaced src rest dst

/-- Member `CPuzzle::operator=` (the two objects are distinct). -/
def CPuzzle.assign (self p : CPuzzle) : Except Fault CPuzzle := do
  let placed ← copyPlaced p.placed (intRange p.pieceCount) self.placed
  pure { spaces := p.spaces
         pieceCount := p.pieceCount
         placedCount := p.placedCount
         placed := placed
         tileDirection := p.tileDirection
         level := p.level }

/-- Function `fitsAbove(int pieceCode, int pieceBelowCode)`; the `int` it
returns is `1` or `0`. -/
def fitsAbove (pieceCode pieceBelowCode : Int) : Except Fault Int :=
  if pieceBelowCode = SPACE_EMPTY ∨ pieceCode = SPACE_EMPTY then
    .error .messedUp
  else if pieceBelowCode = SPACE_HOLE then
    .ok 1
  else if pieceBelowCode = SPACE_BUMP_UP then
    .ok (if pieceCode = SPACE_HOLE then 1 else 0)
  else if pieceBelowCode = SPACE_BUMP_DOWN then
    .ok (if pieceCode = SPACE_HOLE ∨ pieceCode = SPACE_BUMP_UP then 1 else 0)
  else
    .error .illegalInput

/-- One pass through the body of the test loop of `CPuzzle::PlacePiece`: the
value assigned to `fit` for index `i`. -/
def fitAt (self : CPuzzle) (piece : CPiece) (i : Int) : Except Fault Int := do
  let piecePart ← piece.index i
  let direction ← self.tileDirection.get self.level
  let below ←
    if direction = TILE_LEFT_RIGHT then
      self.cell i (self.level - 1) (self.placedCount.tmod 3)
    else
      self.cell (self.placedCount.tmod 3) (self.level - 1) i
  fitsAbove piecePart below

/-- The test loop of `CPuzzle::PlacePiece` over the remaining values of `i`;
the second argument is the current value of `fit`. A zero `fit` leaves the loop
(`break`). -/
def placeTest (self : CPuzzle) (piece : CPiece) : List Int → Int → Except Fault Int
  | [], fit => pure fit
  | i :: rest, _ => do
    let fit ← fitAt self piece i
    if fit = 0 then pure fit else placeTest self piece rest fit

/-- One pass through the body of the write loop of `CPuzzle::PlacePiece`. -/
def writeAt (piece : CPiece) (i : Int) (self : CPuzzle) : Except Fault CPuzzle := do
  let piecePart ← piece.index i
  let direction ← self.tileDirection.get self.level
  if direction = TILE_LEFT_RIGHT then
    self.setCell i self.level (self.placedCount.tmod 3) piecePart
  else
    self.setCell (self.placedCount.tmod 3) self.level i piecePart

/-- The write loop of `CPuzzle::PlacePiece` over the remaining values of `i`. -/
def placeWrite (piece : CPiece) : List Int → CPuzzle → Except Fault CPuzzle
  | [], self => pure self
  | i :: rest, self => do
    let self ← writeAt piece i self
    placeWrite piece rest self

/-- Member `CPuzzle::PlacePiece(CPiece &)`. Takes the global `iterations` and
returns the value of `fit`, the updated puzzle and the updated `iterations`. -/
def CPuzzle.PlacePiece (self : CPuzzle) (iterations : Int) (piece : CPiece) :
    Except Fault (Int × CPuzzle × Int) := do
  let iterations := iterations + 1
  let self := { self with level := self.placedCount.tdiv DIM + 1 }
  let fit ← placeTest self piece [0, 1, 2] 0
  if fit ≠ 0 then
    let self ← placeWrite piece [0, 1, 2] self
    pure (fit, self, iterations)
  else
    pure (fit, self, iterations)

/-- The loop of `CPuzzle::AlreadyPlaced` over the remaining values of `i`. -/
def alreadyPlacedLoop (placed : Arr6 Int) (piece : Int) : List Int → Except Fault Int
  | [] => pure 0
  | i :: rest => do
    let v ← placed.get i
    if v = piece then pure 1 else alreadyPlacedLoop placed piece rest

/-- Member `CPuzzle::AlreadyPlaced(int piece)`. -/
def CPuzzle.AlreadyPlaced (self : CPuzzle) (piece : Int) : Except Fault Int :=
  alreadyPlacedLoop self.placed piece (intRange self.pieceCount)

/-- The variables of one activation of `CPuzzle::Solve` that its loops read and
write: the object `*this`, the locals `newPuzzle` and `solved`, and the global
`iterations`. -/
structure SolveVars where
  self : CPuzzle
  newPuzzle : CPuzzle
  solved : Int
  iterations : Int
  deriving DecidableEq, Repr

/-- The type of `CPuzzle::Solve` once `iterations` is threaded: return value,
updated puzzle, updated `iterations`. -/
abbrev SolveFn := Int → CPuzzle → Except Fault (Int × CPuzzle × Int)

/-- The body of the `orientation` loop of `CPuzzle::Solve` for piece `i`;
`solve` stands for the recursive call. -/
def orientationBody (solve : SolveFn) (i : Int) (orientation : Nat) (v : SolveVars) :
    Except Fault SolveVars := do
  let newPiece := CPiece.assign (← pieces.get i)
  let newPiece := if orientation &&& 0x1 ≠ 0 then newPiece.Flip else newPiece
  let newPiece := if orientation &&& 0x02 ≠ 0 then newPiece.Reverse else newPiece
  let newPuzzle ← v.newPuzzle.assign v.self
  let (fit, newPuzzle, iterations) ← newPuzzle.PlacePiece v.iterations newPiece
  if fit ≠ 0 then
    let placed ← newPuzzle.placed.set v.self.placedCount i
    let newPuzzle := { newPuzzle with placed := placed }
    let newPuzzle := { newPuzzle with placedCount := newPuzzle.placedCount + 1 }
    let (solved, newPuzzle, iterations) ← solve iterations newPuzzle
    if solved ≠ 0 then
      let self ← v.self.assign newPuzzle
      pure { self := self, newPuzzle := newPuzzle, solved := solved, iterations := iterations }
    else
      pure { v with newPuzzle := newPuzzle, solved := solved, iterations := iterations }
  else
    pure { v with newPuzzle := newPuzzle, iterations := iterations }

/-- The loop `for (orientation = 0; orientation < 4 && !solved; orientation++)`
over the remaining values of `orientation`. -/
def orientationLoop (solve : SolveFn) (i : Int) : List Nat → SolveVars → Except Fault SolveVars
  | [], v => pure v
  | orientation :: rest, v =>
    if v.solved ≠ 0 then pure v
    else do
      let v ← orientationBody solve i orientation v
      orientationLoop solve i rest v

/-- The loop `for (i = 0; i < pieceCount && !solved; i++)` over the remaining
values of `i`. -/
def pieceLoop (solve : SolveFn) : List Int → SolveVars → Except Fault SolveVars
  | [], v => pure v
  | i :: rest, v =>
    if v.solved ≠ 0 then pure v
    else do
      let already ← v.self.AlreadyPlaced i
      let v ← if already = 0 then orientationLoop solve i [0, 1, 2, 3] v else pure v
      pieceLoop solve rest v

/-- The loop `for (directionIter = 0; directionIter < 2 && !solved; directionIter++)`
over the remaining values of `directionIter`. The bound `pieceCount` of the
inner loop can only change together with `solved`, which ends that loop. -/
def directionLoop (solve : SolveFn) : List Nat → SolveVars → Except Fault SolveVars
  | [], v => pure v
  | _ :: rest, v =>
    if v.solved ≠ 0 then pure v
    else do
      let v ← pieceLoop solve (intRange v.self.pieceCount) v
      if v.solved = 0 ∧ v.self.placedCount.tmod DIM = 0 ∧ v.self.placedCount ≥ DIM then
        let direction ← v.self.tileDirection.get v.self.level
        if direction = TILE_LEFT_RIGHT then
          let tileDirection ← v.self.tileDirection.set v.self.level TILE_UP_DOWN
          directionLoop solve rest { v with self := { v.self with tileDirection := tileDirection } }
        else
          directionLoop solve rest v
      else
        pure v

/-- The body of `CPuzzle::Solve()`; `solve` stands for the recursive call. -/
def solveBody (solve : SolveFn) : SolveFn := fun iterations self =>
  let self := { self with level := self.placedCount.tdiv DIM + 1 }
  if self.placedCount < self.pieceCount then do
    let v ← directionLoop solve [0, 1]
      { self := self, newPuzzle := CPuzzle.new, solved := 0, iterations := iterations }
    pure (v.solved, v.self, v.iterations)
  else
    pure (1, self, iterations)

/-- Member `CPuzzle::Solve()` with a bound on the depth of nested calls; a call
that has no depth left stops with `Fault.outOfFuel`. -/
def CPuzzle.SolveAux : Nat → SolveFn
  | 0 => fun _ _ => .error .outOfFuel
  | fuel + 1 => solveBody (CPuzzle.SolveAux fuel)

/-- Member `CPuzzle::Solve()`: every nested call works on a puzzle with one
more placed piece and a call with `placedCount ≥ pieceCount` makes none, so
`pieceCount - placedCount + 1` levels of calls are available. -/
def CPuzzle.Solve (self : CPuzzle) (iterations : Int) : Except Fault (Int × CPuzzle × Int) :=
  CPuzzle.SolveAux ((self.pieceCount - self.placedCount).toNat + 1) iterations self

/-! ## States along the search -/

deriving instance DecidableEq for Except

/-- The puzzle that `Solve`, working on `s`, hands to the recursive call after
piece `i` in orientation number `orientation` has been placed: the value of
`newPuzzle` when `orientationBody` reaches its call of `solve`. -/
def placeNext (s : CPuzzle) (i : Int) (orientation : Nat) : CPuzzle :=
  match orientationBody (fun iterations puzzle => .ok (0, puzzle, iterations)) i orientation
      { self := s, newPuzzle := CPuzzle.new, solved := 0, iterations := 0 } with
  | .ok v => v.newPuzzle
  | .error _ => s

/-- The puzzle reached from the fresh one by placing the listed
(piece, orientation) pairs in order. -/
def afterPath (path : List (Int × Nat)) : CPuzzle :=
  path.foldl (fun s step => placeNext s step.1 step.2) CPuzzle.new

/-- The fresh puzzle after piece 0 flipped, piece 1 as it is and piece 4
flipped and reversed have been placed: level 1 is full. -/
def layerOneFull : CPuzzle := afterPath [(0, 1), (1, 0), (4, 3)]

/-! ## Recorded calls of `Solve` -/

/-- One call of `SolveAux` together with a result for it. -/
structure Known where
  fuel : Nat
  iterations : Int
  puzzle : CPuzzle
  result : Except Fault (Int × CPuzzle × Int)

/-- The recorded result is the one `SolveAux` computes. -/
def Known.holds (k : Known) : Prop :=
  CPuzzle.SolveAux k.fuel k.iterations k.puzzle = k.result

instance (k : Known) : Decidable k.holds := by
  unfold Known.holds; infer_instance

/-- A call that is recorded in `table` is answered from the record, any other
call is passed on to `solve`. -/
def memo (table : List Known) (fuel : Nat) (solve : SolveFn) : SolveFn :=
  fun iterations puzzle =>
    match table.find? (fun k =>
        decide (k.fuel = fuel ∧ k.iterations = iterations ∧ k.puzzle = puzzle)) with
    | some k => k.result
    | none => solve iterations puzzle

/-- The function `SolveAux` with its nested calls answered through `memo`. -/
def SolveMemo (table : List Known) : Nat → SolveFn
  | 0 => fun _ _ => .error .outOfFuel
  | fuel + 1 => solveBody (memo table fuel (SolveMemo table fuel))

/-- The record of the call of `Solve` on the puzzle that holds piece 0 as it is
and piece `i` in orientation `orientation`, entered with `iterations = n`: it
returns `0` with the puzzle as it was and `iterations = n'`. -/
def deadEnd (n : Int) (i : Int) (orientation : Nat) (n' : Int) : Known :=
  { fuel := 5, iterations := n, puzzle := afterPath [(0, 0), (i, orientation)],
    result := .ok (0, afterPath [(0, 0), (i, orientation)], n') }

/-- The puzzle `main` prints as the final puzzle. -/
def solvedPuzzle : CPuzzle :=
  { spaces :=
      { a0 := { a0 := ⟨1, 1, 1⟩, a1 := ⟨3, 3, 1⟩, a2 := ⟨2, 2, 3⟩, a3 := ⟨1, 1, 1⟩ }
        a1 := { a0 := ⟨1, 1, 1⟩, a1 := ⟨2, 1, 3⟩, a2 := ⟨1, 3, 2⟩, a3 := ⟨1, 1, 1⟩ }
        a2 := { a0 := ⟨1, 1, 1⟩, a1 := ⟨3, 2, 2⟩, a2 := ⟨2, 1, 1⟩, a3 := ⟨1, 1, 1⟩ } }
    pieceCount := 6
    placedCount := 6
    placed := ⟨0, 1, 4, 2, 5, 3⟩
    tileDirection := ⟨TILE_LEFT_RIGHT, TILE_LEFT_RIGHT, TILE_UP_DOWN, TILE_LEFT_RIGHT⟩
    level := 3 }

/-- The record of the call of `Solve` on the puzzle that holds piece 0 flipped:
it returns `1` with the solved puzzle. -/
def flippedStart : Known :=
  { fuel := 6, iterations := 11614, puzzle := afterPath [(0, 1)],
    result := .ok (1, solvedPuzzle, 12395) }

/-- The calls of `Solve` two levels below the first one while piece 0 lies
unflipped in the first row, in the order they are made. -/
def deadEnds : List Known :=
  [deadEnd 2 1 0 746,
    deadEnd 747 1 1 1323,
    deadEnd 1324 1 2 1900,
    deadEnd 1901 1 3 2645,
    deadEnd 2646 2 0 3294,
    deadEnd 3295 2 1 3791,
    deadEnd 3792 2 2 4304,
    deadEnd 4305 2 3 4921,
    deadEnd 4922 3 0 5354,
    deadEnd 5355 3 1 5755,
    deadEnd 5756 3 2 6404,
    deadEnd 6405 3 3 7053,
    deadEnd 7054 4 0 7558,
    deadEnd 7559 4 1 8047,
    deadEnd 8048 4 2 8668,
    deadEnd 8669 4 3 9333,
    deadEnd 9334 5 0 9838,
    deadEnd 9839 5 1 10327,
    deadEnd 10328 5 2 10948,
    deadEnd 10949 5 3 11613]

/-- The placement list of a puzzle as a list. -/
def placedList (s : CPuzzle) : List Int :=
  [s.placed.a0, s.placed.a1, s.placed.a2, s.placed.a3, s.placed.a4, s.placed.a5]

/-- The result of a call that started with `iterations` larger by `d`. -/
def addIterations (d : Int) (r : Int × CPuzzle × Int) : Int × CPuzzle × Int :=
  (r.1, r.2.1, r.2.2 + d)

/-- The variables of `Solve` with `iterations` larger by `d`. -/
def SolveVars.addIterations (d : Int) (v : SolveVars) : SolveVars :=
  { v with iterations := v.iterations + d }

/-- A stand-in for `Solve` on which the start value of `iterations` only
offsets the final value. -/
def SolveFn.Shifts (solve : SolveFn) : Prop :=
  ∀ (d n : Int) (s : CPuzzle), solve (n + d) s = (solve n s).map (addIterations d)

/-! ## Vocabulary of the specification -/

/-- A recognised piece-face code: `Hole`, `BumpUp` or `BumpDown`. -/
def validOperand (c : Int) : Prop :=
  c = SPACE_HOLE ∨ c = SPACE_BUMP_UP ∨ c = SPACE_BUMP_DOWN

instance (c : Int) : Decidable (validOperand c) := by
  unfold validOperand; infer_instance

/-- The fit rule in the words of the specification: anything goes over a hole,
only a hole goes over an upward bump, a hole or an upward bump goes over a
downward bump. -/
def specFits (candidate below : Int) : Prop :=
  below = SPACE_HOLE ∨
  (below = SPACE_BUMP_UP ∧ candidate = SPACE_HOLE) ∨
  (below = SPACE_BUMP_DOWN ∧ (candidate = SPACE_HOLE ∨ candidate = SPACE_BUMP_UP))

instance (candidate below : Int) : Decidable (specFits candidate below) := by
  unfold specFits; infer_instance

/-- A result that is one of the two `throw` statements of the program. -/
def throws {α : Type} (r : Except Fault α) : Prop :=
  r = .error .messedUp ∨ r = .error .illegalInput

/-- The (column, row) pair the specification addresses for cell `i` of the
piece placed in row slot `r`: column `i`, row `r` under `LeftRight`; column `r`,
row `i` under `UpDown`. -/
def specAddress (direction r i : Int) : Int × Int :=
  if direction = TILE_LEFT_RIGHT then (i, r) else (r, i)

/-- The array `placed[6]` as the program holds a placement list `l` of at most
six entries: the entries in order, then the unused marker `-1`. -/
def placedOf (l : List Int) : Arr6 Int :=
  { a0 := l.getD 0 (-1), a1 := l.getD 1 (-1), a2 := l.getD 2 (-1),
    a3 := l.getD 3 (-1), a4 := l.getD 4 (-1), a5 := l.getD 5 (-1) }

/-- The cell `spaces[c][l][k]` exists and is not `Empty`. -/
def cellFilled (s : CPuzzle) (c l k : Int) : Prop :=
  match s.cell c l k with
  | .ok v => v ≠ SPACE_EMPTY
  | .error _ => False

instance (s : CPuzzle) (c l k : Int) : Decidable (cellFilled s c l k) := by
  unfold cellFilled; split <;> infer_instance

/-- The answer of `fitsAbove` for the cell at column `c`, row `k` of level
`l + 1` over the cell at the same place of level `l`. -/
def fitsOver (s : CPuzzle) (c l k : Int) : Except Fault Int := do
  let upper ← s.cell c (l + 1) k
  let lower ← s.cell c l k
  fitsAbove upper lower

/-- The value exchange of the specification: `BumpUp` and `BumpDown` trade
places, every other code is left alone. -/
def specSwap (c : Int) : Int :=
  if c = SPACE_BUMP_UP then SPACE_BUMP_DOWN
  else if c = SPACE_BUMP_DOWN then SPACE_BUMP_UP
  else c

/-- Entry `j` of the canonical triple `(c0, c1, c2)`. -/
def canonical (c0 c1 c2 : Int) (j : Int) : Int :=
  if j = 0 then c0 else if j = 1 then c1 else c2

/-- The three values `read(0), read(1), read(2)` of a piece. -/
def reads (p : CPiece) : List (Except Fault Int) :=
  [p.index 0, p.index 1, p.index 2]

/-- Pieces the program can build: the two constructors, copies, and any number
of `Flip` and `Reverse` calls on them. -/
inductive CPiece.Constructed : CPiece → Prop
  | new : CPiece.Constructed CPiece.new
  | new3 (s1 s2 s3 : Int) : CPiece.Constructed (CPiece.new3 s1 s2 s3)
  | assign (p : CPiece) : CPiece.Constructed p → CPiece.Constructed (CPiece.assign p)
  | flip (p : CPiece) : CPiece.Constructed p → CPiece.Constructed p.Flip
  | reverse (p : CPiece) : CPiece.Constructed p → CPiece.Constructed p.Reverse

/-! ## The search in the words of the specification -/

/-- A copy of `piece` turned into orientation number `orientation`: bit 0 asks
for `Flip`, bit 1 for `Reverse` (identity, flip, reverse, flip and reverse). -/
def orientedPiece (piece : CPiece) (orientation : Nat) : CPiece :=
  let newPiece := CPiece.assign piece
  let newPiece := if orientation &&& 0x1 ≠ 0 then newPiece.Flip else newPiece
  if orientation &&& 0x02 ≠ 0 then newPiece.Reverse else newPiece

/-- The read `read(j)` of piece `i` of the table in orientation number
`orientation`. -/
def tableRead (i : Int) (orientation : Nat) (j : Int) : Except Fault Int := do
  let piece ← pieces.get i
  (orientedPiece piece orientation).index j

/-- The result is a value, and the value is a piece-face code. -/
def okValid (r : Except Fault Int) : Prop :=
  match r with
  | .ok v => validOperand v
  | .error _ => False

instance (r : Except Fault Int) : Decidable (okValid r) := by
  unfold okValid; split <;> infer_instance

/-- Steps 1a to 1c of the specification on a copy of `s`: attempt `placePiece`
with piece `i` in the given orientation; when it succeeds, append `i` to the
placement list and count the piece. -/
def tryPlace (s : CPuzzle) (i : Int) (orientation : Nat) : Option CPuzzle :=
  match pieces.get i with
  | .error _ => none
  | .ok piece =>
    match s.PlacePiece 0 (orientedPiece piece orientation) with
    | .error _ => none
    | .ok (fit, placedPuzzle, _) =>
      if fit = 0 then none
      else
        match placedPuzzle.placed.set s.placedCount i with
        | .error _ => none
        | .ok placed =>
          some { placedPuzzle with placed := placed, placedCount := placedPuzzle.placedCount + 1 }

/-- The current level of a puzzle: `placedCount / 3 + 1`. -/
def currentLevel (s : CPuzzle) : Int :=
  s.placedCount.tdiv DIM + 1

/-- The puzzle with its current-level field brought up to date. -/
def atLevel (s : CPuzzle) : CPuzzle :=
  { s with level := currentLevel s }

/-- The puzzle with the tiling direction of its current level switched to
`UpDown`. -/
def withUpDown (s : CPuzzle) : CPuzzle :=
  match s.tileDirection.set (currentLevel s) TILE_UP_DOWN with
  | .ok tileDirection => { s with tileDirection := tileDirection }
  | .error _ => s

/-- The tiling direction of the current level. -/
def directionOf (s : CPuzzle) : Int :=
  match s.tileDirection.get (currentLevel s) with
  | .ok direction => direction
  | .error _ => TILE_LEFT_RIGHT

/-- The (column, row) pair of the current level that cell `j` of the next
piece goes to. -/
def address (s : CPuzzle) (j : Int) : Int × Int :=
  specAddress (directionOf s) (s.placedCount.tmod 3) j

/-- The layer-direction retry applies: `placedCount` is a nonzero multiple of 3. -/
def retryApplies (s : CPuzzle) : Prop :=
  s.placedCount.tmod DIM = 0 ∧ s.placedCount ≥ DIM

instance (s : CPuzzle) : Decidable (retryApplies s) := by
  unfold retryApplies; infer_instance

/-- The placement list of the specification: the first `placedCount` entries
of `placed`. -/
def placedSoFar (s : CPuzzle) : List Int :=
  (placedList s).take s.placedCount.toNat

/-- One step of the search: the tiling direction used for the level being
filled, the piece, and its orientation number. -/
structure Choice where
  direction : Int
  piece : Int
  orientation : Nat
  deriving DecidableEq, Repr

/-- Every choice the search can make, in the order it tries them: direction
`LeftRight` before `UpDown`, then piece index ascending, then orientation
number ascending. -/
def allChoices : List Choice :=
  [TILE_LEFT_RIGHT, TILE_UP_DOWN].flatMap fun direction =>
    [0, 1, 2, 3, 4, 5].flatMap fun piece =>
      [0, 1, 2, 3].map fun orientation =>
        { direction := direction, piece := piece, orientation := orientation }

/-- The puzzle after one choice, when the choice is open to the search and the
placement passes `placePiece`: the piece must not be placed yet; the direction
is the one the current level has, or `UpDown` in place of `LeftRight` where the
retry applies. -/
def applyChoice (s : CPuzzle) (c : Choice) : Option CPuzzle :=
  if c ∈ allChoices ∧ c.piece ∉ placedSoFar s then
    if c.direction = directionOf s then
      tryPlace s c.piece c.orientation
    else if retryApplies s ∧ directionOf s = TILE_LEFT_RIGHT ∧ c.direction = TILE_UP_DOWN then
      tryPlace (withUpDown s) c.piece c.orientation
    else none
  else none

/-- The puzzle after a sequence of choices, when every one of them passes. -/
def applyChoices (s : CPuzzle) : List Choice → Option CPuzzle
  | [] => some s
  | c :: rest => (applyChoice s c).bind fun s' => applyChoices s' rest

/-- A full valid choice sequence from `s`: every placement passes and all six
pieces are placed at the end. -/
def ValidFrom (s : CPuzzle) (choices : List Choice) : Prop :=
  ∃ s', applyChoices s choices = some s' ∧ s'.placedCount = 6

/-- The order of the search on single choices: direction, then piece index,
then orientation number. -/
def Choice.lt (c c' : Choice) : Prop :=
  c.direction < c'.direction ∨
  (c.direction = c'.direction ∧
    (c.piece < c'.piece ∨ (c.piece = c'.piece ∧ c.orientation < c'.orientation)))

instance (c c' : Choice) : Decidable (c.lt c') := by
  unfold Choice.lt; infer_instance

/-- The lexicographic order on choice sequences, position by position. -/
def seqLe : List Choice → List Choice → Prop
  | [], _ => True
  | _ :: _, [] => False
  | c :: rest, c' :: rest' => c.lt c' ∨ (c = c' ∧ seqLe rest rest')

/-- The search of the specification with `m` pieces left to place: the first
choice, in the order of `allChoices`, whose placement passes and from which the
search with `m - 1` pieces left succeeds; the result is the sequence of choices
made and the final puzzle. -/
def specSearch : Nat → CPuzzle → Option (List Choice × CPuzzle)
  | 0, s => some ([], atLevel s)
  | m + 1, s =>
    allChoices.findSome? fun c =>
      (applyChoice s c).bind fun s' =>
        (specSearch m s').map fun r => (c :: r.1, r.2)

/-- The puzzle a failed call of `Solve` leaves: the current-level field is up
to date and, where the retry applies, the direction of the current level is
`UpDown`. -/
def failState (s : CPuzzle) : CPuzzle :=
  if retryApplies s then withUpDown (atLevel s) else atLevel s

/-- The cell `spaces[c][l][k]` exists and holds a piece-face code when `filled`
is true and `Empty` when it is false. -/
def cellHas (s : CPuzzle) (c l k : Int) (filled : Bool) : Prop :=
  match s.cell c l k with
  | .ok v => if filled then validOperand v else v = SPACE_EMPTY
  | .error _ => False

instance (s : CPuzzle) (c l k : Int) (filled : Bool) : Decidable (cellHas s c l k filled) := by
  unfold cellHas; split <;> infer_instance

/-- The shape of every puzzle the search works on: six pieces, `placedCount`
between 0 and 6; levels 0, 1 and 3 tiled `LeftRight` and level 2 tiled
`LeftRight` or, once it is being filled, `UpDown`; levels 0 and 3 all `Hole`;
on level 1 the rows below `placedCount` hold piece faces and the others are
`Empty`; on level 2 the same for the rows (columns under `UpDown`) below
`placedCount - 3`; `placed` holds `placedCount` distinct piece indices and then
the marker `-1`. -/
def Inv (s : CPuzzle) : Prop :=
  s.pieceCount = 6 ∧ 0 ≤ s.placedCount ∧ s.placedCount ≤ 6 ∧
  s.tileDirection.a0 = TILE_LEFT_RIGHT ∧ s.tileDirection.a1 = TILE_LEFT_RIGHT ∧
  s.tileDirection.a3 = TILE_LEFT_RIGHT ∧
  (s.tileDirection.a2 = TILE_LEFT_RIGHT ∨
    (s.tileDirection.a2 = TILE_UP_DOWN ∧ 3 ≤ s.placedCount)) ∧
  (∀ c ∈ [(0 : Int), 1, 2], ∀ k ∈ [(0 : Int), 1, 2],
    s.cell c 0 k = .ok SPACE_HOLE ∧ s.cell c 3 k = .ok SPACE_HOLE) ∧
  (∀ c ∈ [(0 : Int), 1, 2], ∀ k ∈ [(0 : Int), 1, 2],
    cellHas s c 1 k (decide (k < s.placedCount))) ∧
  (∀ c ∈ [(0 : Int), 1, 2], ∀ k ∈ [(0 : Int), 1, 2],
    cellHas s c 2 k
      (if s.tileDirection.a2 = TILE_LEFT_RIGHT then decide (k < s.placedCount - 3)
       else decide (c < s.placedCount - 3))) ∧
  s.placed = placedOf (placedSoFar s) ∧ (placedSoFar s).Nodup ∧
  (∀ x ∈ placedSoFar s, 0 ≤ x ∧ x ≤ 5)

instance (s : CPuzzle) : Decidable (Inv s) := by
  unfold Inv; infer_instance

/-- The invariant at the entry of `Solve`: level 2 is still tiled `LeftRight`
as long as no piece lies on it. -/
def SolveInv (s : CPuzzle) : Prop :=
  Inv s ∧ (s.placedCount ≤ 3 → s.tileDirection.a2 = TILE_LEFT_RIGHT)

instance (s : CPuzzle) : Decidable (SolveInv s) := by
  unfold SolveInv; infer_instance

/-- The four orientations of piece `i` on the puzzle `t`, in order, with `g`
standing for the search on the puzzle after a placement: the first orientation
for which the placement passes and `g` succeeds. -/
def searchOrientations (g : CPuzzle → Option CPuzzle) (t : CPuzzle) (i : Int) :
    Option CPuzzle :=
  [0, 1, 2, 3].findSome? fun o => (tryPlace t i o).bind g

/-- Step 1 of the specification on the puzzle `t`, with `g` standing for the
search on the puzzle after a placement: the first piece index not placed yet
and the first orientation for which the placement passes and `g` succeeds. -/
def searchPass (g : CPuzzle → Option CPuzzle) (t : CPuzzle) : Option CPuzzle :=
  [(0 : Int), 1, 2, 3, 4, 5].findSome? fun i =>
    if i ∈ placedSoFar t then none else searchOrientations g t i

/-- Steps 1 and 2 of the specification on the puzzle `s`: one pass, and where
the retry applies and the pass found nothing, one more pass with the current
level switched to `UpDown`. -/
def searchStep (g : CPuzzle → Option CPuzzle) (s : CPuzzle) : Option CPuzzle :=
  match searchPass g (atLevel s) with
  | some r => some r
  | none => if retryApplies s then searchPass g (withUpDown (atLevel s)) else none

/-- The loop variables of `Solve` after a loop that worked on the puzzle `t`:
solved with the puzzle `r` when `found = some r`, and unsolved with `t`
untouched when `found = none`. -/
def Found (res : Except Fault SolveVars) (t : CPuzzle) (found : Option CPuzzle) : Prop :=
  ∃ newPuzzle iterations, res = .ok
    (match found with
     | some r => { self := r, newPuzzle := newPuzzle, solved := 1, iterations := iterations }
     | none => { self := t, newPuzzle := newPuzzle, solved := 0, iterations := iterations })

/-- The stand-in `solve` answers on the puzzle `c` as `g` says: it returns `1`
with the puzzle `g c` when there is one, and `0` otherwise. -/
def Answers (solve : SolveFn) (g : CPuzzle → Option CPuzzle) (c : CPuzzle) : Prop :=
  ∀ n, ∃ c' n', solve n c = .ok ((match g c with | some _ => 1 | none => 0), c', n') ∧
    ∀ r, g c = some r → c' = r ∧ r.pieceCount = 6

/-- The puzzles on which the search can invoke `Solve`: the fresh puzzle and
every puzzle obtained from such a one by a choice whose placement passes.
`Reach.calls` shows that the body of `Solve`, run on such a puzzle, makes its
recursive calls on such puzzles only. -/
inductive Reach : CPuzzle → Prop
  | fresh : Reach CPuzzle.new
  | step {s s' : CPuzzle} (c : Choice) : Reach s → applyChoice s c = some s' → Reach s'

/-- Levels 0 and 3 of a puzzle are all `Hole`. -/
def housed (s : CPuzzle) : Prop :=
  ∀ c ∈ [(0 : Int), 1, 2], ∀ k ∈ [(0 : Int), 1, 2],
    s.cell c 0 k = .ok SPACE_HOLE ∧ s.cell c 3 k = .ok SPACE_HOLE

instance (s : CPuzzle) : Decidable (housed s) := by
  unfold housed; infer_instance

/-- A result other than the fault of a call that had no depth left. -/
def inDepth {α : Type} (r : Except Fault α) : Prop := r ≠ .error .outOfFuel

/-- The puzzle `s'` extends the puzzle `s`: every cell that is not `Empty` in
`s`, the first `placedCount` entries of `placed` and the direction of level 1
are the same in `s'`, and no piece is taken away. -/
def Extends (s s' : CPuzzle) : Prop :=
  (∀ c l k v, s.cell c l k = .ok v → v ≠ SPACE_EMPTY → s'.cell c l k = .ok v) ∧
  (∀ j, 0 ≤ j → j < s.placedCount → s'.placed.get j = s.placed.get j) ∧
  s'.tileDirection.a1 = s.tileDirection.a1 ∧ s.placedCount ≤ s'.placedCount

/-- Piece `i` in orientation `o` fits cell by cell over piece `i'` in
orientation `o'` lying the same way. -/
def rowFits (i : Int) (o : Nat) (i' : Int) (o' : Nat) : Prop :=
  ∀ j ∈ [(0 : Int), 1, 2],
    (do let v ← tableRead i o j
        let b ← tableRead i' o' j
        fitsAbove v b) = .ok 1

instance (i : Int) (o : Nat) (i' : Int) (o' : Nat) : Decidable (rowFits i o i' o') := by
  unfold rowFits; infer_instance

/-- Piece `a` fits over piece `b` in some pair of orientations. -/
def compatible (a b : Int) : Prop :=
  ∃ o ∈ [0, 1, 2, 3], ∃ o' ∈ [0, 1, 2, 3], rowFits a o b o'

instance (a b : Int) : Decidable (compatible a b) := by
  unfold compatible; infer_instance

/-- The pairs (upper piece, lower piece) of the table that fit in some pair of
orientations. -/
def compatiblePairs : List (Int × Int) :=
  [(0, 3), (1, 3), (1, 4), (1, 5), (2, 3), (3, 0), (3, 1), (3, 2), (3, 3), (3, 4), (3, 5),
    (4, 1), (4, 3), (4, 4), (4, 5), (5, 1), (5, 3), (5, 4), (5, 5)]

/-! ## The fit predicate -/

/-- C1: on the three piece-face codes `fitsAbove` returns a value, and that
value is `1` (true) exactly when the fit rule of the specification holds and
`0` otherwise; the nine pairs are listed. -/
theorem fitsAbove_truth_table (candidate below : Int)
    (hc : validOperand candidate) (hb : validOperand below) :
    fitsAbove candidate below = .ok (if specFits candidate below then 1 else 0) ∧
    fitsAbove SPACE_BUMP_UP SPACE_BUMP_UP = .ok 0 ∧
    fitsAbove SPACE_BUMP_DOWN SPACE_BUMP_UP = .ok 0 ∧
    fitsAbove SPACE_BUMP_DOWN SPACE_BUMP_DOWN = .ok 0 ∧
    fitsAbove SPACE_HOLE SPACE_BUMP_UP = .ok 1 ∧
    fitsAbove SPACE_HOLE SPACE_BUMP_DOWN = .ok 1 ∧
    fitsAbove SPACE_BUMP_UP SPACE_BUMP_DOWN = .ok 1 ∧
    fitsAbove SPACE_HOLE SPACE_HOLE = .ok 1 ∧
    fitsAbove SPACE_BUMP_UP SPACE_HOLE = .ok 1 ∧
    fitsAbove SPACE_BUMP_DOWN SPACE_HOLE = .ok 1 := by
  refine ⟨?_, rfl, rfl, rfl, rfl, rfl, rfl, rfl, rfl, rfl⟩
  rcases hc with rfl | rfl | rfl <;> rcases hb with rfl | rfl | rfl <;> rfl

/-- Witness of C1: a `BumpUp` over a `BumpDown`. -/
theorem fitsAbove_truth_table_witness :
    fitsAbove SPACE_BUMP_UP SPACE_BUMP_DOWN = .ok 1 :=
  (fitsAbove_truth_table SPACE_BUMP_UP SPACE_BUMP_DOWN (by decide) (by decide)).1

/-- C2 as stated fails: an unrecognised candidate code (here `7`) over a `Hole`
does not raise, `fitsAbove` returns `1`. -/
theorem fitsAbove_unrecognised_candidate_no_throw :
    ¬ (∀ candidate below : Int,
        throws (fitsAbove candidate below) ↔
          (¬ validOperand candidate ∨ ¬ validOperand below)) := by
  intro h
  have h7 := (h 7 SPACE_HOLE).2 (Or.inl (by decide))
  rcases h7 with h7 | h7 <;> simp [fitsAbove] at h7

/-- C2, amended: `fitsAbove` raises exactly when one of the operands is `Empty`
or the code below is not `Hole`, `BumpUp` or `BumpDown`; it raises nothing else,
and a candidate code is only ever checked against `Empty`. -/
theorem fitsAbove_throws_iff (candidate below : Int) :
    (throws (fitsAbove candidate below) ↔
      (candidate = SPACE_EMPTY ∨ below = SPACE_EMPTY ∨ ¬ validOperand below)) ∧
    ((∃ e, fitsAbove candidate below = .error e) ↔ throws (fitsAbove candidate below)) := by
  unfold throws fitsAbove validOperand
  simp only [SPACE_EMPTY, SPACE_HOLE, SPACE_BUMP_UP, SPACE_BUMP_DOWN]
  by_cases h0 : below = 0
  · simp [h0]
  by_cases h1 : candidate = 0
  · simp [h1]
  by_cases h2 : below = 1
  · simp [h2, h1]
  by_cases h3 : below = 2
  · simp [h3, h1]
  by_cases h4 : below = 3
  · simp [h4, h1]
  · simp [h0, h1, h2, h3, h4]

/-! ## Pieces and their orientations -/

/-- Flags built by the program are `0` or `1`. -/
theorem CPiece.Constructed.flags {p : CPiece} (h : CPiece.Constructed p) :
    (p.flipped = 0 ∨ p.flipped = 1) ∧ (p.reversed = 0 ∨ p.reversed = 1) := by
  induction h with
  | new => exact ⟨Or.inl rfl, Or.inl rfl⟩
  | new3 s1 s2 s3 => exact ⟨Or.inl rfl, Or.inl rfl⟩
  | assign p _ ih => exact ih
  | flip p _ ih =>
    refine ⟨?_, ih.2⟩
    show lnot p.flipped = 0 ∨ lnot p.flipped = 1
    unfold lnot
    split <;> simp
  | reverse p _ ih =>
    refine ⟨ih.1, ?_⟩
    show lnot p.reversed = 0 ∨ lnot p.reversed = 1
    unfold lnot
    split <;> simp

/-- Two applications of `!` give back a flag that is `0` or `1`. -/
theorem lnot_lnot_flag {x : Int} (h : x = 0 ∨ x = 1) : lnot (lnot x) = x := by
  rcases h with rfl | rfl <;> rfl

/-- C3: for every canonical triple, every value of the two flags and every
index `i` in `0, 1, 2`, `operator[]` returns the canonical entry at `2 - i` when
`reversed` is set and at `i` otherwise, with `BumpUp` and `BumpDown` exchanged
when `flipped` is set; the four orientations of a fresh piece read
`(c0,c1,c2)`, `(s c0,s c1,s c2)`, `(c2,c1,c0)` and `(s c2,s c1,s c0)`. -/
theorem CPiece_index_spec (flipped reversed c0 c1 c2 i : Int)
    (hi : i = 0 ∨ i = 1 ∨ i = 2) :
    CPiece.index { flipped := flipped, reversed := reversed, piece := ⟨c0, c1, c2⟩ } i =
      .ok ((if flipped ≠ 0 then specSwap else id)
            (canonical c0 c1 c2 (if reversed ≠ 0 then 2 - i else i))) ∧
    reads (CPiece.new3 c0 c1 c2) = [.ok c0, .ok c1, .ok c2] ∧
    reads (CPiece.new3 c0 c1 c2).Flip =
      [.ok (specSwap c0), .ok (specSwap c1), .ok (specSwap c2)] ∧
    reads (CPiece.new3 c0 c1 c2).Reverse = [.ok c2, .ok c1, .ok c0] ∧
    reads (CPiece.new3 c0 c1 c2).Flip.Reverse =
      [.ok (specSwap c2), .ok (specSwap c1), .ok (specSwap c0)] ∧
    specSwap SPACE_BUMP_UP = SPACE_BUMP_DOWN ∧ specSwap SPACE_BUMP_DOWN = SPACE_BUMP_UP ∧
    specSwap SPACE_HOLE = SPACE_HOLE ∧ specSwap SPACE_EMPTY = SPACE_EMPTY := by
  have key : ∀ f r j : Int, (j = 0 ∨ j = 1 ∨ j = 2) →
      CPiece.index { flipped := f, reversed := r, piece := ⟨c0, c1, c2⟩ } j =
        .ok ((if f ≠ 0 then specSwap else id)
              (canonical c0 c1 c2 (if r ≠ 0 then 2 - j else j))) := by
    intro f r j hj
    by_cases hr : r = 0 <;> by_cases hf : f = 0 <;>
      rcases hj with rfl | rfl | rfl <;>
      simp [CPiece.index, Arr3.get, canonical, specSwap, hr, hf, bind, Except.bind, pure,
        Except.pure, apply_ite (Except.ok : Int → Except Fault Int)]
  refine ⟨key flipped reversed i hi, ?_, ?_, ?_, ?_, rfl, rfl, rfl, rfl⟩
  · simp [reads, CPiece.new3, key, canonical]
  · simp [reads, CPiece.new3, CPiece.Flip, lnot, key, canonical]
  · simp [reads, CPiece.new3, CPiece.Reverse, lnot, key, canonical]
  · simp [reads, CPiece.new3, CPiece.Flip, CPiece.Reverse, lnot, key, canonical]

/-- Witness of C3: piece 1 of the table, flipped and reversed, read at index 0. -/
theorem CPiece_index_spec_witness :
    CPiece.index { flipped := 1, reversed := 1,
                   piece := ⟨SPACE_BUMP_DOWN, SPACE_HOLE, SPACE_BUMP_UP⟩ } 0 =
      .ok SPACE_BUMP_DOWN :=
  (CPiece_index_spec 1 1 SPACE_BUMP_DOWN SPACE_HOLE SPACE_BUMP_UP 0 (Or.inl rfl)).1

/-- C4: on a piece built by the program two `Flip` calls, and two `Reverse`
calls, give back the same piece (flags, triple and every read), and neither
call changes the stored triple. -/
theorem Flip_Reverse_involutive (p : CPiece) (h : CPiece.Constructed p) :
    p.Flip.Flip = p ∧ p.Reverse.Reverse = p ∧
    (∀ i : Int, p.Flip.Flip.index i = p.index i) ∧
    (∀ i : Int, p.Reverse.Reverse.index i = p.index i) ∧
    p.Flip.piece = p.piece ∧ p.Reverse.piece = p.piece := by
  have hf : p.Flip.Flip = p := by
    cases p
    simp only [CPiece.Flip, CPiece.mk.injEq, and_true, true_and]
    exact lnot_lnot_flag h.flags.1
  have hr : p.Reverse.Reverse = p := by
    cases p
    simp only [CPiece.Reverse, CPiece.mk.injEq, and_true, true_and]
    exact lnot_lnot_flag h.flags.2
  exact ⟨hf, hr, fun i => by rw [hf], fun i => by rw [hr], rfl, rfl⟩

/-- Witness of C4: piece 0 of the table. -/
theorem Flip_Reverse_involutive_witness :
    pieces.a0.Flip.Flip = pieces.a0 ∧ pieces.a0.Reverse.Reverse = pieces.a0 :=
  have h := Flip_Reverse_involutive pieces.a0 (CPiece.Constructed.new3 _ _ _)
  ⟨h.1, h.2.1⟩

/-- C5: `Flip` then `Reverse` and `Reverse` then `Flip` leave every piece in the
same state, so every read agrees. -/
theorem Flip_Reverse_commute (p : CPiece) :
    p.Flip.Reverse = p.Reverse.Flip ∧
    ∀ i : Int, p.Flip.Reverse.index i = p.Reverse.Flip.index i := by
  have h : p.Flip.Reverse = p.Reverse.Flip := rfl
  exact ⟨h, fun i => by rw [h]⟩


/-! ## Array and grid lemmas -/

/-- Reading `a[j]` after the write `a[i] = v`. -/
theorem Arr3_get_of_set {α : Type} {a a' : Arr3 α} {i : Int} {v : α}
    (h : a.set i v = .ok a') (j : Int) :
    a'.get j = if j = i then .ok v else a.get j := by
  unfold Arr3.set at h
  split_ifs at h with h0 h1 h2 <;> cases h <;> subst_vars <;>
    by_cases j0 : j = 0 <;> by_cases j1 : j = 1 <;> by_cases j2 : j = 2 <;>
    simp_all [Arr3.get]

/-- Reading `a[j]` after the write `a[i] = v`. -/
theorem Arr4_get_of_set {α : Type} {a a' : Arr4 α} {i : Int} {v : α}
    (h : a.set i v = .ok a') (j : Int) :
    a'.get j = if j = i then .ok v else a.get j := by
  unfold Arr4.set at h
  split_ifs at h with h0 h1 h2 h3 <;> cases h <;> subst_vars <;>
    by_cases j0 : j = 0 <;> by_cases j1 : j = 1 <;> by_cases j2 : j = 2 <;>
    by_cases j3 : j = 3 <;> simp_all [Arr4.get]

/-- A write to one cell of the grid changes that cell and nothing else of the
puzzle. -/
theorem CPuzzle.setCell_spec {s s' : CPuzzle} {i j k v : Int}
    (h : s.setCell i j k v = .ok s') :
    (∀ c l r : Int, s'.cell c l r = if c = i ∧ l = j ∧ r = k then .ok v else s.cell c l r) ∧
    s'.pieceCount = s.pieceCount ∧ s'.placedCount = s.placedCount ∧ s'.placed = s.placed ∧
    s'.tileDirection = s.tileDirection ∧ s'.level = s.level := by
  unfold CPuzzle.setCell at h
  cases hc : s.spaces.get i with
  | error e => simp [hc, bind, Except.bind] at h
  | ok column =>
  cases hr : column.get j with
  | error e => simp [hc, hr, bind, Except.bind] at h
  | ok row =>
  cases hr' : row.set k v with
  | error e => simp [hc, hr, hr', bind, Except.bind] at h
  | ok row' =>
  cases hc' : column.set j row' with
  | error e => simp [hc, hr, hr', hc', bind, Except.bind] at h
  | ok column' =>
  cases hs : s.spaces.set i column' with
  | error e => simp [hc, hr, hr', hc', hs, bind, Except.bind] at h
  | ok spaces' =>
  simp only [hc, hr, hr', hc', hs, bind, Except.bind, pure, Except.pure, Except.ok.injEq] at h
  subst h
  refine ⟨?_, rfl, rfl, rfl, rfl, rfl⟩
  intro c l r
  simp only [CPuzzle.cell, Arr3_get_of_set hs c]
  by_cases hci : c = i
  · subst hci
    simp only [true_and, if_true, bind, Except.bind, Arr4_get_of_set hc' l, hc]
    by_cases hlj : l = j
    · subst hlj
      simp only [true_and, if_true, Arr3_get_of_set hr' r, hr]
    · simp only [hlj, false_and, if_false]
  · simp only [hci, false_and, if_false]

/-- A write inside the bounds of `spaces[3][4][3]` succeeds. -/
theorem CPuzzle.setCell_ok (s : CPuzzle) {i j k : Int} (v : Int)
    (hi : i = 0 ∨ i = 1 ∨ i = 2) (hj : j = 0 ∨ j = 1 ∨ j = 2 ∨ j = 3)
    (hk : k = 0 ∨ k = 1 ∨ k = 2) : ∃ s', s.setCell i j k v = .ok s' := by
  rcases hi with rfl | rfl | rfl <;> rcases hj with rfl | rfl | rfl | rfl <;>
    rcases hk with rfl | rfl | rfl <;>
    simp [CPuzzle.setCell, Arr3.get, Arr4.get, Arr3.set, Arr4.set, bind, Except.bind, pure,
      Except.pure]

/-! ## `PlacePiece` -/

/-- A sequenced computation returns a value when both parts do. -/
theorem bind_ok_iff {α β : Type} (x : Except Fault α) (f : α → Except Fault β) (b : β) :
    (x >>= f) = .ok b ↔ ∃ a, x = .ok a ∧ f a = .ok b := by
  cases x <;> simp [bind, Except.bind]

/-- The value `fitsAbove` returns is `0` or `1`. -/
theorem fitsAbove_ok_cases {c b f : Int} (h : fitsAbove c b = .ok f) : f = 0 ∨ f = 1 := by
  unfold fitsAbove at h
  split_ifs at h <;> cases h <;> simp

/-- The value assigned to `fit` is `0` or `1`. -/
theorem fitAt_ok_cases {s : CPuzzle} {p : CPiece} {i f : Int} (h : fitAt s p i = .ok f) :
    f = 0 ∨ f = 1 := by
  unfold fitAt at h
  simp only [bind_ok_iff] at h
  obtain ⟨c, -, d, -, h⟩ := h
  split at h <;>
    (simp only [bind_ok_iff] at h
     obtain ⟨b, -, h⟩ := h
     exact fitsAbove_ok_cases h)

/-- The test loop ends with a nonzero `fit` exactly when each of its three
passes assigns `1`. -/
theorem placeTest_three (s : CPuzzle) (p : CPiece) (f : Int) :
    (placeTest s p [0, 1, 2] 0 = .ok f ∧ f ≠ 0) ↔
      (f = 1 ∧ fitAt s p 0 = .ok 1 ∧ fitAt s p 1 = .ok 1 ∧ fitAt s p 2 = .ok 1) := by
  simp only [placeTest]
  cases h0 : fitAt s p 0 with
  | error e => simp [bind, Except.bind]
  | ok f0 =>
  rcases fitAt_ok_cases h0 with rfl | rfl
  · simp [bind, Except.bind, pure, Except.pure]
    intro h; exact h.symm
  cases h1 : fitAt s p 1 with
  | error e => simp [bind, Except.bind]
  | ok f1 =>
  rcases fitAt_ok_cases h1 with rfl | rfl
  · simp [bind, Except.bind, pure, Except.pure]
    intro h; exact h.symm
  cases h2 : fitAt s p 2 with
  | error e => simp [bind, Except.bind]
  | ok f2 =>
  rcases fitAt_ok_cases h2 with rfl | rfl
  · simp [bind, Except.bind, pure, Except.pure]
    intro h; exact h.symm
  · simp [bind, Except.bind, pure, Except.pure]
    constructor
    · rintro ⟨h, -⟩; exact h.symm
    · rintro rfl; simp

/-- The result of `PlacePiece` in terms of its two loops. -/
theorem PlacePiece_ok_iff (s : CPuzzle) (n : Int) (p : CPiece) (fit : Int) (s' : CPuzzle)
    (n' : Int) :
    s.PlacePiece n p = .ok (fit, s', n') ↔
      n' = n + 1 ∧
      placeTest { s with level := s.placedCount.tdiv DIM + 1 } p [0, 1, 2] 0 = .ok fit ∧
      (if fit ≠ 0 then
        placeWrite p [0, 1, 2] { s with level := s.placedCount.tdiv DIM + 1 } = .ok s'
       else s' = { s with level := s.placedCount.tdiv DIM + 1 }) := by
  unfold CPuzzle.PlacePiece
  simp only [bind_ok_iff]
  constructor
  · rintro ⟨f, hf, h⟩
    by_cases hz : f = 0
    · subst hz
      simp [pure, Except.pure] at h
      obtain ⟨rfl, rfl, rfl⟩ := h
      simp [hf]
    · simp only [ne_eq, hz, not_false_eq_true, if_true, bind_ok_iff] at h
      obtain ⟨s2, hs2, h⟩ := h
      simp [pure, Except.pure] at h
      obtain ⟨rfl, rfl, rfl⟩ := h
      simp [hf, hz, hs2]
  · rintro ⟨rfl, hf, h⟩
    refine ⟨fit, hf, ?_⟩
    by_cases hz : fit = 0
    · subst hz
      simp at h
      simp [pure, Except.pure, h]
    · simp only [ne_eq, hz, not_false_eq_true, if_true] at h
      simp [hz, h, bind, Except.bind, pure, Except.pure]

/-- C6: when `PlacePiece` returns false the grid is the one before the call,
cell for cell, and `placedCount`, `placed` and `tileDirection` are unchanged;
this holds for every puzzle state, filled to any count. -/
theorem PlacePiece_false_frame (s : CPuzzle) (iterations : Int) (p : CPiece)
    (s' : CPuzzle) (iterations' : Int)
    (h : s.PlacePiece iterations p = .ok (0, s', iterations')) :
    s'.spaces = s.spaces ∧ (∀ c l k : Int, s'.cell c l k = s.cell c l k) ∧
    s'.placedCount = s.placedCount ∧ s'.placed = s.placed ∧
    s'.tileDirection = s.tileDirection := by
  rw [PlacePiece_ok_iff] at h
  obtain ⟨-, -, h⟩ := h
  simp only [ne_eq, not_true_eq_false, if_false] at h
  subst h
  exact ⟨rfl, fun _ _ _ => rfl, rfl, rfl, rfl⟩

/-- Witness of C6: on a full level 1, piece 0 fits with its first cell and not
with its second; the call returns false and the grid is untouched. -/
theorem PlacePiece_false_frame_witness :
    layerOneFull.placedCount = 3 ∧
    fitAt { layerOneFull with level := 2 } pieces.a0 0 = .ok 1 ∧
    fitAt { layerOneFull with level := 2 } pieces.a0 1 = .ok 0 ∧
    ({ layerOneFull with level := 2 } : CPuzzle).spaces = layerOneFull.spaces :=
  ⟨by decide, by decide, by decide,
   (PlacePiece_false_frame layerOneFull 0 pieces.a0 { layerOneFull with level := 2 } 1
      (by decide)).1⟩

/-- One pass of the test loop in terms of the addressed cell. -/
theorem fitAt_ok_iff {s : CPuzzle} {p : CPiece} {d : Int}
    (hd : s.tileDirection.get s.level = .ok d) (i f : Int) :
    fitAt s p i = .ok f ↔
      ∃ c b, p.index i = .ok c ∧
        s.cell (specAddress d (s.placedCount.tmod 3) i).1 (s.level - 1)
          (specAddress d (s.placedCount.tmod 3) i).2 = .ok b ∧
        fitsAbove c b = .ok f := by
  unfold fitAt specAddress
  by_cases hLR : d = TILE_LEFT_RIGHT <;>
    simp only [bind_ok_iff, hd, Except.ok.injEq, exists_eq_left', hLR, if_true, if_false] <;>
    exact ⟨fun ⟨c, hc, b, hb, h⟩ => ⟨c, b, hc, hb, h⟩, fun ⟨c, b, hc, hb, h⟩ => ⟨c, hc, b, hb, h⟩⟩

/-- One pass of the write loop in terms of the addressed cell. -/
theorem writeAt_ok_iff {s : CPuzzle} {p : CPiece} {d : Int}
    (hd : s.tileDirection.get s.level = .ok d) (i : Int) (s' : CPuzzle) :
    writeAt p i s = .ok s' ↔
      ∃ c, p.index i = .ok c ∧
        s.setCell (specAddress d (s.placedCount.tmod 3) i).1 s.level
          (specAddress d (s.placedCount.tmod 3) i).2 c = .ok s' := by
  unfold writeAt specAddress
  by_cases hLR : d = TILE_LEFT_RIGHT <;>
    simp only [bind_ok_iff, hd, Except.ok.injEq, exists_eq_left', hLR, if_true, if_false]

/-- The cells of the grid after the write loop of `PlacePiece`. -/
theorem placeWrite_three {s : CPuzzle} {p : CPiece} {d : Int}
    (hd : s.tileDirection.get s.level = .ok d) (s' : CPuzzle)
    (h : placeWrite p [0, 1, 2] s = .ok s') :
    ∃ c0 c1 c2, p.index 0 = .ok c0 ∧ p.index 1 = .ok c1 ∧ p.index 2 = .ok c2 ∧
      ∀ c l k : Int, s'.cell c l k =
        if c = (specAddress d (s.placedCount.tmod 3) 2).1 ∧ l = s.level ∧
            k = (specAddress d (s.placedCount.tmod 3) 2).2 then .ok c2
        else if c = (specAddress d (s.placedCount.tmod 3) 1).1 ∧ l = s.level ∧
            k = (specAddress d (s.placedCount.tmod 3) 1).2 then .ok c1
        else if c = (specAddress d (s.placedCount.tmod 3) 0).1 ∧ l = s.level ∧
            k = (specAddress d (s.placedCount.tmod 3) 0).2 then .ok c0
        else s.cell c l k := by
  simp only [placeWrite, bind_ok_iff, pure, Except.pure] at h
  obtain ⟨sa, ha, sb, hb, sc, hc, hsc⟩ := h
  cases hsc
  rw [writeAt_ok_iff hd] at ha
  obtain ⟨c0, hc0, ha⟩ := ha
  obtain ⟨cella, -, pca, -, tda, lva⟩ := CPuzzle.setCell_spec ha
  rw [writeAt_ok_iff (d := d) (by rw [tda, lva]; exact hd)] at hb
  obtain ⟨c1, hc1, hb⟩ := hb
  obtain ⟨cellb, -, pcb, -, tdb, lvb⟩ := CPuzzle.setCell_spec hb
  rw [writeAt_ok_iff (d := d) (by rw [tdb, lvb, tda, lva]; exact hd)] at hc
  obtain ⟨c2, hc2, hc⟩ := hc
  obtain ⟨cellc, -, -, -, -, -⟩ := CPuzzle.setCell_spec hc
  refine ⟨c0, c1, c2, hc0, hc1, hc2, fun c l k => ?_⟩
  rw [cellc, cellb, cella, pcb, pca, lvb, lva]

/-- The write loop of `PlacePiece` succeeds when the piece can be read and the
addressed cells are inside the grid. -/
theorem placeWrite_three_ok {s : CPuzzle} {p : CPiece} {d : Int}
    (hd : s.tileDirection.get s.level = .ok d)
    (hp : ∀ i ∈ [(0 : Int), 1, 2], ∃ c, p.index i = .ok c)
    (hl : s.level = 0 ∨ s.level = 1 ∨ s.level = 2 ∨ s.level = 3)
    (hr : s.placedCount.tmod 3 = 0 ∨ s.placedCount.tmod 3 = 1 ∨ s.placedCount.tmod 3 = 2) :
    ∃ s', placeWrite p [0, 1, 2] s = .ok s' := by
  have haddr : ∀ i : Int, i = 0 ∨ i = 1 ∨ i = 2 →
      ((specAddress d (s.placedCount.tmod 3) i).1 = 0 ∨
        (specAddress d (s.placedCount.tmod 3) i).1 = 1 ∨
        (specAddress d (s.placedCount.tmod 3) i).1 = 2) ∧
      ((specAddress d (s.placedCount.tmod 3) i).2 = 0 ∨
        (specAddress d (s.placedCount.tmod 3) i).2 = 1 ∨
        (specAddress d (s.placedCount.tmod 3) i).2 = 2) := by
    intro i hi
    unfold specAddress
    split <;> exact ⟨by assumption, by assumption⟩
  have step : ∀ (t : CPuzzle) (i : Int), i = 0 ∨ i = 1 ∨ i = 2 →
      t.tileDirection = s.tileDirection → t.level = s.level → t.placedCount = s.placedCount →
      ∃ t', writeAt p i t = .ok t' ∧ t'.tileDirection = s.tileDirection ∧
        t'.level = s.level ∧ t'.placedCount = s.placedCount := by
    intro t i hi htd hlv hpc
    obtain ⟨c, hc⟩ := hp i (by rcases hi with rfl | rfl | rfl <;> simp)
    have hdt : t.tileDirection.get t.level = .ok d := by rw [htd, hlv]; exact hd
    obtain ⟨t', ht'⟩ := CPuzzle.setCell_ok t c
      (i := (specAddress d (t.placedCount.tmod 3) i).1) (j := t.level)
      (k := (specAddress d (t.placedCount.tmod 3) i).2)
      (by rw [hpc]; exact (haddr i hi).1) (by rw [hlv]; exact hl)
      (by rw [hpc]; exact (haddr i hi).2)
    obtain ⟨-, -, pc', -, td', lv'⟩ := CPuzzle.setCell_spec ht'
    exact ⟨t', (writeAt_ok_iff hdt i t').2 ⟨c, hc, ht'⟩, by rw [td', htd], by rw [lv', hlv],
      by rw [pc', hpc]⟩
  obtain ⟨sa, ha, tda, lva, pca⟩ := step s 0 (Or.inl rfl) rfl rfl rfl
  obtain ⟨sb, hb, tdb, lvb, pcb⟩ := step sa 1 (Or.inr (Or.inl rfl)) tda lva pca
  obtain ⟨sc, hc, -, -, -⟩ := step sb 2 (Or.inr (Or.inr rfl)) tdb lvb pcb
  exact ⟨sc, by simp [placeWrite, bind, Except.bind, pure, Except.pure, ha, hb, hc]⟩


/-- C7: with `0 ≤ placedCount ≤ 5`, `L = placedCount/3 + 1` and
`r = placedCount mod 3`, `PlacePiece` returns true exactly when `fitsAbove`
returns true for each of the three cells of the piece over the cell below its
addressed cell (column `i`, row `r` under `LeftRight`; column `r`, row `i`
otherwise), and then the three addressed cells of level `L` hold the three
reads of the piece while every other cell of the grid is unchanged. -/
theorem PlacePiece_spec (s : CPuzzle) (iterations : Int) (p : CPiece)
    (h0 : 0 ≤ s.placedCount) (h5 : s.placedCount ≤ 5) :
    ∃ direction, s.tileDirection.get (s.placedCount / 3 + 1) = .ok direction ∧
      ((∃ fit s' n', s.PlacePiece iterations p = .ok (fit, s', n') ∧ fit ≠ 0) ↔
        ∀ i ∈ [(0 : Int), 1, 2], ∃ c b, p.index i = .ok c ∧
          s.cell (specAddress direction (s.placedCount % 3) i).1 (s.placedCount / 3 + 1 - 1)
            (specAddress direction (s.placedCount % 3) i).2 = .ok b ∧
          fitsAbove c b = .ok 1) ∧
      (∀ fit s' n', s.PlacePiece iterations p = .ok (fit, s', n') → fit ≠ 0 →
        (∀ i ∈ [(0 : Int), 1, 2],
          s'.cell (specAddress direction (s.placedCount % 3) i).1 (s.placedCount / 3 + 1)
            (specAddress direction (s.placedCount % 3) i).2 = p.index i) ∧
        (∀ c l k : Int,
          (∀ i ∈ [(0 : Int), 1, 2],
            (c, l, k) ≠ ((specAddress direction (s.placedCount % 3) i).1,
              s.placedCount / 3 + 1, (specAddress direction (s.placedCount % 3) i).2)) →
          s'.cell c l k = s.cell c l k)) := by
  have hdiv : s.placedCount.tdiv DIM = s.placedCount / 3 := Int.tdiv_eq_ediv h0 (by decide)
  have hmod : s.placedCount.tmod 3 = s.placedCount % 3 := Int.tmod_eq_emod h0 (by decide)
  have hL : s.placedCount / 3 + 1 = 1 ∨ s.placedCount / 3 + 1 = 2 := by omega
  have hr : s.placedCount % 3 = 0 ∨ s.placedCount % 3 = 1 ∨ s.placedCount % 3 = 2 := by omega
  obtain ⟨d, hd⟩ : ∃ d, s.tileDirection.get (s.placedCount / 3 + 1) = .ok d := by
    rcases hL with h | h <;> rw [h] <;> simp [Arr4.get]
  refine ⟨d, hd, ?_, ?_⟩
  all_goals
    generalize hs1 : ({ s with level := s.placedCount.tdiv DIM + 1 } : CPuzzle) = s1
    have e1 : s1.level = s.placedCount / 3 + 1 := by rw [← hs1, ← hdiv]
    have e2 : s1.tileDirection = s.tileDirection := by rw [← hs1]
    have e3 : s1.placedCount = s.placedCount := by rw [← hs1]
    have e4 : ∀ c l k : Int, s1.cell c l k = s.cell c l k := by
      intro c l k; rw [← hs1]; rfl
    have hd1 : s1.tileDirection.get s1.level = .ok d := by rw [e1, e2]; exact hd
    have key : ∀ i f : Int, fitAt s1 p i = .ok f ↔
        ∃ c b, p.index i = .ok c ∧
          s.cell (specAddress d (s.placedCount % 3) i).1 (s.placedCount / 3 + 1 - 1)
            (specAddress d (s.placedCount % 3) i).2 = .ok b ∧
          fitsAbove c b = .ok f := by
      intro i f
      rw [fitAt_ok_iff hd1, e1, e3, hmod]
      simp only [e4]
  · constructor
    · rintro ⟨fit, s', n', h, hfit⟩
      rw [PlacePiece_ok_iff, hs1] at h
      have ht := (placeTest_three s1 p fit).1 ⟨h.2.1, hfit⟩
      obtain ⟨-, f0, f1, f2⟩ := ht
      rw [key] at f0 f1 f2
      intro i hi
      simp only [List.mem_cons, List.mem_singleton, List.not_mem_nil, or_false] at hi
      rcases hi with rfl | rfl | rfl
      · exact f0
      · exact f1
      · exact f2
    · intro hall
      have f0 := hall 0 (by simp)
      have f1 := hall 1 (by simp)
      have f2 := hall 2 (by simp)
      have hp : ∀ i ∈ [(0 : Int), 1, 2], ∃ c, p.index i = .ok c := by
        intro i hi
        obtain ⟨c, _, hc, _⟩ := hall i hi
        exact ⟨c, hc⟩
      rw [← key] at f0 f1 f2
      have ht := (placeTest_three s1 p 1).2 ⟨rfl, f0, f1, f2⟩
      obtain ⟨s', hs'⟩ := placeWrite_three_ok (p := p) hd1 hp
        (by rw [e1]; omega) (by rw [e3, hmod]; exact hr)
      refine ⟨1, s', iterations + 1, ?_, by decide⟩
      rw [PlacePiece_ok_iff, hs1]
      exact ⟨rfl, ht.1, by simpa using hs'⟩
  · intro fit s' n' h hfit
    rw [PlacePiece_ok_iff, hs1] at h
    obtain ⟨-, -, hw⟩ := h
    simp only [ne_eq, hfit, not_false_eq_true, if_true] at hw
    obtain ⟨c0, c1, c2, i0, i1, i2, hcell⟩ := placeWrite_three hd1 s' hw
    rw [e1, e3, hmod] at hcell
    simp only [e4] at hcell
    constructor
    · intro i hi
      simp only [List.mem_cons, List.mem_singleton, List.not_mem_nil, or_false] at hi
      rw [hcell]
      by_cases hLR : d = TILE_LEFT_RIGHT <;>
        rcases hi with rfl | rfl | rfl <;>
        simp [specAddress, hLR, i0, i1, i2]
    · intro c l k hne
      rw [hcell]
      have n0 := hne 0 (by simp)
      have n1 := hne 1 (by simp)
      have n2 := hne 2 (by simp)
      simp only [ne_eq, Prod.mk.injEq] at n0 n1 n2
      simp only [n0, n1, n2, if_false]


/-- Witness of C7: the fresh puzzle and piece 0. -/
theorem PlacePiece_spec_witness :
    (0 ≤ CPuzzle.new.placedCount ∧ CPuzzle.new.placedCount ≤ 5) ∧
    ∃ direction, CPuzzle.new.tileDirection.get (CPuzzle.new.placedCount / 3 + 1) =
      .ok direction :=
  ⟨⟨by decide, by decide⟩,
   (PlacePiece_spec CPuzzle.new 0 pieces.a0 (by decide) (by decide)).imp fun _ h => h.1⟩

/-! ## `AlreadyPlaced` -/

/-- The index values of a loop over six slots. -/
theorem intRange_six : intRange 6 = [0, 1, 2, 3, 4, 5] := by decide

/-- C8: with the placement list `l` (at most six entries of any value) held in
`placed` the way the program holds it and `pieceCount = 6`, `AlreadyPlaced`
answers a query `q` in `0..5` with true exactly when `q` occurs in `l`. -/
theorem AlreadyPlaced_iff (s : CPuzzle) (l : List Int) (q : Int)
    (hn : l.length ≤ 6) (hq0 : 0 ≤ q) (hq5 : q ≤ 5)
    (hc : s.pieceCount = 6) (hp : s.placed = placedOf l) :
    s.AlreadyPlaced q = .ok (if q ∈ l then 1 else 0) := by
  have hq : (-1 : Int) ≠ q := by omega
  unfold CPuzzle.AlreadyPlaced
  rw [hc, hp, intRange_six]
  rcases l with _ | ⟨a, _ | ⟨b, _ | ⟨c, _ | ⟨d, _ | ⟨e, _ | ⟨f, _ | ⟨g, l⟩⟩⟩⟩⟩⟩⟩
  case cons.cons.cons.cons.cons.cons.cons => simp at hn
  all_goals
    simp only [alreadyPlacedLoop, placedOf, Arr6.get, List.getD, List.get?, Option.getD,
      bind, Except.bind, pure, Except.pure, List.mem_cons, List.not_mem_nil, or_false]
    simp [hq, eq_comm]
    try (split_ifs <;> simp_all)

/-- Witness of C8: the list `[0, 1, 4]` of the puzzle with a full level 1,
queried for piece 4 (present) and piece 2 (absent). -/
theorem AlreadyPlaced_iff_witness :
    layerOneFull.placed = placedOf [0, 1, 4] ∧
    layerOneFull.AlreadyPlaced 4 = .ok 1 ∧ layerOneFull.AlreadyPlaced 2 = .ok 0 :=
  ⟨by decide,
   AlreadyPlaced_iff layerOneFull [0, 1, 4] 4 (by decide) (by decide) (by decide) (by decide)
     (by decide),
   AlreadyPlaced_iff layerOneFull [0, 1, 4] 2 (by decide) (by decide) (by decide) (by decide)
     (by decide)⟩



/-! ## The counter `iterations` does not steer the search -/

/-- `PlacePiece` adds one to `iterations` and does not read it otherwise. -/
theorem PlacePiece_shift (s : CPuzzle) (n d : Int) (p : CPiece) :
    s.PlacePiece (n + d) p = (s.PlacePiece n p).map (addIterations d) := by
  unfold CPuzzle.PlacePiece
  simp only []
  generalize placeTest { s with level := s.placedCount.tdiv DIM + 1 } p [0, 1, 2] 0 = t
  generalize placeWrite p [0, 1, 2] { s with level := s.placedCount.tdiv DIM + 1 } = w
  cases t with
  | error e => rfl
  | ok fit =>
    by_cases hfit : fit = 0
    · simp [hfit, bind, Except.bind, pure, Except.pure, Except.map, addIterations,
        add_right_comm]
    · cases w with
      | error e => simp [hfit, bind, Except.bind, Except.map]
      | ok s' =>
        simp [hfit, bind, Except.bind, pure, Except.pure, Except.map, addIterations,
          add_right_comm]

/-- The body of the orientation loop carries an offset of `iterations` through. -/
theorem orientationBody_shift {solve : SolveFn} (h : solve.Shifts) (i : Int)
    (orientation : Nat) (d : Int) (v : SolveVars) :
    orientationBody solve i orientation (v.addIterations d) =
      (orientationBody solve i orientation v).map (SolveVars.addIterations d) := by
  unfold orientationBody
  simp only [SolveVars.addIterations]
  cases pieces.get i with
  | error e => rfl
  | ok piece =>
  cases v.newPuzzle.assign v.self with
  | error e => rfl
  | ok newPuzzle =>
  simp only [bind, Except.bind, PlacePiece_shift]
  cases newPuzzle.PlacePiece v.iterations
      (if orientation &&& 2 ≠ 0 then
        (if orientation &&& 1 ≠ 0 then (CPiece.assign piece).Flip
         else CPiece.assign piece).Reverse
       else if orientation &&& 1 ≠ 0 then (CPiece.assign piece).Flip
       else CPiece.assign piece) with
  | error e => rfl
  | ok r =>
  obtain ⟨fit, placedPuzzle, n⟩ := r
  simp only [Except.map, addIterations]
  by_cases hfit : fit = 0
  · simp [hfit, pure, Except.pure, SolveVars.addIterations]
  simp only [ne_eq, hfit, not_false_eq_true, if_true]
  cases placedPuzzle.placed.set v.self.placedCount i with
  | error e => rfl
  | ok placed =>
  simp only [h d n]
  cases solve n { placedPuzzle with placed := placed, placedCount := placedPuzzle.placedCount + 1 } with
  | error e => rfl
  | ok r =>
  obtain ⟨solved, solvedPuzzle, n'⟩ := r
  simp only [Except.map, addIterations]
  by_cases hs : solved = 0
  · simp [hs, pure, Except.pure, SolveVars.addIterations]
  simp only [ne_eq, hs, not_false_eq_true, if_true]
  cases v.self.assign solvedPuzzle with
  | error e => rfl
  | ok self => rfl

/-- The orientation loop carries an offset of `iterations` through. -/
theorem orientationLoop_shift {solve : SolveFn} (h : solve.Shifts) (i : Int) (d : Int)
    (l : List Nat) (v : SolveVars) :
    orientationLoop solve i l (v.addIterations d) =
      (orientationLoop solve i l v).map (SolveVars.addIterations d) := by
  induction l generalizing v with
  | nil => rfl
  | cons orientation rest ih =>
    unfold orientationLoop
    have hv : (v.addIterations d).solved = v.solved := rfl
    by_cases hs : v.solved = 0
    · rw [if_neg (by rw [hv]; simpa using hs), if_neg (by simpa using hs),
        orientationBody_shift h]
      cases orientationBody solve i orientation v with
      | error e => rfl
      | ok v' => exact ih v'
    · rw [if_pos (by rw [hv]; exact hs), if_pos hs]
      rfl

/-- The piece loop carries an offset of `iterations` through. -/
theorem pieceLoop_shift {solve : SolveFn} (h : solve.Shifts) (d : Int)
    (l : List Int) (v : SolveVars) :
    pieceLoop solve l (v.addIterations d) =
      (pieceLoop solve l v).map (SolveVars.addIterations d) := by
  induction l generalizing v with
  | nil => rfl
  | cons i rest ih =>
    unfold pieceLoop
    have hv : (v.addIterations d).solved = v.solved := rfl
    have hself : (v.addIterations d).self = v.self := rfl
    by_cases hs : v.solved = 0
    · rw [if_neg (by rw [hv]; simpa using hs), if_neg (by simpa using hs), hself]
      cases v.self.AlreadyPlaced i with
      | error e => rfl
      | ok already =>
        by_cases ha : already = 0
        · simp only [bind, Except.bind, ha, if_true, orientationLoop_shift h]
          cases orientationLoop solve i [0, 1, 2, 3] v with
          | error e => rfl
          | ok v' => exact ih v'
        · simp only [bind, Except.bind, ha, if_false, pure, Except.pure]
          exact ih v
    · rw [if_pos (by rw [hv]; exact hs), if_pos hs]
      rfl

/-- The direction loop carries an offset of `iterations` through. -/
theorem directionLoop_shift {solve : SolveFn} (h : solve.Shifts) (d : Int)
    (l : List Nat) (v : SolveVars) :
    directionLoop solve l (v.addIterations d) =
      (directionLoop solve l v).map (SolveVars.addIterations d) := by
  induction l generalizing v with
  | nil => rfl
  | cons directionIter rest ih =>
    unfold directionLoop
    have hv : (v.addIterations d).solved = v.solved := rfl
    have hself : (v.addIterations d).self = v.self := rfl
    by_cases hs : v.solved = 0
    · rw [if_neg (by rw [hv]; simpa using hs), if_neg (by simpa using hs), hself,
        pieceLoop_shift h]
      cases pieceLoop solve (intRange v.self.pieceCount) v with
      | error e => rfl
      | ok v' =>
        have hv' : (v'.addIterations d).solved = v'.solved := rfl
        have hself' : (v'.addIterations d).self = v'.self := rfl
        simp only [bind, Except.bind, Except.map, hv', hself']
        split_ifs with hc
        · cases v'.self.tileDirection.get v'.self.level with
          | error e => rfl
          | ok direction =>
            simp only []
            split_ifs with hd
            · cases v'.self.tileDirection.set v'.self.level TILE_UP_DOWN with
              | error e => rfl
              | ok tileDirection =>
                exact ih { v' with self := { v'.self with tileDirection := tileDirection } }
            · exact ih v'
        · rfl
    · rw [if_pos (by rw [hv]; exact hs), if_pos hs]
      rfl

/-- The body of `Solve` carries an offset of `iterations` through when its
nested calls do. -/
theorem solveBody_shift {solve : SolveFn} (h : solve.Shifts) : (solveBody solve).Shifts := by
  intro d n s
  unfold solveBody
  simp only []
  split_ifs with hc
  · have hl := directionLoop_shift h d [0, 1]
      { self := { s with level := s.placedCount.tdiv DIM + 1 }, newPuzzle := CPuzzle.new,
        solved := 0, iterations := n }
    simp only [SolveVars.addIterations] at hl
    rw [hl]
    cases directionLoop solve [0, 1]
      { self := { s with level := s.placedCount.tdiv DIM + 1 }, newPuzzle := CPuzzle.new,
        solved := 0, iterations := n } with
    | error e => rfl
    | ok v => rfl
  · rfl

/-- The start value of `iterations` only offsets its final value: return value
and puzzle of `Solve` do not depend on it. -/
theorem SolveAux_shift (fuel : Nat) : (CPuzzle.SolveAux fuel).Shifts := by
  induction fuel with
  | zero => intro d n s; rfl
  | succ fuel ih => exact solveBody_shift ih

/-! ## The run of `Solve` on the fresh puzzle -/

/-! Each call of `Solve` two levels down in the first branch fails; the numbers
are the values of `iterations` on entry and on return. -/

theorem deadEnd_1_0 : (deadEnd 2 1 0 746).holds := by decide!

theorem deadEnd_1_1 : (deadEnd 747 1 1 1323).holds := by decide!

theorem deadEnd_1_2 : (deadEnd 1324 1 2 1900).holds := by decide!

theorem deadEnd_1_3 : (deadEnd 1901 1 3 2645).holds := by decide!

theorem deadEnd_2_0 : (deadEnd 2646 2 0 3294).holds := by decide!

theorem deadEnd_2_1 : (deadEnd 3295 2 1 3791).holds := by decide!

theorem deadEnd_2_2 : (deadEnd 3792 2 2 4304).holds := by decide!

theorem deadEnd_2_3 : (deadEnd 4305 2 3 4921).holds := by decide!

theorem deadEnd_3_0 : (deadEnd 4922 3 0 5354).holds := by decide!

theorem deadEnd_3_1 : (deadEnd 5355 3 1 5755).holds := by decide!

theorem deadEnd_3_2 : (deadEnd 5756 3 2 6404).holds := by decide!

theorem deadEnd_3_3 : (deadEnd 6405 3 3 7053).holds := by decide!

theorem deadEnd_4_0 : (deadEnd 7054 4 0 7558).holds := by decide!

theorem deadEnd_4_1 : (deadEnd 7559 4 1 8047).holds := by decide!

theorem deadEnd_4_2 : (deadEnd 8048 4 2 8668).holds := by decide!

theorem deadEnd_4_3 : (deadEnd 8669 4 3 9333).holds := by decide!

theorem deadEnd_5_0 : (deadEnd 9334 5 0 9838).holds := by decide!

theorem deadEnd_5_1 : (deadEnd 9839 5 1 10327).holds := by decide!

theorem deadEnd_5_2 : (deadEnd 10328 5 2 10948).holds := by decide!

theorem deadEnd_5_3 : (deadEnd 10949 5 3 11613).holds := by decide!

/-- The call on the puzzle that holds piece 0 flipped finds the solution. -/
theorem flippedStart_holds : flippedStart.holds := by decide!

/-- Every recorded call is what `SolveAux` computes. -/
theorem deadEnds_hold : ∀ k ∈ flippedStart :: deadEnds, k.holds := by
  intro k hk
  simp only [deadEnds, List.mem_cons, List.mem_singleton, List.not_mem_nil, or_false] at hk
  rcases hk with rfl | rfl | rfl | rfl | rfl | rfl | rfl | rfl | rfl | rfl | rfl | rfl | rfl |
    rfl | rfl | rfl | rfl | rfl | rfl | rfl | rfl
  exacts [flippedStart_holds, deadEnd_1_0, deadEnd_1_1, deadEnd_1_2, deadEnd_1_3, deadEnd_2_0,
    deadEnd_2_1, deadEnd_2_2, deadEnd_2_3, deadEnd_3_0, deadEnd_3_1, deadEnd_3_2, deadEnd_3_3,
    deadEnd_4_0, deadEnd_4_1, deadEnd_4_2, deadEnd_4_3, deadEnd_5_0, deadEnd_5_1, deadEnd_5_2,
    deadEnd_5_3]

/-- Answering recorded calls from a table of true records does not change
`SolveAux`. -/
theorem SolveMemo_eq (table : List Known) (h : ∀ k ∈ table, k.holds) (fuel : Nat) :
    SolveMemo table fuel = CPuzzle.SolveAux fuel := by
  induction fuel with
  | zero => rfl
  | succ fuel ih =>
    have hm : memo table fuel (SolveMemo table fuel) = CPuzzle.SolveAux fuel := by
      funext iterations puzzle
      unfold memo
      cases hf : table.find? (fun k =>
          decide (k.fuel = fuel ∧ k.iterations = iterations ∧ k.puzzle = puzzle)) with
      | none => simp only [ih]
      | some k =>
        have hk := h k (List.mem_of_find?_eq_some hf)
        have hp := List.find?_some hf
        simp only [decide_eq_true_eq] at hp
        obtain ⟨rfl, rfl, rfl⟩ := hp
        exact hk.symm
    show solveBody (memo table fuel (SolveMemo table fuel)) = solveBody (CPuzzle.SolveAux fuel)
    rw [hm]

/-- The first call of `Solve`, with the recorded calls answered from the table. -/
theorem SolveMemo_new :
    SolveMemo (flippedStart :: deadEnds) 7 0 CPuzzle.new = .ok (1, solvedPuzzle, 12395) := by
  decide!

/-- The run of `main`, where `iterations` starts at `0`. -/
theorem Solve_new_zero : CPuzzle.new.Solve 0 = .ok (1, solvedPuzzle, 12395) := by
  have h := SolveMemo_new
  rw [SolveMemo_eq _ deadEnds_hold] at h
  exact h

/-- The run of `main`: `Solve` on the fresh puzzle returns `1`, leaves the
solved puzzle and has added 12395 placement attempts to `iterations`. -/
theorem Solve_new (iterations : Int) :
    CPuzzle.new.Solve iterations = .ok (1, solvedPuzzle, iterations + 12395) := by
  have h := SolveAux_shift 7 iterations 0 CPuzzle.new
  rw [zero_add] at h
  have h0 : CPuzzle.SolveAux 7 0 CPuzzle.new = .ok (1, solvedPuzzle, 12395) := Solve_new_zero
  rw [h0] at h
  rw [show CPuzzle.new.Solve iterations = CPuzzle.SolveAux 7 iterations CPuzzle.new from rfl, h]
  simp [Except.map, addIterations, add_comm]

/-- C9: `Solve` on the fresh puzzle, whatever the counter `iterations` holds
at the start, returns without a fault, returns `1`, and leaves a puzzle with
`placedCount = 6` whose placement list is a permutation of `0, 1, 2, 3, 4, 5`. -/
theorem Solve_new_succeeds (iterations : Int) :
    ∃ p n, CPuzzle.new.Solve iterations = .ok (1, p, n) ∧ p.placedCount = 6 ∧
      (placedList p).Perm [0, 1, 2, 3, 4, 5] :=
  ⟨solvedPuzzle, iterations + 12395, Solve_new iterations, by decide, by decide⟩

/-- C10: in the puzzle that `Solve` leaves when run on the fresh puzzle
(whatever the counter `iterations` holds at the start) no
cell of levels 1 and 2 is `Empty`, and for each pair of levels `(0,1)`, `(1,2)`,
`(2,3)` and each of the nine places `fitsAbove` of the upper cell over the lower
cell returns `1`. -/
theorem Solve_new_layers_fit (iterations : Int) :
    ∃ p n, CPuzzle.new.Solve iterations = .ok (1, p, n) ∧
      (∀ c ∈ [(0 : Int), 1, 2], ∀ l ∈ [(1 : Int), 2], ∀ k ∈ [(0 : Int), 1, 2],
        cellFilled p c l k) ∧
      (∀ c ∈ [(0 : Int), 1, 2], ∀ l ∈ [(0 : Int), 1, 2], ∀ k ∈ [(0 : Int), 1, 2],
        fitsOver p c l k = .ok 1) :=
  ⟨solvedPuzzle, iterations + 12395, Solve_new iterations, by decide, by decide⟩

/-! ## Copies, the placement list and the pieces of the table -/

/-- With six pieces `operator=` copies every member. -/
theorem CPuzzle.assign_eq (q p : CPuzzle) (h : p.pieceCount = 6) : q.assign p = .ok p := by
  obtain ⟨sp, pc, k, ⟨p0, p1, p2, p3, p4, p5⟩, td, lv⟩ := p
  simp only at h
  subst h
  simp [CPuzzle.assign, intRange_six, copyPlaced, Arr6.get, Arr6.set, bind, Except.bind, pure,
    Except.pure]

/-- The loop of `AlreadyPlaced` over the six slots of a placement list held the
way the program holds it. -/
theorem alreadyPlaced_placedOf (s : CPuzzle) (l : List Int) (q : Int)
    (hn : l.length ≤ 6) (hq0 : 0 ≤ q)
    (hc : s.pieceCount = 6) (hp : s.placed = placedOf l) :
    s.AlreadyPlaced q = .ok (if q ∈ l then 1 else 0) := by
  have hq : (-1 : Int) ≠ q := by omega
  unfold CPuzzle.AlreadyPlaced
  rw [hc, hp, intRange_six]
  rcases l with _ | ⟨a, _ | ⟨b, _ | ⟨c, _ | ⟨d, _ | ⟨e, _ | ⟨f, _ | ⟨g, l⟩⟩⟩⟩⟩⟩⟩
  case cons.cons.cons.cons.cons.cons.cons => simp at hn
  all_goals
    simp only [alreadyPlacedLoop, placedOf, Arr6.get, List.getD, List.get?, Option.getD,
      bind, Except.bind, pure, Except.pure, List.mem_cons, List.not_mem_nil, or_false]
    simp [hq, eq_comm]
    try (split_ifs <;> simp_all)

/-- On piece-face codes `fitsAbove` returns a value, `0` or `1`. -/
theorem fitsAbove_valid {c b : Int} (hc : validOperand c) (hb : validOperand b) :
    ∃ f, fitsAbove c b = .ok f ∧ (f = 0 ∨ f = 1) := by
  rcases hc with rfl | rfl | rfl <;> rcases hb with rfl | rfl | rfl <;>
    exact ⟨_, rfl, by decide⟩

/-- Every read of every piece of the table in every orientation is a piece-face
code: no piece holds `Empty`. -/
theorem table_reads_valid :
    ∀ i ∈ [(0 : Int), 1, 2, 3, 4, 5], ∀ o ∈ [0, 1, 2, 3], ∀ j ∈ [(0 : Int), 1, 2],
      okValid (tableRead i o j) := by
  decide

/-- The write loop of `PlacePiece` changes nothing but the grid. -/
theorem placeWrite_frame (p : CPiece) (l : List Int) (s s' : CPuzzle)
    (h : placeWrite p l s = .ok s') :
    s'.pieceCount = s.pieceCount ∧ s'.placedCount = s.placedCount ∧ s'.placed = s.placed ∧
    s'.tileDirection = s.tileDirection ∧ s'.level = s.level := by
  induction l generalizing s with
  | nil =>
    simp only [placeWrite, pure, Except.pure, Except.ok.injEq] at h
    subst h
    exact ⟨rfl, rfl, rfl, rfl, rfl⟩
  | cons i rest ih =>
    simp only [placeWrite, bind_ok_iff] at h
    obtain ⟨s1, h1, h2⟩ := h
    have hs1 : s1.pieceCount = s.pieceCount ∧ s1.placedCount = s.placedCount ∧
        s1.placed = s.placed ∧ s1.tileDirection = s.tileDirection ∧ s1.level = s.level := by
      unfold writeAt at h1
      simp only [bind_ok_iff] at h1
      obtain ⟨c, -, d, -, h1⟩ := h1
      split at h1 <;>
        (obtain ⟨-, a, b, c, d, e⟩ := CPuzzle.setCell_spec h1
         exact ⟨a, b, c, d, e⟩)
    obtain ⟨a, b, c, d, e⟩ := ih s1 h2
    exact ⟨a.trans hs1.1, b.trans hs1.2.1, c.trans hs1.2.2.1, d.trans hs1.2.2.2.1,
      e.trans hs1.2.2.2.2⟩

/-- `PlacePiece` sets the current-level field itself, so it does not matter
whether the field was up to date. -/
theorem PlacePiece_atLevel (s : CPuzzle) (n : Int) (p : CPiece) :
    (atLevel s).PlacePiece n p = s.PlacePiece n p := rfl

theorem tryPlace_atLevel (s : CPuzzle) (i : Int) (o : Nat) :
    tryPlace (atLevel s) i o = tryPlace s i o := rfl


/-! ## One placement -/

/-- A read of a table piece, once the piece is known. -/
theorem tableRead_eq {i : Int} {piece : CPiece} (h : pieces.get i = .ok piece) (o : Nat)
    (j : Int) : tableRead i o j = (orientedPiece piece o).index j := by
  simp [tableRead, h, bind, Except.bind]

/-- What a successful placement does: the piece fits cell by cell over the
level below, its three reads land in the addressed cells of the current level,
the piece index is appended to `placed`, and nothing else changes. -/
theorem tryPlace_spec {t c : CPuzzle} {i : Int} {o : Nat} (h : tryPlace t i o = some c) :
    t.tileDirection.get (currentLevel t) = .ok (directionOf t) ∧
    c.pieceCount = t.pieceCount ∧ c.placedCount = t.placedCount + 1 ∧
    c.tileDirection = t.tileDirection ∧ c.level = currentLevel t ∧
    t.placed.set t.placedCount i = .ok c.placed ∧
    (∀ j ∈ [(0 : Int), 1, 2], ∃ v b, tableRead i o j = .ok v ∧
      t.cell (address t j).1 (currentLevel t - 1) (address t j).2 = .ok b ∧
      fitsAbove v b = .ok 1) ∧
    (∀ x l y : Int, c.cell x l y =
      if x = (address t 2).1 ∧ l = currentLevel t ∧ y = (address t 2).2 then tableRead i o 2
      else if x = (address t 1).1 ∧ l = currentLevel t ∧ y = (address t 1).2 then
        tableRead i o 1
      else if x = (address t 0).1 ∧ l = currentLevel t ∧ y = (address t 0).2 then
        tableRead i o 0
      else t.cell x l y) := by
  unfold tryPlace at h
  cases hp : pieces.get i with
  | error e => simp [hp] at h
  | ok piece =>
  simp only [hp] at h
  cases hpp : t.PlacePiece 0 (orientedPiece piece o) with
  | error e => simp [hpp] at h
  | ok r =>
  obtain ⟨fit, s1, n⟩ := r
  simp only [hpp] at h
  by_cases hfit : fit = 0
  · simp [hfit] at h
  simp only [hfit, if_false] at h
  cases hset : s1.placed.set t.placedCount i with
  | error e => simp [hset] at h
  | ok pl =>
  simp only [hset, Option.some.injEq] at h
  subst h
  rw [PlacePiece_ok_iff] at hpp
  obtain ⟨-, htest, hwrite⟩ := hpp
  simp only [ne_eq, hfit, not_false_eq_true, if_true] at hwrite
  obtain ⟨-, f0, f1, f2⟩ := (placeTest_three _ _ fit).1 ⟨htest, hfit⟩
  have hget : ∃ d, t.tileDirection.get (currentLevel t) = .ok d := by
    have h0 := f0
    unfold fitAt at h0
    simp only [bind_ok_iff] at h0
    obtain ⟨_, -, d, hd, -⟩ := h0
    exact ⟨d, hd⟩
  obtain ⟨d, hd⟩ := hget
  have hdir : directionOf t = d := by simp [directionOf, hd]
  have hd' : (atLevel t).tileDirection.get (atLevel t).level = .ok d := hd
  obtain ⟨e1, e2, e3, e4, e5⟩ := placeWrite_frame _ _ _ _ hwrite
  obtain ⟨c0, c1, c2, i0, i1, i2, hcell⟩ := placeWrite_three hd' s1 hwrite
  refine ⟨by rw [hdir]; exact hd, e1, by simp [e2], e4, e5, by rw [← e3]; exact hset, ?_, ?_⟩
  · intro j hj
    simp only [List.mem_cons, List.mem_singleton, List.not_mem_nil, or_false] at hj
    rw [tableRead_eq hp, address, hdir]
    rcases hj with rfl | rfl | rfl
    · exact (fitAt_ok_iff hd' 0 1).1 f0
    · exact (fitAt_ok_iff hd' 1 1).1 f1
    · exact (fitAt_ok_iff hd' 2 1).1 f2
  · intro x l y
    simp only [tableRead_eq hp, address, hdir, i0, i1, i2]
    exact hcell x l y


/-! ## The shape of the puzzles of the search -/

theorem cellHas_true {s : CPuzzle} {c l k : Int} (h : cellHas s c l k true) :
    ∃ b, s.cell c l k = .ok b ∧ validOperand b := by
  unfold cellHas at h
  split at h
  · rename_i v hv
    exact ⟨v, hv, by simpa using h⟩
  · exact h.elim

theorem cellHas_false {s : CPuzzle} {c l k : Int} (h : cellHas s c l k false) :
    s.cell c l k = .ok SPACE_EMPTY := by
  unfold cellHas at h
  split at h
  · rename_i v hv
    simp at h
    rw [hv, h]
  · exact h.elim

/-- The current level and the row slot of a puzzle with room for a piece. -/
theorem level_cases {k : Int} (h0 : 0 ≤ k) (h5 : k ≤ 5) :
    (k < 3 ∧ k.tdiv DIM + 1 = 1 ∧ k.tmod 3 = k) ∨
    (3 ≤ k ∧ k.tdiv DIM + 1 = 2 ∧ k.tmod 3 = k - 3) := by
  have hdiv : k.tdiv DIM = k / 3 := Int.tdiv_eq_ediv h0 (by decide)
  have hmod : k.tmod 3 = k % 3 := Int.tmod_eq_emod h0 (by decide)
  rw [hdiv, hmod]
  omega

/-- The tiling direction of the current level under the invariant. -/
theorem Inv.direction {t : CPuzzle} (hI : Inv t) (h5 : t.placedCount ≤ 5) :
    t.tileDirection.get (currentLevel t) = .ok (directionOf t) ∧
    (directionOf t = TILE_LEFT_RIGHT ∨ directionOf t = TILE_UP_DOWN) ∧
    (t.placedCount < 3 → directionOf t = TILE_LEFT_RIGHT) ∧
    (3 ≤ t.placedCount → directionOf t = t.tileDirection.a2) := by
  obtain ⟨-, h0, -, -, h1, -, h2, -⟩ := hI
  unfold directionOf currentLevel
  rcases level_cases h0 h5 with ⟨hk, hl, -⟩ | ⟨hk, hl, -⟩
  · rw [hl]
    simp only [Arr4.get]
    simp [h1]
    omega
  · rw [hl]
    simp only [Arr4.get]
    simp
    refine ⟨?_, by omega⟩
    rcases h2 with h | ⟨h, -⟩ <;> simp [h]

/-- The addressed cells lie inside the grid. -/
theorem address_mem {t : CPuzzle} (h0 : 0 ≤ t.placedCount) (h5 : t.placedCount ≤ 5) {j : Int}
    (hj : j ∈ [(0 : Int), 1, 2]) :
    (address t j).1 ∈ [(0 : Int), 1, 2] ∧ (address t j).2 ∈ [(0 : Int), 1, 2] := by
  have hr : t.placedCount.tmod 3 ∈ [(0 : Int), 1, 2] := by
    rcases level_cases h0 h5 with ⟨hk, -, hr⟩ | ⟨hk, -, hr⟩ <;> rw [hr] <;>
      simp only [List.mem_cons, List.mem_singleton, List.not_mem_nil, or_false] <;> omega
  unfold address specAddress
  split <;> exact ⟨by assumption, by assumption⟩

/-- Under the invariant the cell below every addressed cell holds a piece face:
it lies in the housing or in the full level 1. -/
theorem Inv.below_valid {t : CPuzzle} (hI : Inv t) (h5 : t.placedCount ≤ 5) {j : Int}
    (hj : j ∈ [(0 : Int), 1, 2]) :
    ∃ b, t.cell (address t j).1 (currentLevel t - 1) (address t j).2 = .ok b ∧
      validOperand b := by
  obtain ⟨hx, hy⟩ := address_mem hI.2.1 h5 hj
  obtain ⟨-, h0, -, -, -, -, -, hhole, hone, -⟩ := hI
  unfold currentLevel
  rcases level_cases h0 h5 with ⟨hk, hl, -⟩ | ⟨hk, hl, -⟩
  · rw [hl]
    exact ⟨SPACE_HOLE, (hhole _ hx _ hy).1, by decide⟩
  · rw [hl]
    have h := hone _ hx _ hy
    have hlt : decide ((address t j).2 < t.placedCount) = true := by
      simp only [List.mem_cons, List.mem_singleton, List.not_mem_nil, or_false] at hy
      simp only [decide_eq_true_eq]
      omega
    rw [hlt] at h
    exact cellHas_true h


/-- Under the invariant every pass of the test loop returns `0` or `1`: both
operands of `fitsAbove` are piece-face codes. -/
theorem Inv.fitAt_ok {t : CPuzzle} (hI : Inv t) (h5 : t.placedCount ≤ 5) {i : Int} {o : Nat}
    {piece : CPiece} (hp : pieces.get i = .ok piece)
    (hi : i ∈ [(0 : Int), 1, 2, 3, 4, 5]) (ho : o ∈ [0, 1, 2, 3]) {j : Int}
    (hj : j ∈ [(0 : Int), 1, 2]) :
    ∃ v b f, (orientedPiece piece o).index j = .ok v ∧ validOperand v ∧
      t.cell (address t j).1 (currentLevel t - 1) (address t j).2 = .ok b ∧ validOperand b ∧
      fitsAbove v b = .ok f ∧ (f = 0 ∨ f = 1) ∧
      fitAt (atLevel t) (orientedPiece piece o) j = .ok f := by
  have hv := table_reads_valid i hi o ho j hj
  rw [tableRead_eq hp] at hv
  unfold okValid at hv
  split at hv
  case h_2 => exact hv.elim
  rename_i v hidx
  obtain ⟨b, hb, hbv⟩ := hI.below_valid h5 hj
  obtain ⟨f, hf, hf01⟩ := fitsAbove_valid hv hbv
  have hd : (atLevel t).tileDirection.get (atLevel t).level = .ok (directionOf t) :=
    (hI.direction h5).1
  exact ⟨v, b, f, hidx, hv, hb, hbv, hf, hf01,
    (fitAt_ok_iff hd j f).2 ⟨v, b, hidx, hb, hf⟩⟩

/-- A write to `placed[k]` with `k` in `0..5` succeeds. -/
theorem Arr6_set_ok {α : Type} (a : Arr6 α) {k : Int} (v : α) (h0 : 0 ≤ k) (h5 : k ≤ 5) :
    ∃ a', a.set k v = .ok a' := by
  have hk : k = 0 ∨ k = 1 ∨ k = 2 ∨ k = 3 ∨ k = 4 ∨ k = 5 := by omega
  rcases hk with rfl | rfl | rfl | rfl | rfl | rfl <;> exact ⟨_, rfl⟩

/-- Under the invariant `PlacePiece` with a piece of the table returns without
a fault, and `tryPlace` tells whether it returned true. -/
theorem Inv.PlacePiece_total {t : CPuzzle} (hI : Inv t) (h5 : t.placedCount ≤ 5) {i : Int}
    {o : Nat} (hi : i ∈ [(0 : Int), 1, 2, 3, 4, 5]) (ho : o ∈ [0, 1, 2, 3]) :
    ∃ piece fit s1, pieces.get i = .ok piece ∧
      (∀ n, t.PlacePiece n (orientedPiece piece o) = .ok (fit, s1, n + 1)) ∧
      (fit = 0 → tryPlace t i o = none) ∧
      (fit ≠ 0 → ∃ pl, s1.placed.set t.placedCount i = .ok pl ∧
        tryPlace t i o =
          some { s1 with placed := pl, placedCount := s1.placedCount + 1 }) := by
  obtain ⟨piece, hp⟩ : ∃ piece, pieces.get i = .ok piece := by
    simp only [List.mem_cons, List.mem_singleton, List.not_mem_nil, or_false] at hi
    rcases hi with rfl | rfl | rfl | rfl | rfl | rfl <;> exact ⟨_, rfl⟩
  obtain ⟨v0, b0, f0, hi0, -, -, -, -, hf0, ht0⟩ := hI.fitAt_ok h5 hp hi ho (j := 0) (by simp)
  obtain ⟨v1, b1, f1, hi1, -, -, -, -, hf1, ht1⟩ := hI.fitAt_ok h5 hp hi ho (j := 1) (by simp)
  obtain ⟨v2, b2, f2, hi2, -, -, -, -, hf2, ht2⟩ := hI.fitAt_ok h5 hp hi ho (j := 2) (by simp)
  have hd : (atLevel t).tileDirection.get (atLevel t).level = .ok (directionOf t) :=
    (hI.direction h5).1
  -- the result of the test loop
  obtain ⟨fit, htest, hfit01⟩ : ∃ fit,
      placeTest (atLevel t) (orientedPiece piece o) [0, 1, 2] 0 = .ok fit ∧
      (fit = 0 ∨ fit = 1) := by
    simp only [placeTest, ht0, ht1, ht2, bind, Except.bind, pure, Except.pure]
    rcases hf0 with rfl | rfl
    · exact ⟨0, by simp, Or.inl rfl⟩
    rcases hf1 with rfl | rfl
    · exact ⟨0, by simp, Or.inl rfl⟩
    rcases hf2 with rfl | rfl
    · exact ⟨0, by simp, Or.inl rfl⟩
    · exact ⟨1, by simp, Or.inr rfl⟩
  have hlv : (atLevel t).level = 0 ∨ (atLevel t).level = 1 ∨ (atLevel t).level = 2 ∨
      (atLevel t).level = 3 := by
    show currentLevel t = 0 ∨ currentLevel t = 1 ∨ currentLevel t = 2 ∨ currentLevel t = 3
    unfold currentLevel
    rcases level_cases hI.2.1 h5 with ⟨-, hl, -⟩ | ⟨-, hl, -⟩ <;> rw [hl] <;> simp
  have hrow : (atLevel t).placedCount.tmod 3 = 0 ∨ (atLevel t).placedCount.tmod 3 = 1 ∨
      (atLevel t).placedCount.tmod 3 = 2 := by
    show t.placedCount.tmod 3 = 0 ∨ t.placedCount.tmod 3 = 1 ∨ t.placedCount.tmod 3 = 2
    have h0 := hI.2.1
    rcases level_cases hI.2.1 h5 with ⟨_, -, hr⟩ | ⟨_, -, hr⟩ <;> rw [hr] <;> omega
  have hreads : ∀ j ∈ [(0 : Int), 1, 2], ∃ c, (orientedPiece piece o).index j = .ok c := by
    intro j hj
    simp only [List.mem_cons, List.mem_singleton, List.not_mem_nil, or_false] at hj
    rcases hj with rfl | rfl | rfl
    · exact ⟨v0, hi0⟩
    · exact ⟨v1, hi1⟩
    · exact ⟨v2, hi2⟩
  rcases hfit01 with rfl | rfl
  · refine ⟨piece, 0, atLevel t, hp, ?_, ?_, by simp⟩
    · intro n
      rw [PlacePiece_ok_iff]
      exact ⟨rfl, htest, by simp [atLevel, currentLevel]⟩
    · intro _
      have hpp : t.PlacePiece 0 (orientedPiece piece o) = .ok (0, atLevel t, 0 + 1) := by
        rw [PlacePiece_ok_iff]
        exact ⟨rfl, htest, by simp [atLevel, currentLevel]⟩
      simp [tryPlace, hp, hpp]
  · obtain ⟨s1, hs1⟩ := placeWrite_three_ok (p := orientedPiece piece o) hd hreads hlv hrow
    have hpp : ∀ n, t.PlacePiece n (orientedPiece piece o) = .ok (1, s1, n + 1) := by
      intro n
      rw [PlacePiece_ok_iff]
      exact ⟨rfl, htest, by simpa using hs1⟩
    refine ⟨piece, 1, s1, hp, hpp, by simp, ?_⟩
    intro _
    obtain ⟨pl, hpl⟩ := Arr6_set_ok s1.placed i hI.2.1 h5
    exact ⟨pl, hpl, by simp [tryPlace, hp, hpp 0, hpl]⟩


/-- A write to `placed[k]` succeeds only with `k` in `0..5`. -/
theorem Arr6_set_bounds {α : Type} {a a' : Arr6 α} {k : Int} {v : α} (h : a.set k v = .ok a') :
    0 ≤ k ∧ k ≤ 5 := by
  unfold Arr6.set at h
  split_ifs at h <;> omega

/-- Appending to a placement list of at most five entries is a write to the
first unused slot of `placed`. -/
theorem placedOf_append (l : List Int) (i : Int) (hl : l.length ≤ 5) :
    (placedOf l).set l.length i = .ok (placedOf (l ++ [i])) := by
  rcases l with _ | ⟨a, _ | ⟨b, _ | ⟨c, _ | ⟨d, _ | ⟨e, _ | ⟨f, l⟩⟩⟩⟩⟩⟩
  case cons.cons.cons.cons.cons.cons => simp at hl
  all_goals simp [placedOf, Arr6.set]

/-- The first entries of `placed` are the placement list it holds. -/
theorem placedList_take (s : CPuzzle) (l : List Int) (hp : s.placed = placedOf l)
    (hl : l.length ≤ 6) : (placedList s).take l.length = l := by
  unfold placedList
  rw [hp]
  rcases l with _ | ⟨a, _ | ⟨b, _ | ⟨c, _ | ⟨d, _ | ⟨e, _ | ⟨f, _ | ⟨g, l⟩⟩⟩⟩⟩⟩⟩
  case cons.cons.cons.cons.cons.cons.cons => simp at hl
  all_goals simp [placedOf]

/-- The length of the placement list of the specification. -/
theorem placedSoFar_length (s : CPuzzle) (h0 : 0 ≤ s.placedCount) (h6 : s.placedCount ≤ 6) :
    ((placedSoFar s).length : Int) = s.placedCount := by
  unfold placedSoFar placedList
  simp only [List.length_take, List.length_cons, List.length_nil]
  omega


/-- The reads of a table piece as values. -/
theorem table_read_value {i : Int} {o : Nat} (hi : i ∈ [(0 : Int), 1, 2, 3, 4, 5])
    (ho : o ∈ [0, 1, 2, 3]) {j : Int} (hj : j ∈ [(0 : Int), 1, 2]) :
    ∃ v, tableRead i o j = .ok v ∧ validOperand v := by
  have hv := table_reads_valid i hi o ho j hj
  unfold okValid at hv
  split at hv
  · rename_i v hidx
    exact ⟨v, hidx, hv⟩
  · exact hv.elim

/-- The placement list after a placement. -/
theorem tryPlace_placed {t c : CPuzzle} (hI : Inv t) {i : Int} {o : Nat}
    (h : tryPlace t i o = some c) :
    c.placed = placedOf (placedSoFar t ++ [i]) ∧ placedSoFar c = placedSoFar t ++ [i] := by
  obtain ⟨-, -, e2, -, -, hset, -, -⟩ := tryPlace_spec h
  obtain ⟨hk0, hk5⟩ := Arr6_set_bounds hset
  have hlen := placedSoFar_length t hk0 (by omega)
  have hpl : t.placed = placedOf (placedSoFar t) := hI.2.2.2.2.2.2.2.2.2.2.1
  have hl5 : (placedSoFar t).length ≤ 5 := by omega
  have happ := placedOf_append (placedSoFar t) i hl5
  rw [hlen, ← hpl, hset] at happ
  have hc : c.placed = placedOf (placedSoFar t ++ [i]) := by
    simpa using happ
  refine ⟨hc, ?_⟩
  have htake := placedList_take c (placedSoFar t ++ [i]) hc (by simp; omega)
  rw [← htake]
  unfold placedSoFar
  congr 1
  rw [e2]
  simp only [List.length_append, List.length_singleton]
  have : (placedList t).take t.placedCount.toNat = placedSoFar t := rfl
  rw [this]
  omega


/-- The invariant survives a placement of a table piece that is not placed
yet. -/
theorem Inv.after_tryPlace {t c : CPuzzle} (hI : Inv t) {i : Int} {o : Nat}
    (hi : i ∈ [(0 : Int), 1, 2, 3, 4, 5]) (ho : o ∈ [0, 1, 2, 3])
    (hnew : i ∉ placedSoFar t) (h : tryPlace t i o = some c) : Inv c := by
  obtain ⟨hplc, hsofar⟩ := tryPlace_placed hI h
  obtain ⟨-, e1, e2, e4, -, hset, -, hcell⟩ := tryPlace_spec h
  obtain ⟨hk0, hk5⟩ := Arr6_set_bounds hset
  obtain ⟨-, hdir, hdlt, hdge⟩ := hI.direction hk5
  obtain ⟨v0, hv0, hvv0⟩ := table_read_value hi ho (j := 0) (by simp)
  obtain ⟨v1, hv1, hvv1⟩ := table_read_value hi ho (j := 1) (by simp)
  obtain ⟨v2, hv2, hvv2⟩ := table_read_value hi ho (j := 2) (by simp)
  rw [hv0, hv1, hv2] at hcell
  obtain ⟨hpc, -, -, ha0, ha1, ha3, ha2, hhole, hone, htwo, hpl, hnd, hrange⟩ := hI
  have hlev := level_cases hk0 hk5
  refine ⟨e1.trans hpc, by omega, by omega, by rw [e4]; exact ha0, by rw [e4]; exact ha1,
    by rw [e4]; exact ha3, ?_, ?_, ?_, ?_, ?_, ?_, ?_⟩
  · rw [e4, e2]
    rcases ha2 with h2 | ⟨h2, h3⟩
    · exact Or.inl h2
    · exact Or.inr ⟨h2, by omega⟩
  · intro x hx y hy
    have H := hhole x hx y hy
    rw [hcell, hcell]
    unfold currentLevel
    rcases hlev with ⟨-, hl, -⟩ | ⟨-, hl, -⟩ <;> rw [hl] <;> simpa using H
  · intro x hx y hy
    have H := hone x hx y hy
    simp only [List.mem_cons, List.mem_singleton, List.not_mem_nil, or_false] at hx hy
    unfold cellHas at H ⊢
    rw [hcell, e2]
    unfold address specAddress currentLevel
    rcases hlev with ⟨hk, hl, hr⟩ | ⟨hk, hl, hr⟩
    · rw [hl, hr, hdlt hk]
      simp only [if_true, true_and]
      by_cases hy' : y = t.placedCount
      · have hd : decide (y < t.placedCount + 1) = true := by simp; omega
        rcases hx with rfl | rfl | rfl <;> simp [hy', hvv0, hvv1, hvv2]
      · have hd : decide (y < t.placedCount + 1) = decide (y < t.placedCount) := by
          simp only [decide_eq_decide]; omega
        simp only [hy', and_false, if_false, hd]
        exact H
    · rw [hl]
      have hd : decide (y < t.placedCount + 1) = decide (y < t.placedCount) := by
        simp only [decide_eq_decide]; omega
      simp only [hd]
      simpa using H
  · intro x hx y hy
    have H := htwo x hx y hy
    simp only [List.mem_cons, List.mem_singleton, List.not_mem_nil, or_false] at hx hy
    unfold cellHas at H ⊢
    rw [hcell, e2, e4]
    unfold address specAddress currentLevel
    rcases hlev with ⟨hk, hl, hr⟩ | ⟨hk, hl, hr⟩
    · rw [hl]
      have h2 : t.tileDirection.a2 = TILE_LEFT_RIGHT := by
        rcases ha2 with h2 | ⟨-, h3⟩
        · exact h2
        · omega
      have hd : decide (y < t.placedCount + 1 - 3) = decide (y < t.placedCount - 3) := by
        simp only [decide_eq_decide]; omega
      simp only [h2, if_true, hd] at H ⊢
      simpa using H
    · rw [hl, hr, hdge hk]
      by_cases h2 : t.tileDirection.a2 = TILE_LEFT_RIGHT
      · simp only [h2, if_true, true_and] at H ⊢
        by_cases hy' : y = t.placedCount - 3
        · have hd : decide (y < t.placedCount + 1 - 3) = true := by simp; omega
          rcases hx with rfl | rfl | rfl <;> simp [hy', hvv0, hvv1, hvv2]
        · have hd : decide (y < t.placedCount + 1 - 3) = decide (y < t.placedCount - 3) := by
            simp only [decide_eq_decide]; omega
          simp only [hy', and_false, if_false, hd]
          exact H
      · simp only [h2, if_false, true_and] at H ⊢
        by_cases hx' : x = t.placedCount - 3
        · have hd : decide (x < t.placedCount + 1 - 3) = true := by simp; omega
          rcases hy with rfl | rfl | rfl <;> simp [hx', hvv0, hvv1, hvv2]
        · have hd : decide (x < t.placedCount + 1 - 3) = decide (x < t.placedCount - 3) := by
            simp only [decide_eq_decide]; omega
          simp only [hx', false_and, if_false, hd]
          exact H
  · rw [hsofar]; exact hplc
  · rw [hsofar]
    exact List.Nodup.append hnd (List.nodup_singleton i) (by simpa using hnew)
  · rw [hsofar]
    intro x hx
    simp only [List.mem_append, List.mem_singleton] at hx
    rcases hx with hx | rfl
    · exact hrange x hx
    · simp only [List.mem_cons, List.mem_singleton, List.not_mem_nil, or_false] at hi
      omega


/-! ## The loops of `Solve` find what the specification's search finds -/

/-- The invariant does not read the current-level field. -/
theorem Inv.at_level {s : CPuzzle} (h : Inv s) : Inv (atLevel s) := h

/-- The switch to `UpDown` at the start of level 2, spelled out. -/
theorem withUpDown_eq {s : CPuzzle} (hk : s.placedCount = 3) :
    withUpDown s = { s with tileDirection := { s.tileDirection with a2 := TILE_UP_DOWN } } := by
  simp [withUpDown, currentLevel, hk, Arr4.set]

/-- At the start of level 2 the switch to `UpDown` keeps the invariant. -/
theorem Inv.with_upDown {s : CPuzzle} (h : Inv s) (hk : s.placedCount = 3) :
    Inv (withUpDown s) := by
  rw [withUpDown_eq hk]
  obtain ⟨hpc, h0, h6, ha0, ha1, ha3, ha2, hhole, hone, htwo, hpl, hnd, hrange⟩ := h
  refine ⟨hpc, h0, h6, ha0, ha1, ha3, Or.inr ⟨rfl, by simp [hk]⟩, hhole, hone, ?_, hpl, hnd,
    hrange⟩
  intro x hx y hy
  have H := htwo x hx y hy
  simp only [List.mem_cons, List.mem_singleton, List.not_mem_nil, or_false] at hx hy
  have e1 : decide (y < s.placedCount - 3) = false := by simp; omega
  have e2 : decide (x < s.placedCount - 3) = false := by simp; omega
  have e3 : (if s.tileDirection.a2 = TILE_LEFT_RIGHT then decide (y < s.placedCount - 3)
      else decide (x < s.placedCount - 3)) = false := by
    split <;> assumption
  rw [e3] at H
  show cellHas s x 2 y _
  have e4 : (if TILE_UP_DOWN = TILE_LEFT_RIGHT then decide (y < s.placedCount - 3)
      else decide (x < s.placedCount - 3)) = false := by
    simp only [e1, e2, ite_self]
  simp only [e4]
  exact H

/-- A loop that starts solved does nothing. -/
theorem orientationLoop_solved (solve : SolveFn) (i : Int) (l : List Nat) (v : SolveVars)
    (h : v.solved ≠ 0) : orientationLoop solve i l v = .ok v := by
  cases l <;> simp [orientationLoop, h, pure, Except.pure]

theorem pieceLoop_solved (solve : SolveFn) (l : List Int) (v : SolveVars)
    (h : v.solved ≠ 0) : pieceLoop solve l v = .ok v := by
  cases l <;> simp [pieceLoop, h, pure, Except.pure]

theorem directionLoop_solved (solve : SolveFn) (l : List Nat) (v : SolveVars)
    (h : v.solved ≠ 0) : directionLoop solve l v = .ok v := by
  cases l <;> simp [directionLoop, h, pure, Except.pure]

/-- One attempt: the body of the orientation loop on the puzzle `t`. -/
theorem orientationBody_found {solve : SolveFn} {g : CPuzzle → Option CPuzzle} {t : CPuzzle}
    (hI : Inv t) (h5 : t.placedCount ≤ 5) {i : Int} {o : Nat}
    (hi : i ∈ [(0 : Int), 1, 2, 3, 4, 5]) (ho : o ∈ [0, 1, 2, 3])
    (H : ∀ c, tryPlace t i o = some c → Answers solve g c)
    (v : SolveVars) (hv : v.self = t) (hs : v.solved = 0) :
    Found (orientationBody solve i o v) t ((tryPlace t i o).bind g) := by
  obtain ⟨piece, fit, s1, hp, hpp, hnone, hsome⟩ := hI.PlacePiece_total h5 hi ho
  have hassign : v.newPuzzle.assign v.self = .ok t := by
    rw [hv]; exact CPuzzle.assign_eq _ _ hI.1
  have hop : (if o &&& 2 ≠ 0 then
        (if o &&& 1 ≠ 0 then (CPiece.assign piece).Flip else CPiece.assign piece).Reverse
      else if o &&& 1 ≠ 0 then (CPiece.assign piece).Flip else CPiece.assign piece) =
      orientedPiece piece o := rfl
  unfold orientationBody
  simp only [hp, hassign, bind, Except.bind, hop, hpp v.iterations]
  by_cases hfit : fit = 0
  · rw [hnone hfit]
    refine ⟨s1, v.iterations + 1, ?_⟩
    cases v
    simp only at hv hs
    simp [hfit, pure, Except.pure, hv, hs]
  · obtain ⟨pl, hpl, htry⟩ := hsome hfit
    rw [htry, hv]
    simp only [ne_eq, hfit, not_false_eq_true, if_true, hpl, Option.some_bind]
    obtain ⟨c', n', hsolve, hg⟩ := H _ htry (v.iterations + 1)
    rw [hsolve]
    cases hgc : g { s1 with placed := pl, placedCount := s1.placedCount + 1 } with
    | none =>
      refine ⟨c', n', ?_⟩
      cases v
      simp only at hv hs
      simp [pure, Except.pure, hv]
    | some r =>
      obtain ⟨rfl, hr6⟩ := hg r hgc
      refine ⟨c', n', ?_⟩
      simp [pure, Except.pure, CPuzzle.assign_eq _ _ hr6]


/-- The variables of an unsolved loop state on `t`. -/
theorem Found_none_self (v : SolveVars) {t : CPuzzle} (hv : v.self = t) (hs : v.solved = 0) :
    Found (.ok v) t none := by
  refine ⟨v.newPuzzle, v.iterations, ?_⟩
  cases v
  simp only at hv hs
  simp [hv, hs]

/-- The orientation loop on the puzzle `t` for piece `i`. -/
theorem orientationLoop_found {solve : SolveFn} {g : CPuzzle → Option CPuzzle} {t : CPuzzle}
    (hI : Inv t) (h5 : t.placedCount ≤ 5) {i : Int} (hi : i ∈ [(0 : Int), 1, 2, 3, 4, 5])
    (os : List Nat) (hos : ∀ o ∈ os, o ∈ [0, 1, 2, 3])
    (H : ∀ o ∈ os, ∀ c, tryPlace t i o = some c → Answers solve g c)
    (v : SolveVars) (hv : v.self = t) (hs : v.solved = 0) :
    Found (orientationLoop solve i os v) t (os.findSome? fun o => (tryPlace t i o).bind g) := by
  induction os generalizing v with
  | nil => exact Found_none_self v hv hs
  | cons o rest ih =>
    unfold orientationLoop
    rw [if_neg (by simpa using hs)]
    obtain ⟨np, n', hb⟩ := orientationBody_found hI h5 hi (hos o (by simp))
      (H o (by simp)) v hv hs
    simp only [bind, Except.bind, hb, List.findSome?_cons]
    cases hfo : (tryPlace t i o).bind g with
    | none =>
      exact ih (fun o' ho' => hos o' (by simp [ho']))
        (fun o' ho' => H o' (by simp [ho'])) _ rfl rfl
    | some r =>
      simp only []
      rw [orientationLoop_solved _ _ _ _ (by simp)]
      exact ⟨np, n', rfl⟩

/-- The piece loop on the puzzle `t`. -/
theorem pieceLoop_found {solve : SolveFn} {g : CPuzzle → Option CPuzzle} {t : CPuzzle}
    (hI : Inv t) (h5 : t.placedCount ≤ 5)
    (is : List Int) (his : ∀ i ∈ is, i ∈ [(0 : Int), 1, 2, 3, 4, 5])
    (H : ∀ i ∈ is, i ∉ placedSoFar t → ∀ o ∈ [0, 1, 2, 3], ∀ c,
      tryPlace t i o = some c → Answers solve g c)
    (v : SolveVars) (hv : v.self = t) (hs : v.solved = 0) :
    Found (pieceLoop solve is v) t
      (is.findSome? fun i =>
        if i ∈ placedSoFar t then none else searchOrientations g t i) := by
  induction is generalizing v with
  | nil => exact Found_none_self v hv hs
  | cons i rest ih =>
    have hi := his i (by simp)
    have hi0 : 0 ≤ i := by
      simp only [List.mem_cons, List.mem_singleton, List.not_mem_nil, or_false] at hi
      omega
    have hlen : (placedSoFar t).length ≤ 6 := by
      have := placedSoFar_length t hI.2.1 hI.2.2.1
      omega
    have hap := alreadyPlaced_placedOf t (placedSoFar t) i hlen hi0 hI.1
      hI.2.2.2.2.2.2.2.2.2.2.1
    unfold pieceLoop
    rw [if_neg (by simpa using hs), hv, hap, List.findSome?_cons]
    simp only [bind, Except.bind]
    have ihr := ih (fun i' hi' => his i' (by simp [hi']))
      (fun i' hi' => H i' (by simp [hi']))
    by_cases hmem : i ∈ placedSoFar t
    · simp only [hmem, if_true, one_ne_zero, if_false, pure, Except.pure]
      exact ihr v hv hs
    · simp only [hmem, if_false, if_true]
      have hb' : Found (orientationLoop solve i [0, 1, 2, 3] v) t (searchOrientations g t i) :=
        orientationLoop_found hI h5 hi [0, 1, 2, 3] (fun _ h => h)
          (fun o ho => H i (by simp) hmem o ho) v hv hs
      obtain ⟨np, n', hb⟩ := hb'
      rw [hb]
      cases hfo : searchOrientations g t i with
      | none => exact ihr _ rfl rfl
      | some r =>
        simp only []
        rw [pieceLoop_solved _ _ _ (by simp)]
        exact ⟨np, n', rfl⟩


/-- The body of `Solve`, with the puzzle whose level field is up to date named. -/
theorem solveBody_eq (solve : SolveFn) (n : Int) (s : CPuzzle) :
    solveBody solve n s =
      if s.placedCount < s.pieceCount then do
        let v ← directionLoop solve [0, 1]
          { self := atLevel s, newPuzzle := CPuzzle.new, solved := 0, iterations := n }
        pure (v.solved, v.self, v.iterations)
      else pure (1, atLevel s, n) := rfl

/-- One round of the direction loop on an unsolved state. -/
theorem directionLoop_cons (solve : SolveFn) (d : Nat) (rest : List Nat) (v : SolveVars)
    (hs : v.solved = 0) :
    directionLoop solve (d :: rest) v = (do
      let v ← pieceLoop solve (intRange v.self.pieceCount) v
      if v.solved = 0 ∧ v.self.placedCount.tmod DIM = 0 ∧ v.self.placedCount ≥ DIM then
        let direction ← v.self.tileDirection.get v.self.level
        if direction = TILE_LEFT_RIGHT then
          let tileDirection ← v.self.tileDirection.set v.self.level TILE_UP_DOWN
          directionLoop solve rest { v with self := { v.self with tileDirection := tileDirection } }
        else
          directionLoop solve rest v
      else
        pure v) := by
  rw [directionLoop, if_neg (by simpa using hs)]

/-- The body of `Solve` on a puzzle with room for a piece: it returns `1` with
the puzzle the specification's step finds, or `0` with the puzzle untouched but
for the current-level field and, where the retry applies, the direction of the
current level. -/
theorem solveBody_found {solve : SolveFn} {g : CPuzzle → Option CPuzzle} {s : CPuzzle}
    (hI : SolveInv s) (h5 : s.placedCount ≤ 5)
    (H : ∀ t, (t = atLevel s ∨ (retryApplies s ∧ t = withUpDown (atLevel s))) →
      ∀ i ∈ [(0 : Int), 1, 2, 3, 4, 5], i ∉ placedSoFar t → ∀ o ∈ [0, 1, 2, 3], ∀ c,
        tryPlace t i o = some c → Answers solve g c)
    (n : Int) :
    ∃ n', solveBody solve n s = .ok
      (match searchStep g s with
       | some r => (1, r, n')
       | none => (0, failState s, n')) := by
  obtain ⟨hInv, hentry⟩ := hI
  have hpc : s.pieceCount = 6 := hInv.1
  have hlt : s.placedCount < s.pieceCount := by omega
  have hrange : intRange (atLevel s).pieceCount = [0, 1, 2, 3, 4, 5] := by
    show intRange s.pieceCount = _
    rw [hpc]; exact intRange_six
  have hp1 : Found (pieceLoop solve [0, 1, 2, 3, 4, 5]
      { self := atLevel s, newPuzzle := CPuzzle.new, solved := 0, iterations := n })
      (atLevel s) (searchPass g (atLevel s)) :=
    pieceLoop_found hInv.at_level h5 _ (fun _ h => h)
      (fun i _ hnew o ho c hc => H _ (Or.inl rfl) i (by assumption) hnew o ho c hc) _ rfl rfl
  obtain ⟨np, n1, hb1⟩ := hp1
  rw [solveBody_eq, if_pos hlt, directionLoop_cons _ _ _ _ rfl]
  simp only [hrange, bind, Except.bind, hb1]
  unfold searchStep failState
  cases hf1 : searchPass g (atLevel s) with
  | some r =>
    refine ⟨n1, ?_⟩
    simp [pure, Except.pure]
  | none =>
    simp only []
    by_cases hretry : retryApplies s
    · have hk : s.placedCount = 3 := by
        obtain ⟨hm, hge⟩ := hretry
        have h0 := hInv.2.1
        rcases level_cases h0 h5 with ⟨hk, -, hr⟩ | ⟨hk, -, hr⟩
        · simp only [DIM] at hge; omega
        · simp only [DIM] at hm; omega
      have ha2 := hentry (by omega)
      have hInvU : Inv (withUpDown (atLevel s)) := hInv.at_level.with_upDown hk
      have hwU : withUpDown (atLevel s) =
          { atLevel s with tileDirection := { s.tileDirection with a2 := TILE_UP_DOWN } } :=
        withUpDown_eq (s := atLevel s) hk
      have hUk : (withUpDown (atLevel s)).placedCount = 3 := by rw [hwU]; exact hk
      have hUpc : (withUpDown (atLevel s)).pieceCount = (atLevel s).pieceCount := by rw [hwU]
      have hUtd : (withUpDown (atLevel s)).tileDirection =
          { s.tileDirection with a2 := TILE_UP_DOWN } := by rw [hwU]
      have hcond : (0 : Int) = 0 ∧ (atLevel s).placedCount.tmod DIM = 0 ∧
          (atLevel s).placedCount ≥ DIM := ⟨rfl, hretry.1, hretry.2⟩
      have hlv : (atLevel s).level = 2 := by
        show currentLevel s = 2
        simp [currentLevel, hk]
      have hget : (atLevel s).tileDirection.get (atLevel s).level = .ok TILE_LEFT_RIGHT := by
        rw [hlv]
        show s.tileDirection.get 2 = _
        simp [Arr4.get, ha2]
      have hset : (atLevel s).tileDirection.set (atLevel s).level TILE_UP_DOWN =
          .ok { s.tileDirection with a2 := TILE_UP_DOWN } := by
        rw [hlv]
        show s.tileDirection.set 2 _ = _
        simp [Arr4.set]
      have hp2 : ∀ np n1, Found (pieceLoop solve [0, 1, 2, 3, 4, 5]
          { self := withUpDown (atLevel s), newPuzzle := np, solved := 0, iterations := n1 })
          (withUpDown (atLevel s)) (searchPass g (withUpDown (atLevel s))) := fun np n1 =>
        pieceLoop_found hInvU (by rw [hUk]; decide) _ (fun _ h => h)
          (fun i _ hnew o ho c hc =>
            H _ (Or.inr ⟨hretry, rfl⟩) i (by assumption) hnew o ho c hc) _ rfl rfl
      obtain ⟨np2, n2, hb2⟩ := hp2 np n1
      have hrangeU : intRange (withUpDown (atLevel s)).pieceCount = [0, 1, 2, 3, 4, 5] := by
        rw [hUpc]; exact hrange
      simp only [hcond, and_self, if_true, hget, hset, ← hwU, hretry]
      rw [directionLoop_cons _ _ _ _ rfl]
      simp only [hrangeU, bind, Except.bind, hb2]
      cases hf2 : searchPass g (withUpDown (atLevel s)) with
      | some r =>
        refine ⟨n2, ?_⟩
        simp [pure, Except.pure]
      | none =>
        refine ⟨n2, ?_⟩
        have hcondU : (0 : Int) = 0 ∧ (withUpDown (atLevel s)).placedCount.tmod DIM = 0 ∧
            (withUpDown (atLevel s)).placedCount ≥ DIM := by
          rw [hUk]; decide
        have hlvU : (withUpDown (atLevel s)).level = 2 := by
          rw [hwU]; exact hlv
        have hgetU : (withUpDown (atLevel s)).tileDirection.get (withUpDown (atLevel s)).level =
            .ok TILE_UP_DOWN := by
          rw [hlvU, hUtd]
          simp [Arr4.get]
        simp only [hcondU, and_self, if_true, hgetU]
        simp [directionLoop, pure, Except.pure]
    · refine ⟨n1, ?_⟩
      have hcond : ¬ ((atLevel s).placedCount.tmod DIM = 0 ∧
          (atLevel s).placedCount ≥ DIM) := hretry
      simp only [true_and, hcond, if_false, hretry, pure, Except.pure]


/-! ## The specification's search, choice by choice -/

/-- The first success over a concatenation of lists. -/
theorem findSome?_flatMap' {α β γ : Type} (l : List α) (f : α → List β) (g : β → Option γ) :
    (l.flatMap f).findSome? g = l.findSome? fun a => (f a).findSome? g := by
  induction l with
  | nil => rfl
  | cons a rest ih =>
    rw [List.flatMap_cons, List.findSome?_append, ih, List.findSome?_cons]
    cases (f a).findSome? g <;> rfl

/-- The first success, seen through a map on the results. -/
theorem findSome?_map_result {α β γ : Type} (l : List α) (f : α → Option β) (h : β → γ) :
    (l.findSome? f).map h = l.findSome? fun a => (f a).map h := by
  induction l with
  | nil => rfl
  | cons a rest ih =>
    rw [List.findSome?_cons, List.findSome?_cons]
    cases f a with
    | none => exact ih
    | some b => rfl

/-- The choices of the search: the two directions, the six pieces, the four
orientations. -/
theorem mem_allChoices (c : Choice) :
    c ∈ allChoices ↔
      c.direction ∈ [TILE_LEFT_RIGHT, TILE_UP_DOWN] ∧ c.piece ∈ [(0 : Int), 1, 2, 3, 4, 5] ∧
      c.orientation ∈ [0, 1, 2, 3] := by
  obtain ⟨d, i, o⟩ := c
  constructor
  · intro h
    revert h
    simp only [allChoices, List.flatMap_cons, List.flatMap_nil, List.map_cons, List.map_nil,
      List.append_nil, List.cons_append, List.nil_append, List.mem_cons, Choice.mk.injEq,
      List.not_mem_nil, or_false]
    intro h
    rcases h with h | h | h | h | h | h | h | h | h | h | h | h | h | h | h | h | h | h | h | h |
      h | h | h | h | h | h | h | h | h | h | h | h | h | h | h | h | h | h | h | h | h | h | h |
      h | h | h | h | h <;> obtain ⟨rfl, rfl, rfl⟩ := h <;> decide
  · rintro ⟨hd, hi, ho⟩
    simp only [List.mem_cons, List.mem_singleton, List.not_mem_nil, or_false] at hd hi ho
    rcases hd with rfl | rfl <;> rcases hi with rfl | rfl | rfl | rfl | rfl | rfl <;>
      rcases ho with rfl | rfl | rfl | rfl <;> decide

/-- The choices are listed in strictly ascending order. -/
theorem allChoices_sorted : allChoices.Pairwise Choice.lt := by
  decide


/-- The first success only depends on the function on the members of the list. -/
theorem findSome?_congr' {α β : Type} {l : List α} {f g : α → Option β}
    (h : ∀ a ∈ l, f a = g a) : l.findSome? f = l.findSome? g := by
  induction l with
  | nil => rfl
  | cons a rest ih =>
    rw [List.findSome?_cons, List.findSome?_cons, h a (by simp),
      ih (fun b hb => h b (by simp [hb]))]

/-- A choice built from a direction, a piece of the table and an orientation
number. -/
theorem applyChoice_mk (s : CPuzzle) {d i : Int} {o : Nat}
    (hd : d ∈ [TILE_LEFT_RIGHT, TILE_UP_DOWN]) (hi : i ∈ [(0 : Int), 1, 2, 3, 4, 5])
    (ho : o ∈ [0, 1, 2, 3]) :
    applyChoice s { direction := d, piece := i, orientation := o } =
      if i ∈ placedSoFar s then none
      else if d = directionOf s then tryPlace s i o
      else if retryApplies s ∧ directionOf s = TILE_LEFT_RIGHT ∧ d = TILE_UP_DOWN then
        tryPlace (withUpDown s) i o
      else none := by
  have hmem : ({ direction := d, piece := i, orientation := o } : Choice) ∈ allChoices :=
    (mem_allChoices _).2 ⟨hd, hi, ho⟩
  unfold applyChoice
  by_cases hp : i ∈ placedSoFar s
  · simp [hp]
  · simp [hp, hmem]

/-- The switch to `UpDown` does not touch the placement list. -/
theorem placedSoFar_withUpDown (s : CPuzzle) : placedSoFar (withUpDown s) = placedSoFar s := by
  unfold withUpDown
  split <;> rfl

/-- The switch to `UpDown` and the update of the current-level field commute. -/
theorem withUpDown_atLevel (s : CPuzzle) : withUpDown (atLevel s) = atLevel (withUpDown s) := by
  show (match s.tileDirection.set (currentLevel s) TILE_UP_DOWN with
    | .ok td => ({ atLevel s with tileDirection := td } : CPuzzle)
    | .error _ => atLevel s) =
    atLevel (match s.tileDirection.set (currentLevel s) TILE_UP_DOWN with
    | .ok td => ({ s with tileDirection := td } : CPuzzle)
    | .error _ => s)
  cases s.tileDirection.set (currentLevel s) TILE_UP_DOWN <;> rfl

/-- The first success over a list of two. -/
theorem findSome?_pair {α β : Type} (f : α → Option β) (a b : α) :
    [a, b].findSome? f = match f a with
      | some r => some r
      | none => f b := by
  rw [List.findSome?_cons]
  cases f a with
  | some r => rfl
  | none =>
    simp only []
    rw [List.findSome?_cons]
    cases f b <;> rfl

/-- A pass of the specification does not read the current-level field. -/
theorem searchPass_atLevel (g : CPuzzle → Option CPuzzle) (s : CPuzzle) :
    searchPass g (atLevel s) = searchPass g s := rfl

/-- The specification's search over all choices in order, seen as the two
passes of the code. -/
theorem choices_as_passes (g : CPuzzle → Option CPuzzle) (s : CPuzzle)
    (hdir : directionOf s = TILE_LEFT_RIGHT ∨
      (directionOf s = TILE_UP_DOWN ∧ ¬ retryApplies s)) :
    (allChoices.findSome? fun c => (applyChoice s c).bind g) = searchStep g s := by
  have hpass : ∀ d ∈ [TILE_LEFT_RIGHT, TILE_UP_DOWN],
      ([(0 : Int), 1, 2, 3, 4, 5].findSome? fun i =>
        [0, 1, 2, 3].findSome? fun o =>
          (applyChoice s { direction := d, piece := i, orientation := o }).bind g) =
      if d = directionOf s then searchPass g s
      else if retryApplies s ∧ directionOf s = TILE_LEFT_RIGHT ∧ d = TILE_UP_DOWN then
        searchPass g (withUpDown s)
      else none := by
    intro d hd
    by_cases h1 : d = directionOf s
    · rw [if_pos h1]
      unfold searchPass searchOrientations
      apply findSome?_congr'
      intro i hi
      by_cases hp : i ∈ placedSoFar s
      · rw [if_pos hp, List.findSome?_eq_none_iff]
        intro o ho
        rw [applyChoice_mk s hd hi ho, if_pos hp]
        rfl
      · rw [if_neg hp]
        apply findSome?_congr'
        intro o ho
        rw [applyChoice_mk s hd hi ho, if_neg hp, if_pos h1]
    · rw [if_neg h1]
      by_cases h2 : retryApplies s ∧ directionOf s = TILE_LEFT_RIGHT ∧ d = TILE_UP_DOWN
      · rw [if_pos h2]
        unfold searchPass searchOrientations
        rw [placedSoFar_withUpDown]
        apply findSome?_congr'
        intro i hi
        by_cases hp : i ∈ placedSoFar s
        · rw [if_pos hp, List.findSome?_eq_none_iff]
          intro o ho
          rw [applyChoice_mk s hd hi ho, if_pos hp]
          rfl
        · rw [if_neg hp]
          apply findSome?_congr'
          intro o ho
          rw [applyChoice_mk s hd hi ho, if_neg hp, if_neg h1, if_pos h2]
      · rw [if_neg h2, List.findSome?_eq_none_iff]
        intro i hi
        rw [List.findSome?_eq_none_iff]
        intro o ho
        rw [applyChoice_mk s hd hi ho]
        by_cases hp : i ∈ placedSoFar s
        · rw [if_pos hp]; rfl
        · rw [if_neg hp, if_neg h1, if_neg h2]; rfl
  have hflat : (allChoices.findSome? fun c => (applyChoice s c).bind g) =
      [TILE_LEFT_RIGHT, TILE_UP_DOWN].findSome? fun d =>
        [(0 : Int), 1, 2, 3, 4, 5].findSome? fun i =>
          [0, 1, 2, 3].findSome? fun o =>
            (applyChoice s { direction := d, piece := i, orientation := o }).bind g := by
    unfold allChoices
    rw [findSome?_flatMap']
    apply findSome?_congr'
    intro d _
    rw [findSome?_flatMap']
    apply findSome?_congr'
    intro i _
    rw [List.findSome?_map]
    rfl
  have hL := hpass TILE_LEFT_RIGHT (by simp)
  have hU := hpass TILE_UP_DOWN (by simp)
  rw [hflat, findSome?_pair]
  rw [hL, hU]
  unfold searchStep
  rw [searchPass_atLevel, withUpDown_atLevel, searchPass_atLevel]
  rcases hdir with h | ⟨h, hnr⟩
  · rw [h, if_pos rfl]
    have hne : ¬ (TILE_UP_DOWN = TILE_LEFT_RIGHT) := by decide
    rw [if_neg hne]
    cases searchPass g s with
    | some r => rfl
    | none =>
      simp only []
      by_cases hr : retryApplies s
      · simp [hr]
      · simp [hr]
  · rw [h]
    have hne : ¬ (TILE_LEFT_RIGHT = TILE_UP_DOWN) := by decide
    rw [if_neg hne, if_pos rfl]
    have hc : ¬ (retryApplies s ∧ TILE_UP_DOWN = TILE_LEFT_RIGHT ∧
        TILE_LEFT_RIGHT = TILE_UP_DOWN) := fun hh => hnr hh.1
    rw [if_neg hc]
    cases searchPass g s with
    | some r => rfl
    | none => simp [hnr]


/-- With room for a piece the retry applies exactly at the start of level 2. -/
theorem retryApplies_iff {s : CPuzzle} (h0 : 0 ≤ s.placedCount) (h5 : s.placedCount ≤ 5) :
    retryApplies s ↔ s.placedCount = 3 := by
  unfold retryApplies
  rcases level_cases h0 h5 with ⟨hk, -, hr⟩ | ⟨hk, -, hr⟩
  · simp only [DIM, hr]; omega
  · simp only [DIM, hr]; omega

/-- A choice that passes leads from a puzzle of the search to a puzzle of the
search with one more piece. -/
theorem SolveInv.after_choice {s s' : CPuzzle} {c : Choice} (hI : SolveInv s)
    (h : applyChoice s c = some s') :
    SolveInv s' ∧ s'.placedCount = s.placedCount + 1 ∧ s.placedCount ≤ 5 := by
  obtain ⟨hInv, hentry⟩ := hI
  unfold applyChoice at h
  split_ifs at h with h1 h2 h3
  · obtain ⟨hmem, hnew⟩ := h1
    obtain ⟨-, hi, ho⟩ := (mem_allChoices c).1 hmem
    obtain ⟨-, -, e2, e4, -, hset, -, -⟩ := tryPlace_spec h
    obtain ⟨-, hk5⟩ := Arr6_set_bounds hset
    refine ⟨⟨hInv.after_tryPlace hi ho hnew h, ?_⟩, e2, hk5⟩
    intro hk
    rw [e4]
    rcases hInv.2.2.2.2.2.2.1 with h2 | ⟨-, h3⟩
    · exact h2
    · omega
  · obtain ⟨hmem, hnew⟩ := h1
    obtain ⟨-, hi, ho⟩ := (mem_allChoices c).1 hmem
    obtain ⟨-, -, e2, e4, -, hset, -, -⟩ := tryPlace_spec h
    have hk5 : s.placedCount ≤ 5 := by
      have := (Arr6_set_bounds hset).2
      have e : (withUpDown s).placedCount = s.placedCount := by
        unfold withUpDown; split <;> rfl
      omega
    have hk : s.placedCount = 3 := (retryApplies_iff hInv.2.1 hk5).1 h3.1
    have hU := hInv.with_upDown hk
    have e : (withUpDown s).placedCount = s.placedCount := by
      rw [withUpDown_eq hk]
    rw [e] at e2
    refine ⟨⟨hU.after_tryPlace hi ho (by rw [placedSoFar_withUpDown]; exact hnew) h, ?_⟩,
      e2, hk5⟩
    intro hk'
    omega

/-- A sequence of choices that pass leads from a puzzle of the search to a
puzzle of the search, one piece more per choice. -/
theorem SolveInv.after_choices {s s' : CPuzzle} (hI : SolveInv s) (choices : List Choice)
    (h : applyChoices s choices = some s') :
    SolveInv s' ∧ s'.placedCount = s.placedCount + choices.length := by
  induction choices generalizing s with
  | nil =>
    simp only [applyChoices, Option.some.injEq] at h
    subst h
    exact ⟨hI, by simp⟩
  | cons c rest ih =>
    simp only [applyChoices] at h
    cases h1 : applyChoice s c with
    | none => simp [h1] at h
    | some s1 =>
      simp only [h1, Option.some_bind] at h
      obtain ⟨hI1, e1, -⟩ := hI.after_choice h1
      obtain ⟨hI', e'⟩ := ih hI1 h
      refine ⟨hI', ?_⟩
      rw [e', e1]
      simp only [List.length_cons, Nat.cast_add, Nat.cast_one]
      omega

/-- What the specification's search returns is the puzzle after the choices it
returns, with the current-level field up to date. -/
theorem specSearch_sound (m : Nat) (s : CPuzzle) (choices : List Choice) (r : CPuzzle)
    (h : specSearch m s = some (choices, r)) :
    ∃ r', applyChoices s choices = some r' ∧ r = atLevel r' ∧ choices.length = m := by
  induction m generalizing s choices r with
  | zero =>
    simp only [specSearch, Option.some.injEq, Prod.mk.injEq] at h
    obtain ⟨rfl, rfl⟩ := h
    exact ⟨s, rfl, rfl, rfl⟩
  | succ m ih =>
    simp only [specSearch] at h
    obtain ⟨c, -, hc⟩ := List.exists_of_findSome?_eq_some h
    cases h1 : applyChoice s c with
    | none => simp [h1] at hc
    | some s1 =>
      simp only [h1, Option.some_bind] at hc
      cases h2 : specSearch m s1 with
      | none => simp [h2] at hc
      | some x =>
        obtain ⟨rest, r1⟩ := x
        simp only [h2, Option.map_some', Option.some.injEq, Prod.mk.injEq] at hc
        obtain ⟨rfl, rfl⟩ := hc
        obtain ⟨r', hr', hat, hlen⟩ := ih s1 rest r1 h2
        exact ⟨r', by simp [applyChoices, h1, hr'], hat, by simp [hlen]⟩

/-- In a list in strictly ascending order the first success comes at or before
any given success. -/
theorem findSome?_first {α β : Type} (lt : α → α → Prop) (l : List α) (hl : l.Pairwise lt)
    (f : α → Option β) {a' : α} {b' : β} (ha : a' ∈ l) (hf : f a' = some b') :
    ∃ a b, l.findSome? f = some b ∧ f a = some b ∧ (a = a' ∨ lt a a') := by
  induction l with
  | nil => simp at ha
  | cons a rest ih =>
    rw [List.pairwise_cons] at hl
    rw [List.findSome?_cons]
    cases hfa : f a with
    | some b =>
      refine ⟨a, b, rfl, hfa, ?_⟩
      rcases List.mem_cons.1 ha with h | h
      · exact Or.inl h.symm
      · exact Or.inr (hl.1 a' h)
    | none =>
      rcases List.mem_cons.1 ha with h | h
      · rw [h, hfa] at hf; cases hf
      · exact ih hl.2 h

/-- The specification's search succeeds whenever some sequence of choices
passes, and the sequence it returns is lexicographically first among them. -/
theorem specSearch_first (m : Nat) (s : CPuzzle) (choices' : List Choice) (r' : CPuzzle)
    (h : applyChoices s choices' = some r') (hlen : choices'.length = m) :
    ∃ choices r, specSearch m s = some (choices, r) ∧ seqLe choices choices' := by
  induction m generalizing s choices' with
  | zero =>
    cases choices' with
    | nil => exact ⟨[], atLevel s, rfl, trivial⟩
    | cons c rest => simp at hlen
  | succ m ih =>
    cases choices' with
    | nil => simp at hlen
    | cons c' rest' =>
      simp only [applyChoices] at h
      cases h1 : applyChoice s c' with
      | none => simp [h1] at h
      | some s1 =>
        simp only [h1, Option.some_bind] at h
        obtain ⟨rest, r1, hrest, hle⟩ := ih s1 rest' h (by simpa using hlen)
        have hmem : c' ∈ allChoices := by
          unfold applyChoice at h1
          split_ifs at h1 with hc
          · exact hc.1
          · exact hc.1
        have hf : (fun c => (applyChoice s c).bind fun s' =>
            (specSearch m s').map fun r => (c :: r.1, r.2)) c' = some (c' :: rest, r1) := by
          simp [h1, hrest]
        obtain ⟨c, x, hfind, hfc, hor⟩ := findSome?_first Choice.lt allChoices
          allChoices_sorted (fun c => (applyChoice s c).bind fun s' =>
            (specSearch m s').map fun r => (c :: r.1, r.2)) hmem hf
        refine ⟨x.1, x.2, by simpa [specSearch] using hfind, ?_⟩
        rcases hor with rfl | hlt
        · have hx : some x = some (c :: rest, r1) := hfc.symm.trans hf
          cases hx
          exact Or.inr ⟨rfl, hle⟩
        · simp only at hfc
          cases h2 : applyChoice s c with
          | none => simp [h2] at hfc
          | some s2 =>
            simp only [h2, Option.some_bind] at hfc
            cases h3 : specSearch m s2 with
            | none => simp [h3] at hfc
            | some y =>
              simp only [h3, Option.map_some', Option.some.injEq] at hfc
              subst hfc
              exact Or.inl hlt


/-! ## `Solve` refines the search of the specification -/

/-- The puzzle the specification's search returns, as one step followed by the
search on the puzzle after the step. -/
theorem specSearch_succ_snd (m : Nat) (s : CPuzzle) :
    (specSearch (m + 1) s).map Prod.snd =
      allChoices.findSome? fun c =>
        (applyChoice s c).bind fun s' => (specSearch m s').map Prod.snd := by
  simp only [specSearch]
  rw [findSome?_map_result]
  apply findSome?_congr'
  intro c _
  cases applyChoice s c with
  | none => rfl
  | some s1 =>
    simp only [Option.some_bind]
    cases specSearch m s1 <;> rfl

/-- The direction of the current level at the entry of `Solve`. -/
theorem SolveInv.entry_direction {s : CPuzzle} (hI : SolveInv s) (h5 : s.placedCount ≤ 5) :
    directionOf s = TILE_LEFT_RIGHT ∨ (directionOf s = TILE_UP_DOWN ∧ ¬ retryApplies s) := by
  obtain ⟨hInv, hentry⟩ := hI
  obtain ⟨-, hdir, hlt, hge⟩ := hInv.direction h5
  rcases hdir with h | h
  · exact Or.inl h
  · refine Or.inr ⟨h, ?_⟩
    rw [retryApplies_iff hInv.2.1 h5]
    intro hk
    have h2 := hentry (by omega)
    rw [hge (by omega), h2] at h
    exact absurd h (by decide)

/-- `Solve` on a puzzle of the search with `m` pieces left returns without a
fault: `1` with the puzzle the specification's search finds, or `0`, when that
search finds nothing, with the puzzle a failed call leaves. -/
theorem SolveAux_refines (m : Nat) (s : CPuzzle) (hI : SolveInv s)
    (hk : s.placedCount = 6 - m) (n : Int) :
    ∃ n', CPuzzle.SolveAux (m + 1) n s = .ok
      (match specSearch m s with
       | some x => (1, x.2, n')
       | none => (0, failState s, n')) := by
  induction m generalizing s n with
  | zero =>
    refine ⟨n, ?_⟩
    show solveBody (CPuzzle.SolveAux 0) n s = _
    rw [solveBody_eq, if_neg (by rw [hI.1.1, hk]; decide)]
    rfl
  | succ m ih =>
    have h0 := hI.1.2.1
    have h5 : s.placedCount ≤ 5 := by omega
    show ∃ n', solveBody (CPuzzle.SolveAux (m + 1)) n s = _
    have hAns : ∀ c, SolveInv c → c.placedCount = s.placedCount + 1 →
        Answers (CPuzzle.SolveAux (m + 1)) (fun c => (specSearch m c).map Prod.snd) c := by
      intro c hIc hkc
      unfold Answers
      intro n1
      obtain ⟨n', hn'⟩ := ih c hIc (by omega) n1
      cases hsp : specSearch m c with
      | none =>
        rw [hsp] at hn'
        exact ⟨failState c, n', by simpa [hsp] using hn', by simp [hsp]⟩
      | some x =>
        rw [hsp] at hn'
        refine ⟨x.2, n', by simpa [hsp] using hn', ?_⟩
        intro r hr
        simp only [hsp, Option.map_some', Option.some.injEq] at hr
        subst hr
        obtain ⟨r', hr', hat, -⟩ := specSearch_sound m c x.1 x.2 (by rw [hsp])
        obtain ⟨hIr, -⟩ := hIc.after_choices _ hr'
        exact ⟨rfl, by rw [hat]; exact hIr.1.1⟩
    have hdirs := hI.1.direction h5
    have H : ∀ t, (t = atLevel s ∨ (retryApplies s ∧ t = withUpDown (atLevel s))) →
        ∀ i ∈ [(0 : Int), 1, 2, 3, 4, 5], i ∉ placedSoFar t → ∀ o ∈ [0, 1, 2, 3], ∀ c,
          tryPlace t i o = some c →
          Answers (CPuzzle.SolveAux (m + 1)) (fun c => (specSearch m c).map Prod.snd) c := by
      intro t ht i hi hnew o ho c hc
      rcases ht with rfl | ⟨hretry, rfl⟩
      · have hnew : i ∉ placedSoFar s := hnew
        have hch : applyChoice s { direction := directionOf s, piece := i, orientation := o } =
            some c := by
          rw [applyChoice_mk s (by
            rcases hdirs.2.1 with h | h <;> rw [h] <;> simp) hi ho, if_neg hnew, if_pos rfl]
          exact hc
        obtain ⟨hIc, hkc, -⟩ := hI.after_choice hch
        exact hAns c hIc hkc
      · have hk3 := (retryApplies_iff h0 h5).1 hretry
        have hLR : directionOf s = TILE_LEFT_RIGHT := by
          rw [hdirs.2.2.2 (by omega)]
          exact hI.2 (by omega)
        have hnew' : i ∉ placedSoFar s := by
          rw [withUpDown_atLevel] at hnew
          rw [← placedSoFar_withUpDown]
          exact hnew
        have hc' : tryPlace (withUpDown s) i o = some c := by
          rw [withUpDown_atLevel] at hc
          exact hc
        have hch : applyChoice s { direction := TILE_UP_DOWN, piece := i, orientation := o } =
            some c := by
          rw [applyChoice_mk s (by simp) hi ho, if_neg hnew', hLR,
            if_neg (by decide), if_pos ⟨hretry, rfl, rfl⟩]
          exact hc'
        obtain ⟨hIc, hkc, -⟩ := hI.after_choice hch
        exact hAns c hIc hkc
    obtain ⟨n', hn'⟩ := solveBody_found hI h5 H n
    refine ⟨n', ?_⟩
    rw [hn']
    have hmap := specSearch_succ_snd m s
    rw [choices_as_passes _ s (hI.entry_direction h5)] at hmap
    rw [← hmap]
    cases specSearch (m + 1) s <;> rfl


/-! ## Consequences for the run of the search -/

/-- Every puzzle the search can invoke `Solve` on has the shape of the
invariant. -/
theorem Reach.solveInv {s : CPuzzle} (h : Reach s) : SolveInv s := by
  induction h with
  | fresh => decide
  | step c _ hc ih => exact (ih.after_choice hc).1

/-- `Solve` on a puzzle of six pieces, in terms of the number of pieces left. -/
theorem Solve_eq_SolveAux {s : CPuzzle} (hpc : s.pieceCount = 6) (m : Nat)
    (hk : s.placedCount = 6 - m) (n : Int) : s.Solve n = CPuzzle.SolveAux (m + 1) n s := by
  unfold CPuzzle.Solve
  rw [hpc, hk]
  congr 2
  omega

/-- The number of pieces left on a puzzle of the search. -/
theorem SolveInv.left {s : CPuzzle} (hI : SolveInv s) :
    ∃ m : Nat, s.placedCount = 6 - m := by
  have h0 := hI.1.2.1
  have h6 := hI.1.2.2.1
  exact ⟨(6 - s.placedCount).toNat, by omega⟩

/-- `Solve` on a puzzle of the search, in terms of the specification's search. -/
theorem Solve_refines {s : CPuzzle} (hI : SolveInv s) (n : Int) :
    ∃ (m : Nat) (n' : Int), s.placedCount = 6 - m ∧ s.Solve n = .ok
      (match specSearch m s with
       | some x => (1, x.2, n')
       | none => (0, failState s, n')) := by
  obtain ⟨m, hm⟩ := hI.left
  obtain ⟨n', hn'⟩ := SolveAux_refines m s hI hm n
  exact ⟨m, n', hm, (Solve_eq_SolveAux hI.1.1 m hm n).trans hn'⟩

/-- A full valid choice sequence from a puzzle of the search has one choice per
piece left. -/
theorem ValidFrom.length {s : CPuzzle} (hI : SolveInv s) {choices : List Choice}
    (h : ValidFrom s choices) {m : Nat} (hm : s.placedCount = 6 - m) : choices.length = m := by
  obtain ⟨s', hs', h6⟩ := h
  obtain ⟨-, hk⟩ := hI.after_choices _ hs'
  omega

/-- C11: on a puzzle of six pieces with `placedCount = 6` `Solve` returns `1`
at once: the counter `iterations` is returned as it came, no value of the
recursive call is used (the body returns the same whatever stands for it), and
grid, `placed`, `placedCount` and `tileDirection` are unchanged. -/
theorem Solve_full (s : CPuzzle) (n : Int) (hpc : s.pieceCount = 6)
    (hk : s.placedCount = 6) :
    s.Solve n = .ok (1, atLevel s, n) ∧
    (∀ solve : SolveFn, solveBody solve n s = .ok (1, atLevel s, n)) ∧
    (atLevel s).spaces = s.spaces ∧ (atLevel s).placed = s.placed ∧
    (atLevel s).placedCount = s.placedCount ∧
    (atLevel s).tileDirection = s.tileDirection := by
  have hb : ∀ solve : SolveFn, solveBody solve n s = .ok (1, atLevel s, n) := by
    intro solve
    rw [solveBody_eq, if_neg (by rw [hpc, hk]; decide)]
    rfl
  refine ⟨?_, hb, rfl, rfl, rfl, rfl⟩
  rw [Solve_eq_SolveAux hpc 0 (by rw [hk]; rfl)]
  exact hb _

/-- Witness of C11: the solved puzzle. -/
theorem Solve_full_witness : solvedPuzzle.Solve 7 = .ok (1, atLevel solvedPuzzle, 7) :=
  (Solve_full solvedPuzzle 7 (by decide) (by decide)).1

/-- C12: on the fresh puzzle and on every puzzle the search reaches from it,
`Solve` returns without a fault, and it returns `1` exactly when some full
valid choice sequence exists (pieces not placed yet, each once, in one of the
four orientations, level 1 tiled `LeftRight`, level 2 tiled one way as a whole);
it returns `0` exactly when none exists. -/
theorem Solve_sound_complete (s : CPuzzle) (hR : Reach s) (n : Int) :
    ∃ ret s' n', s.Solve n = .ok (ret, s', n') ∧ (ret = 1 ∨ ret = 0) ∧
      (ret = 1 ↔ ∃ choices, ValidFrom s choices) ∧
      (ret = 0 ↔ ¬ ∃ choices, ValidFrom s choices) := by
  have hI := hR.solveInv
  obtain ⟨m, n', hm, hsolve⟩ := Solve_refines hI n
  cases hsp : specSearch m s with
  | some x =>
    rw [hsp] at hsolve
    obtain ⟨r', hr', -, hlen⟩ := specSearch_sound m s x.1 x.2 (by rw [hsp])
    obtain ⟨-, hk'⟩ := hI.after_choices _ hr'
    have hv : ∃ choices, ValidFrom s choices := ⟨x.1, r', hr', by omega⟩
    exact ⟨1, x.2, n', hsolve, Or.inl rfl, by simp [hv], by simp [hv]⟩
  | none =>
    rw [hsp] at hsolve
    have hv : ¬ ∃ choices, ValidFrom s choices := by
      rintro ⟨choices, hc⟩
      have hlen := hc.length hI hm
      obtain ⟨s', hs', -⟩ := hc
      obtain ⟨_, _, hfound, -⟩ := specSearch_first m s choices s' hs' hlen
      rw [hsp] at hfound
      cases hfound
    exact ⟨0, failState s, n', hsolve, Or.inr rfl, by simp [hv], by simp [hv]⟩

/-- Witness of C12: the fresh puzzle. -/
theorem Solve_sound_complete_witness :
    ∃ ret s' n', CPuzzle.new.Solve 0 = .ok (ret, s', n') ∧ (ret = 1 ∨ ret = 0) ∧
      (ret = 1 ↔ ∃ choices, ValidFrom CPuzzle.new choices) ∧
      (ret = 0 ↔ ¬ ∃ choices, ValidFrom CPuzzle.new choices) :=
  Solve_sound_complete CPuzzle.new Reach.fresh 0

/-- C13: the puzzle `Solve` leaves when run on the fresh puzzle is the puzzle
after the lexicographically first full valid choice sequence (direction, then
piece index, then orientation number, position by position), with the
current-level field brought up to date by the last call; and once a loop of
`Solve` has `solved` set it tries nothing more. -/
theorem Solve_new_first (n : Int) :
    (∃ choices final, applyChoices CPuzzle.new choices = some final ∧
      ValidFrom CPuzzle.new choices ∧
      (∀ choices', ValidFrom CPuzzle.new choices' → seqLe choices choices') ∧
      CPuzzle.new.Solve n = .ok (1, atLevel final, n + 12395) ∧
      atLevel final = solvedPuzzle) ∧
    (∀ (solve : SolveFn) (v : SolveVars), v.solved ≠ 0 →
      (∀ l, directionLoop solve l v = .ok v) ∧ (∀ l, pieceLoop solve l v = .ok v) ∧
      (∀ i l, orientationLoop solve i l v = .ok v)) := by
  refine ⟨?_, fun solve v hv => ⟨fun l => directionLoop_solved solve l v hv,
    fun l => pieceLoop_solved solve l v hv, fun i l => orientationLoop_solved solve i l v hv⟩⟩
  have hI := Reach.fresh.solveInv
  obtain ⟨n', hn'⟩ := SolveAux_refines 6 CPuzzle.new hI (by decide) n
  have hrun := Solve_new n
  rw [Solve_eq_SolveAux hI.1.1 6 (by decide), hn'] at hrun
  cases hsp : specSearch 6 CPuzzle.new with
  | none => simp [hsp] at hrun
  | some x =>
    simp only [hsp, Except.ok.injEq, Prod.mk.injEq, true_and] at hrun
    obtain ⟨hx, hnn⟩ := hrun
    obtain ⟨final, hfinal, hat, hlen⟩ := specSearch_sound 6 CPuzzle.new x.1 x.2 (by rw [hsp])
    obtain ⟨-, hk'⟩ := hI.after_choices _ hfinal
    have hk6 : final.placedCount = 6 := by
      rw [hk', hlen]; decide
    refine ⟨x.1, final, hfinal, ⟨final, hfinal, hk6⟩, ?_, ?_, by rw [← hat, hx]⟩
    · intro choices' hc'
      have hlen' := hc'.length hI (m := 6) (by decide)
      obtain ⟨s', hs', -⟩ := hc'
      obtain ⟨c0, r0, hfound, hle⟩ := specSearch_first 6 CPuzzle.new choices' s' hs' hlen'
      rw [hsp] at hfound
      cases hfound
      exact hle
    · rw [← hat, hx]
      exact Solve_new n


/-! ## What a call of `Solve` leaves behind -/

/-- The puzzle a failed call leaves has the shape of the invariant. -/
theorem Inv.fail_state {s : CPuzzle} (hI : Inv s) (h5 : s.placedCount ≤ 5) :
    Inv (failState s) := by
  unfold failState
  split
  · rename_i hr
    have hk := (retryApplies_iff hI.2.1 h5).1 hr
    exact Inv.with_upDown (s := atLevel s) hI hk
  · exact hI

/-- The result of `Solve` on a puzzle of the search: either `1` with the puzzle
after a full sequence of choices, or `0` with the puzzle as it was up to the
current level and the direction of level 2. -/
theorem Solve_result {s : CPuzzle} (hI : SolveInv s) {n ret : Int} {s' : CPuzzle} {n' : Int}
    (h : s.Solve n = .ok (ret, s', n')) :
    Inv s' ∧
    ((ret = 1 ∧ ∃ choices r', applyChoices s choices = some r' ∧ s' = atLevel r' ∧
        r'.placedCount = 6) ∨
     (ret = 0 ∧ s' = failState s ∧ s.placedCount ≤ 5)) := by
  obtain ⟨m, n1, hm, hsolve⟩ := Solve_refines hI n
  rw [hsolve] at h
  cases hsp : specSearch m s with
  | some x =>
    simp only [hsp, Except.ok.injEq, Prod.mk.injEq] at h
    obtain ⟨rfl, rfl, -⟩ := h
    obtain ⟨r', hr', hat, hlen⟩ := specSearch_sound m s x.1 x.2 (by rw [hsp])
    obtain ⟨hI', hk'⟩ := hI.after_choices _ hr'
    refine ⟨?_, Or.inl ⟨rfl, x.1, r', hr', hat, by omega⟩⟩
    rw [hat]
    exact hI'.1
  | none =>
    simp only [hsp, Except.ok.injEq, Prod.mk.injEq] at h
    obtain ⟨rfl, rfl, -⟩ := h
    have h5 : s.placedCount ≤ 5 := by
      cases m with
      | zero => simp [specSearch] at hsp
      | succ m => push_cast at hm; omega
    exact ⟨hI.1.fail_state h5, Or.inr ⟨rfl, rfl, h5⟩⟩

/-- C18: when `Solve` returns `0` on a puzzle the search reaches (with
`placedCount` in `0..5`), the grid, `placedCount`, the placement list and
`pieceCount` are as before the call, the directions of levels 0, 1 and 3 are as
before, `level` is `placedCount / 3 + 1`, and the direction of level 2 is as
before unless `placedCount = 3`, where it is left at `UpDown`. -/
theorem Solve_failure_frame (s : CPuzzle) (hR : Reach s) (h5 : s.placedCount ≤ 5) (n : Int)
    (s' : CPuzzle) (n' : Int) (h : s.Solve n = .ok (0, s', n')) :
    s'.spaces = s.spaces ∧ s'.placedCount = s.placedCount ∧ s'.placed = s.placed ∧
    s'.pieceCount = s.pieceCount ∧ s'.level = s.placedCount.tdiv DIM + 1 ∧
    s'.tileDirection.a0 = s.tileDirection.a0 ∧ s'.tileDirection.a1 = s.tileDirection.a1 ∧
    s'.tileDirection.a3 = s.tileDirection.a3 ∧
    (s.placedCount ≠ 3 → s'.tileDirection = s.tileDirection) ∧
    (s.placedCount = 3 → s'.tileDirection.a2 = TILE_UP_DOWN) := by
  have hI := hR.solveInv
  obtain ⟨-, ⟨h1, -⟩ | ⟨-, hs', -⟩⟩ := Solve_result hI h
  · exact absurd h1 (by decide)
  subst hs'
  unfold failState
  by_cases hk : s.placedCount = 3
  · rw [if_pos ((retryApplies_iff hI.1.2.1 h5).2 hk), withUpDown_eq (s := atLevel s) hk]
    exact ⟨rfl, rfl, rfl, rfl, rfl, rfl, rfl, rfl, fun h => absurd hk h, fun _ => rfl⟩
  · rw [if_neg (fun hr => hk ((retryApplies_iff hI.1.2.1 h5).1 hr))]
    exact ⟨rfl, rfl, rfl, rfl, rfl, rfl, rfl, rfl, fun _ => rfl, fun h => absurd h hk⟩

/-- The puzzle with pieces 0 and 1 placed as they are is one the search
reaches. -/
theorem reach_deadEnd : Reach (afterPath [(0, 0), (1, 0)]) :=
  Reach.step (s := afterPath [(0, 0)]) ⟨TILE_LEFT_RIGHT, 1, 0⟩
    (Reach.step (s := CPuzzle.new) ⟨TILE_LEFT_RIGHT, 0, 0⟩ Reach.fresh (by decide)) (by decide)

/-- Witness of C18: the call on the puzzle with pieces 0 and 1 placed as they
are fails and returns the puzzle as it was. -/
theorem Solve_failure_frame_witness :
    (afterPath [(0, 0), (1, 0)]).Solve 2 =
        .ok (0, afterPath [(0, 0), (1, 0)], 746) ∧
      (afterPath [(0, 0), (1, 0)]).spaces = (afterPath [(0, 0), (1, 0)]).spaces :=
  ⟨deadEnd_1_0, (Solve_failure_frame (afterPath [(0, 0), (1, 0)]) reach_deadEnd (by decide) 2
    (afterPath [(0, 0), (1, 0)]) 746 deadEnd_1_0).1⟩


/-! ## Faults and the housing -/

/-- The puzzles `Solve`, called on `s`, hands to `PlacePiece` have the shape of
the invariant. -/
theorem Inv.of_pass {s t : CPuzzle} (hI : Inv s) (h5 : s.placedCount ≤ 5)
    (ht : t = atLevel s ∨ (retryApplies s ∧ t = withUpDown (atLevel s))) :
    Inv t ∧ t.placedCount = s.placedCount := by
  rcases ht with rfl | ⟨hr, rfl⟩
  · exact ⟨hI, rfl⟩
  · have hk := (retryApplies_iff hI.2.1 h5).1 hr
    refine ⟨Inv.with_upDown (s := atLevel s) hI hk, ?_⟩
    rw [withUpDown_eq (s := atLevel s) hk]
    rfl

/-- Under the invariant level 1 is full once three pieces are placed. -/
theorem Inv.level_one_full {t : CPuzzle} (hI : Inv t) (h3 : 3 ≤ t.placedCount) :
    ∀ c ∈ [(0 : Int), 1, 2], ∀ k ∈ [(0 : Int), 1, 2], ∃ b, t.cell c 1 k = .ok b ∧
      validOperand b := by
  intro c hc k hk
  have H := hI.2.2.2.2.2.2.2.2.1 c hc k hk
  simp only [List.mem_cons, List.mem_singleton, List.not_mem_nil, or_false] at hk
  have e : decide (k < t.placedCount) = true := by simp; omega
  rw [e] at H
  exact cellHas_true H

/-- C14: `Solve` on a puzzle the search reaches from the fresh one returns
without a fault, and in every call of `PlacePiece` it makes there (on the
puzzle itself or, at the start of level 2, on the puzzle switched to `UpDown`,
with any piece of the table in any of the four orientations) `PlacePiece`
returns without a fault: each candidate cell and each cell below is `Hole`,
`BumpUp` or `BumpDown`, `fitsAbove` returns a value on them, and the level read
below is level 0 or a full level 1. -/
theorem search_never_faults (s : CPuzzle) (hR : Reach s) (n : Int) :
    (∃ ret s' n', s.Solve n = .ok (ret, s', n')) ∧
    ∀ t, (t = atLevel s ∨ (retryApplies s ∧ t = withUpDown (atLevel s))) →
      s.placedCount ≤ 5 →
      (currentLevel t - 1 = 0 ∨
        (currentLevel t - 1 = 1 ∧ ∀ c ∈ [(0 : Int), 1, 2], ∀ k ∈ [(0 : Int), 1, 2],
          ∃ b, t.cell c 1 k = .ok b ∧ validOperand b)) ∧
      ∀ i ∈ [(0 : Int), 1, 2, 3, 4, 5], ∀ o ∈ [0, 1, 2, 3],
        (∃ piece fit t', pieces.get i = .ok piece ∧
          ∀ m, t.PlacePiece m (orientedPiece piece o) = .ok (fit, t', m + 1)) ∧
        ∀ j ∈ [(0 : Int), 1, 2], ∃ v b f, tableRead i o j = .ok v ∧ validOperand v ∧
          t.cell (address t j).1 (currentLevel t - 1) (address t j).2 = .ok b ∧
          validOperand b ∧ fitsAbove v b = .ok f := by
  have hI := hR.solveInv
  refine ⟨?_, ?_⟩
  · obtain ⟨m, n', -, h⟩ := Solve_refines hI n
    exact ⟨_, _, _, h⟩
  intro t ht h5
  obtain ⟨hIt, hkt⟩ := hI.1.of_pass h5 ht
  have h5t : t.placedCount ≤ 5 := by omega
  refine ⟨?_, ?_⟩
  · unfold currentLevel
    rcases level_cases hIt.2.1 h5t with ⟨-, hl, -⟩ | ⟨h3, hl, -⟩
    · left; rw [hl]; rfl
    · right; rw [hl]; exact ⟨rfl, hIt.level_one_full h3⟩
  intro i hi o ho
  obtain ⟨piece, fit, t', hp, hpp, -, -⟩ := hIt.PlacePiece_total h5t hi ho
  refine ⟨⟨piece, fit, t', hp, hpp⟩, ?_⟩
  intro j hj
  obtain ⟨v, b, f, hv, hvv, hb, hbv, hf, -, -⟩ := hIt.fitAt_ok h5t hp hi ho hj
  exact ⟨v, b, f, by rw [tableRead_eq hp]; exact hv, hvv, hb, hbv, hf⟩

/-- Witness of C14: the fresh puzzle. -/
theorem search_never_faults_witness : ∃ ret s' n', CPuzzle.new.Solve 0 = .ok (ret, s', n') :=
  (search_never_faults CPuzzle.new Reach.fresh 0).1

/-- A call of `PlacePiece` that returns leaves every cell outside the current
level as it was. -/
theorem PlacePiece_other_levels {t : CPuzzle} {n : Int} {p : CPiece} {fit : Int}
    {t' : CPuzzle} {n' : Int} (h : t.PlacePiece n p = .ok (fit, t', n')) (c l k : Int)
    (hl : l ≠ currentLevel t) : t'.cell c l k = t.cell c l k := by
  obtain ⟨-, htest, hw⟩ := (PlacePiece_ok_iff t n p fit t' n').1 h
  by_cases hfit : fit = 0
  · rw [if_neg (by simpa using hfit)] at hw
    rw [hw]
    rfl
  rw [if_pos hfit] at hw
  cases hd : t.tileDirection.get (currentLevel t) with
  | error e =>
    exfalso
    obtain ⟨-, h0, -, -⟩ := (placeTest_three _ p fit).1 ⟨htest, hfit⟩
    unfold fitAt at h0
    have hd' : (atLevel t).tileDirection.get (atLevel t).level = .error e := hd
    simp [atLevel, currentLevel] at hd'
    simp [hd', bind, Except.bind] at h0
    split at h0 <;> cases h0
  | ok d =>
    obtain ⟨c0, c1, c2, -, -, -, hcell⟩ := placeWrite_three (s := atLevel t) (d := d) hd t' hw
    rw [hcell]
    have hl' : ¬ l = (atLevel t).level := hl
    simp only [hl', false_and, and_false, if_false]
    rfl

/-- C15: in the fresh puzzle levels 0 and 3 are all `Hole` and levels 1 and 2
all `Empty`; in every puzzle the search reaches from it, in the puzzles handed
to `PlacePiece` there, and in the puzzle `Solve` leaves, levels 0 and 3 are all
`Hole`; a call of `PlacePiece` that returns leaves every cell outside level
`placedCount / 3 + 1` as it was, and that level is 1 or 2. -/
theorem housing_kept (s : CPuzzle) (hR : Reach s) :
    (∀ c ∈ [(0 : Int), 1, 2], ∀ k ∈ [(0 : Int), 1, 2],
      CPuzzle.new.cell c 0 k = .ok SPACE_HOLE ∧ CPuzzle.new.cell c 3 k = .ok SPACE_HOLE ∧
      CPuzzle.new.cell c 1 k = .ok SPACE_EMPTY ∧ CPuzzle.new.cell c 2 k = .ok SPACE_EMPTY) ∧
    housed s ∧
    (∀ t, (t = atLevel s ∨ (retryApplies s ∧ t = withUpDown (atLevel s))) →
      s.placedCount ≤ 5 →
      housed t ∧ (t.placedCount.tdiv DIM + 1 = 1 ∨ t.placedCount.tdiv DIM + 1 = 2) ∧
      ∀ n p fit t' n', t.PlacePiece n p = .ok (fit, t', n') →
        housed t' ∧
        ∀ c l k, l ≠ t.placedCount.tdiv DIM + 1 → t'.cell c l k = t.cell c l k) ∧
    (∀ n ret s' n', s.Solve n = .ok (ret, s', n') → housed s') := by
  have hI := hR.solveInv
  refine ⟨by decide, hI.1.2.2.2.2.2.2.2.1, ?_, ?_⟩
  · intro t ht h5
    obtain ⟨hIt, hkt⟩ := hI.1.of_pass h5 ht
    have h5t : t.placedCount ≤ 5 := by omega
    have hlev : t.placedCount.tdiv DIM + 1 = 1 ∨ t.placedCount.tdiv DIM + 1 = 2 := by
      rcases level_cases hIt.2.1 h5t with ⟨-, hl, -⟩ | ⟨-, hl, -⟩
      · exact Or.inl hl
      · exact Or.inr hl
    refine ⟨hIt.2.2.2.2.2.2.2.1, hlev, ?_⟩
    intro n p fit t' n' hpp
    have hother := PlacePiece_other_levels hpp
    refine ⟨?_, fun c l k hl => hother c l k hl⟩
    intro c hc k hk
    have H := hIt.2.2.2.2.2.2.2.1 c hc k hk
    have e0 : (0 : Int) ≠ currentLevel t := by
      unfold currentLevel; rcases hlev with h | h <;> rw [h] <;> decide
    have e3 : (3 : Int) ≠ currentLevel t := by
      unfold currentLevel; rcases hlev with h | h <;> rw [h] <;> decide
    rw [hother c 0 k e0, hother c 3 k e3]
    exact H
  · intro n ret s' n' h
    exact (Solve_result hI h).1.2.2.2.2.2.2.2.1

/-- Witness of C15: the fresh puzzle. -/
theorem housing_kept_witness : housed CPuzzle.new :=
  (housing_kept CPuzzle.new Reach.fresh).2.1


/-! ## The nested calls of `Solve` -/

/-- A copy has the counts of its source. -/
theorem assign_frame {q p r : CPuzzle} (h : q.assign p = .ok r) :
    r.pieceCount = p.pieceCount ∧ r.placedCount = p.placedCount := by
  unfold CPuzzle.assign at h
  rw [bind_ok_iff] at h
  obtain ⟨pl, -, h⟩ := h
  cases h
  exact ⟨rfl, rfl⟩

/-- A call of `PlacePiece` that returns leaves the counts as they were. -/
theorem PlacePiece_frame {s : CPuzzle} {n : Int} {p : CPiece} {fit : Int} {s' : CPuzzle}
    {n' : Int} (h : s.PlacePiece n p = .ok (fit, s', n')) :
    s'.pieceCount = s.pieceCount ∧ s'.placedCount = s.placedCount := by
  obtain ⟨-, -, hw⟩ := (PlacePiece_ok_iff s n p fit s' n').1 h
  split_ifs at hw
  · obtain ⟨h1, h2, -⟩ := placeWrite_frame _ _ _ _ hw
    exact ⟨h1, h2⟩
  · rw [hw]
    exact ⟨rfl, rfl⟩

/-- The body of the orientation loop asks the recursive call only about
puzzles with one more placed piece. -/
theorem orientationBody_cong {solve₁ solve₂ : SolveFn} (i : Int) (o : Nat) (v : SolveVars)
    (H : ∀ m c, c.placedCount = v.self.placedCount + 1 → c.pieceCount = v.self.pieceCount →
      solve₁ m c = solve₂ m c) :
    orientationBody solve₁ i o v = orientationBody solve₂ i o v := by
  unfold orientationBody
  cases hp : pieces.get i with
  | error e => rfl
  | ok piece =>
  cases ha : v.newPuzzle.assign v.self with
  | error e => rfl
  | ok q =>
  simp only [bind, Except.bind]
  obtain ⟨hq1, hq2⟩ := assign_frame ha
  generalize hpc : (if o &&& 2 ≠ 0 then
      (if o &&& 1 ≠ 0 then (CPiece.assign piece).Flip else CPiece.assign piece).Reverse
    else if o &&& 1 ≠ 0 then (CPiece.assign piece).Flip else CPiece.assign piece) = np
  cases hpp : q.PlacePiece v.iterations np with
  | error e => rfl
  | ok r =>
  obtain ⟨fit, q', n'⟩ := r
  obtain ⟨hf1, hf2⟩ := PlacePiece_frame hpp
  simp only []
  by_cases hfit : fit = 0
  · simp only [hfit, ne_eq, not_true_eq_false, if_false]
  · simp only [ne_eq, hfit, not_false_eq_true, if_true]
    cases hset : q'.placed.set v.self.placedCount i with
    | error e => rfl
    | ok pl =>
    simp only []
    rw [H n' { q' with placed := pl, placedCount := q'.placedCount + 1 }
      (by show q'.placedCount + 1 = _; rw [hf2, hq2])
      (by show q'.pieceCount = _; rw [hf1, hq1])]

/-- One attempt that leaves `solved` at `0` leaves the puzzle of the call as it
was. -/
theorem orientationBody_unsolved {solve : SolveFn} {i : Int} {o : Nat} {v v' : SolveVars}
    (h : orientationBody solve i o v = .ok v') (hs : v'.solved = 0) : v'.self = v.self := by
  unfold orientationBody at h
  simp only [bind_ok_iff] at h
  obtain ⟨piece, -, q, -, r, -, h⟩ := h
  obtain ⟨fit, q', n'⟩ := r
  simp only [] at h
  split_ifs at h with hfit
  · simp only [bind_ok_iff] at h
    obtain ⟨pl, -, r2, -, h⟩ := h
    obtain ⟨sv, c', n2⟩ := r2
    simp only [] at h
    split_ifs at h with hsv
    · simp only [bind_ok_iff] at h
      obtain ⟨self', -, h⟩ := h
      cases h
      exact absurd hs hsv
    · cases h
      rfl
  · cases h
    rfl

/-- The orientation loop, when it leaves `solved` at `0`, leaves the puzzle of
the call as it was. -/
theorem orientationLoop_unsolved {solve : SolveFn} {i : Int} (l : List Nat) {v v' : SolveVars}
    (h : orientationLoop solve i l v = .ok v') (hs : v'.solved = 0) : v'.self = v.self := by
  induction l generalizing v with
  | nil =>
    simp only [orientationLoop, pure, Except.pure, Except.ok.injEq] at h
    rw [h]
  | cons o rest ih =>
    by_cases hv : v.solved = 0
    · rw [orientationLoop, if_neg (by simpa using hv), bind_ok_iff] at h
      obtain ⟨v1, hb, hrest⟩ := h
      by_cases h1 : v1.solved = 0
      · rw [ih hrest, orientationBody_unsolved hb h1]
      · rw [orientationLoop_solved _ _ _ _ h1] at hrest
        cases hrest
        exact absurd hs h1
    · rw [orientationLoop_solved _ _ _ _ hv] at h
      cases h
      rfl

/-- One round of the piece loop on an unsolved state. -/
theorem pieceLoop_cons (solve : SolveFn) (i : Int) (rest : List Int) (v : SolveVars)
    (hs : v.solved = 0) :
    pieceLoop solve (i :: rest) v =
      (v.self.AlreadyPlaced i >>= fun already =>
        (if already = 0 then orientationLoop solve i [0, 1, 2, 3] v else pure v) >>=
          fun v1 => pieceLoop solve rest v1) := by
  rw [pieceLoop, if_neg (by simpa using hs)]
  congr 1
  funext already
  by_cases h : already = 0 <;> simp [h]

/-- Two runs that agree after every value of the first step agree. -/
theorem bind_congr_ok {α β : Type} {x : Except Fault α} {f g : α → Except Fault β}
    (h : ∀ a, x = .ok a → f a = g a) : (x >>= f) = (x >>= g) := by
  cases x with
  | error e => rfl
  | ok a => exact h a rfl

/-- The piece loop, when it leaves `solved` at `0`, leaves the puzzle of the
call as it was. -/
theorem pieceLoop_unsolved {solve : SolveFn} (l : List Int) {v v' : SolveVars}
    (h : pieceLoop solve l v = .ok v') (hs : v'.solved = 0) : v'.self = v.self := by
  induction l generalizing v with
  | nil =>
    simp only [pieceLoop, pure, Except.pure, Except.ok.injEq] at h
    rw [h]
  | cons i rest ih =>
    by_cases hv : v.solved = 0
    · rw [pieceLoop_cons _ _ _ _ hv, bind_ok_iff] at h
      obtain ⟨already, -, h⟩ := h
      rw [bind_ok_iff] at h
      obtain ⟨v1, hb, hrest⟩ := h
      by_cases h1 : v1.solved = 0
      · rw [ih hrest]
        split_ifs at hb
        · exact orientationLoop_unsolved _ hb h1
        · cases hb
          rfl
      · rw [pieceLoop_solved _ _ _ h1] at hrest
        cases hrest
        exact absurd hs h1
    · rw [pieceLoop_solved _ _ _ hv] at h
      cases h
      rfl

/-- The orientation loop asks the recursive call only about puzzles with one
more placed piece. -/
theorem orientationLoop_cong {solve₁ solve₂ : SolveFn} (i : Int) (l : List Nat) (v : SolveVars)
    (H : ∀ m c, c.placedCount = v.self.placedCount + 1 → c.pieceCount = v.self.pieceCount →
      solve₁ m c = solve₂ m c) :
    orientationLoop solve₁ i l v = orientationLoop solve₂ i l v := by
  induction l generalizing v with
  | nil => rfl
  | cons o rest ih =>
    by_cases hv : v.solved = 0
    · rw [orientationLoop, orientationLoop, if_neg (by simpa using hv),
        if_neg (by simpa using hv), orientationBody_cong i o v H]
      cases hb : orientationBody solve₂ i o v with
      | error e => rfl
      | ok v1 =>
        show orientationLoop solve₁ i rest v1 = orientationLoop solve₂ i rest v1
        by_cases h1 : v1.solved = 0
        · have e := orientationBody_unsolved hb h1
          exact ih v1 (by rw [e]; exact H)
        · rw [orientationLoop_solved _ _ _ _ h1, orientationLoop_solved _ _ _ _ h1]
    · rw [orientationLoop_solved _ _ _ _ hv, orientationLoop_solved _ _ _ _ hv]

/-- The piece loop asks the recursive call only about puzzles with one more
placed piece. -/
theorem pieceLoop_cong {solve₁ solve₂ : SolveFn} (l : List Int) (v : SolveVars)
    (H : ∀ m c, c.placedCount = v.self.placedCount + 1 → c.pieceCount = v.self.pieceCount →
      solve₁ m c = solve₂ m c) :
    pieceLoop solve₁ l v = pieceLoop solve₂ l v := by
  induction l generalizing v with
  | nil => rfl
  | cons i rest ih =>
    by_cases hv : v.solved = 0
    · rw [pieceLoop_cons _ _ _ _ hv, pieceLoop_cons _ _ _ _ hv]
      apply bind_congr_ok
      intro already _
      rw [orientationLoop_cong i [0, 1, 2, 3] v H]
      apply bind_congr_ok
      intro v1 hb
      by_cases h1 : v1.solved = 0
      · have e : v1.self = v.self := by
          split_ifs at hb
          · exact orientationLoop_unsolved _ hb h1
          · cases hb
            rfl
        exact ih v1 (by rw [e]; exact H)
      · rw [pieceLoop_solved _ _ _ h1, pieceLoop_solved _ _ _ h1]
    · rw [pieceLoop_solved _ _ _ hv, pieceLoop_solved _ _ _ hv]

/-- The direction loop asks the recursive call only about puzzles with one more
placed piece. -/
theorem directionLoop_cong {solve₁ solve₂ : SolveFn} (l : List Nat) (v : SolveVars)
    (H : ∀ m c, c.placedCount = v.self.placedCount + 1 → c.pieceCount = v.self.pieceCount →
      solve₁ m c = solve₂ m c) :
    directionLoop solve₁ l v = directionLoop solve₂ l v := by
  induction l generalizing v with
  | nil => rfl
  | cons d rest ih =>
    by_cases hv : v.solved = 0
    · rw [directionLoop_cons _ _ _ _ hv, directionLoop_cons _ _ _ _ hv, pieceLoop_cong _ v H]
      apply bind_congr_ok
      intro v1 hb
      split_ifs with hc
      · have e := pieceLoop_unsolved _ hb hc.1
        apply bind_congr_ok
        intro direction _
        split_ifs
        · apply bind_congr_ok
          intro td _
          exact ih _ (by rw [← e] at H; exact H)
        · exact ih _ (by rw [e]; exact H)
      · rfl
    · rw [directionLoop_solved _ _ _ hv, directionLoop_solved _ _ _ hv]

/-- The body of `Solve` asks the recursive call only about puzzles with one
more placed piece and the same number of pieces. -/
theorem solveBody_cong {solve₁ solve₂ : SolveFn} (n : Int) (s : CPuzzle)
    (H : ∀ m c, c.placedCount = s.placedCount + 1 → c.pieceCount = s.pieceCount →
      solve₁ m c = solve₂ m c) :
    solveBody solve₁ n s = solveBody solve₂ n s := by
  rw [solveBody_eq, solveBody_eq, directionLoop_cong [0, 1] _ H]


/-! ## The direction of a level -/

/-- The body of `Solve` away from the start of level 2: one pass of the piece
loop and no write to `tileDirection`. -/
theorem solveBody_one_pass (solve : SolveFn) (n : Int) {s : CPuzzle} (hpc : s.pieceCount = 6)
    (h0 : 0 ≤ s.placedCount) (h5 : s.placedCount ≤ 5) (hk : s.placedCount ≠ 3) :
    solveBody solve n s =
      (pieceLoop solve [0, 1, 2, 3, 4, 5]
          { self := atLevel s, newPuzzle := CPuzzle.new, solved := 0, iterations := n } >>=
        fun v => pure (v.solved, v.self, v.iterations)) := by
  have hrange : intRange (atLevel s).pieceCount = [0, 1, 2, 3, 4, 5] := by
    show intRange s.pieceCount = _
    rw [hpc]; exact intRange_six
  rw [solveBody_eq, if_pos (by omega), directionLoop_cons _ _ _ _ rfl, bind_assoc]
  simp only [hrange]
  apply bind_congr_ok
  intro v1 hb
  rw [if_neg, pure_bind]
  rintro ⟨hs, hmod, hge⟩
  have e := pieceLoop_unsolved _ hb hs
  rw [e] at hmod hge
  have hr : ¬ retryApplies s := fun hr => hk ((retryApplies_iff h0 h5).1 hr)
  exact hr ⟨hmod, hge⟩

/-- The second round of the direction loop at the start of level 2: one pass
of the piece loop under `UpDown` and nothing more. -/
theorem directionLoop_last (solve : SolveFn) {s : CPuzzle} (hpc : s.pieceCount = 6)
    (hk : s.placedCount = 3) (v : SolveVars) (hs : v.solved = 0)
    (hv : v.self = withUpDown (atLevel s)) :
    directionLoop solve [1] v = pieceLoop solve [0, 1, 2, 3, 4, 5] v := by
  have hup : withUpDown (atLevel s) =
      { atLevel s with tileDirection := { s.tileDirection with a2 := TILE_UP_DOWN } } :=
    withUpDown_eq (s := atLevel s) hk
  have hrange : intRange v.self.pieceCount = [0, 1, 2, 3, 4, 5] := by
    rw [hv, hup]
    show intRange s.pieceCount = _
    rw [hpc]; exact intRange_six
  rw [directionLoop_cons _ _ _ _ hs, hrange]
  conv_rhs => rw [← bind_pure (pieceLoop solve [0, 1, 2, 3, 4, 5] v)]
  apply bind_congr_ok
  intro v2 hb2
  split_ifs with hc
  · have e2 : v2.self = withUpDown (atLevel s) := (pieceLoop_unsolved _ hb2 hc.1).trans hv
    have hget2 : v2.self.tileDirection.get v2.self.level = .ok TILE_UP_DOWN := by
      rw [e2, hup]
      show Arr4.get _ (s.placedCount.tdiv DIM + 1) = _
      rw [hk]
      rfl
    rw [hget2]
    rfl
  · rfl

/-- A choice past the start of level 2 leaves the directions as they were. -/
theorem applyChoice_direction {s s' : CPuzzle} {c : Choice} (hI : SolveInv s)
    (h : applyChoice s c = some s') (hk : 3 < s.placedCount) :
    s'.tileDirection = s.tileDirection := by
  obtain ⟨-, -, h5⟩ := hI.after_choice h
  unfold applyChoice at h
  split_ifs at h with h1 h2 h3
  · exact (tryPlace_spec h).2.2.2.1
  · have := (retryApplies_iff hI.1.2.1 h5).1 h3.1
    omega

/-- Choices past the start of level 2 leave the directions as they were. -/
theorem applyChoices_direction {s s' : CPuzzle} (hI : SolveInv s) (choices : List Choice)
    (h : applyChoices s choices = some s') (hk : 3 < s.placedCount) :
    s'.tileDirection.a2 = s.tileDirection.a2 := by
  induction choices generalizing s with
  | nil =>
    simp only [applyChoices, Option.some.injEq] at h
    rw [h]
  | cons c rest ih =>
    simp only [applyChoices] at h
    cases h1 : applyChoice s c with
    | none => simp [h1] at h
    | some s1 =>
      simp only [h1, Option.some_bind] at h
      obtain ⟨hI1, e1, -⟩ := hI.after_choice h1
      rw [ih hI1 h (by omega), applyChoice_direction hI h1 hk]

/-- The body of `Solve` at the start of level 2, entered with level 2 tiled
`LeftRight`: one pass of the piece loop; if it leaves `solved` at `0`, the
direction of level 2 is set to `UpDown` and exactly one more pass is made. -/
theorem solveBody_two_passes (solve : SolveFn) (n : Int) {s : CPuzzle} (hpc : s.pieceCount = 6)
    (hk : s.placedCount = 3) (hd : s.tileDirection.a2 = TILE_LEFT_RIGHT) :
    solveBody solve n s =
      (pieceLoop solve [0, 1, 2, 3, 4, 5]
          { self := atLevel s, newPuzzle := CPuzzle.new, solved := 0, iterations := n } >>=
        fun v =>
          if v.solved ≠ 0 then pure (v.solved, v.self, v.iterations)
          else
            pieceLoop solve [0, 1, 2, 3, 4, 5] { v with self := withUpDown (atLevel s) } >>=
              fun v2 => pure (v2.solved, v2.self, v2.iterations)) := by
  have hrange : intRange (atLevel s).pieceCount = [0, 1, 2, 3, 4, 5] := by
    show intRange s.pieceCount = _
    rw [hpc]; exact intRange_six
  have hup : withUpDown (atLevel s) =
      { atLevel s with tileDirection := { s.tileDirection with a2 := TILE_UP_DOWN } } :=
    withUpDown_eq (s := atLevel s) hk
  rw [solveBody_eq, if_pos (by rw [hk, hpc]; decide), directionLoop_cons _ _ _ _ rfl, bind_assoc]
  simp only [hrange]
  apply bind_congr_ok
  intro v1 hb
  by_cases hs : v1.solved = 0
  · have e := pieceLoop_unsolved _ hb hs
    have e' : v1.self = atLevel s := e
    have hcond : v1.solved = 0 ∧ v1.self.placedCount.tmod DIM = 0 ∧ v1.self.placedCount ≥ DIM := by
      rw [e']
      refine ⟨hs, ?_, ?_⟩
      · show s.placedCount.tmod DIM = 0
        rw [hk]; decide
      · show s.placedCount ≥ DIM
        rw [hk]
    have hlev : v1.self.level = 2 := by
      rw [e']
      show s.placedCount.tdiv DIM + 1 = 2
      rw [hk]; decide
    have hget : v1.self.tileDirection.get v1.self.level = .ok TILE_LEFT_RIGHT := by
      rw [hlev, e']
      show s.tileDirection.get 2 = _
      simp [Arr4.get, hd]
    have hset : v1.self.tileDirection.set v1.self.level TILE_UP_DOWN =
        .ok { s.tileDirection with a2 := TILE_UP_DOWN } := by
      rw [hlev, e']
      show s.tileDirection.set 2 TILE_UP_DOWN = _
      simp [Arr4.set]
    rw [if_pos hcond, if_neg (by simpa using hs), hget]
    simp only [bind, Except.bind, if_true, hset]
    have hself : ({ v1.self with tileDirection := { s.tileDirection with a2 := TILE_UP_DOWN } } :
        CPuzzle) = withUpDown (atLevel s) := by
      rw [hup, e']
    rw [hself, directionLoop_last solve hpc hk { v1 with self := withUpDown (atLevel s) } hs rfl]
  · rw [if_neg (fun h => hs h.1), if_pos (by simpa using hs), pure_bind]

/-- C16: in every puzzle the search reaches from the fresh one levels 0, 1 and
3 are tiled `LeftRight`, and so they are in the puzzle `Solve` leaves; a call
with `placedCount` other than 3 makes one pass over the pieces and writes no
direction; a call with `placedCount = 3` makes one pass under `LeftRight` and,
only if that pass leaves `solved` at `0`, sets the direction of level 2 to
`UpDown` and makes exactly one more pass. -/
theorem direction_rule (s : CPuzzle) (hR : Reach s) :
    (s.tileDirection.a0 = TILE_LEFT_RIGHT ∧ s.tileDirection.a1 = TILE_LEFT_RIGHT ∧
      s.tileDirection.a3 = TILE_LEFT_RIGHT) ∧
    (∀ n ret s' n', s.Solve n = .ok (ret, s', n') →
      s'.tileDirection.a0 = TILE_LEFT_RIGHT ∧ s'.tileDirection.a1 = TILE_LEFT_RIGHT ∧
      s'.tileDirection.a3 = TILE_LEFT_RIGHT ∧
      (s.placedCount < 3 → ret = 0 → s'.tileDirection.a2 = TILE_LEFT_RIGHT) ∧
      (3 < s.placedCount → s'.tileDirection.a2 = s.tileDirection.a2)) ∧
    (∀ (solve : SolveFn) n, s.placedCount ≤ 5 → s.placedCount ≠ 3 →
      solveBody solve n s =
        (pieceLoop solve [0, 1, 2, 3, 4, 5]
            { self := atLevel s, newPuzzle := CPuzzle.new, solved := 0, iterations := n } >>=
          fun v => pure (v.solved, v.self, v.iterations))) ∧
    (∀ (solve : SolveFn) n, s.placedCount = 3 →
      s.tileDirection.a2 = TILE_LEFT_RIGHT ∧
      solveBody solve n s =
        (pieceLoop solve [0, 1, 2, 3, 4, 5]
            { self := atLevel s, newPuzzle := CPuzzle.new, solved := 0, iterations := n } >>=
          fun v =>
            if v.solved ≠ 0 then pure (v.solved, v.self, v.iterations)
            else
              pieceLoop solve [0, 1, 2, 3, 4, 5] { v with self := withUpDown (atLevel s) } >>=
                fun v2 => pure (v2.solved, v2.self, v2.iterations))) := by
  have hI := hR.solveInv
  obtain ⟨⟨hpc, h0, h6, ha0, ha1, ha3, ha2, -⟩, hentry⟩ := hI
  refine ⟨⟨ha0, ha1, ha3⟩, ?_, ?_, ?_⟩
  · intro n ret s' n' h
    obtain ⟨hI', hcase⟩ := Solve_result hR.solveInv h
    refine ⟨hI'.2.2.2.1, hI'.2.2.2.2.1, hI'.2.2.2.2.2.1, ?_, ?_⟩
    · intro hk hret
      rcases hcase with ⟨h1, -⟩ | ⟨-, hs', h5⟩
      · rw [h1] at hret
        exact absurd hret (by decide)
      · rw [hs']
        unfold failState
        rw [if_neg (fun hr => by
          have := (retryApplies_iff h0 h5).1 hr
          omega)]
        exact hentry (by omega)
    · intro hk
      rcases hcase with ⟨-, choices, r', hr', hat, -⟩ | ⟨-, hs', h5⟩
      · rw [hat]
        show r'.tileDirection.a2 = _
        exact applyChoices_direction hR.solveInv choices hr' hk
      · rw [hs']
        unfold failState
        rw [if_neg (fun hr => by
          have := (retryApplies_iff h0 h5).1 hr
          omega)]
        rfl
  · intro solve n h5 hk
    exact solveBody_one_pass solve n hpc h0 h5 hk
  · intro solve n hk
    have hd := hentry (by omega)
    exact ⟨hd, solveBody_two_passes solve n hpc hk hd⟩

/-- Witness of C16: the fresh puzzle. -/
theorem direction_rule_witness : CPuzzle.new.tileDirection.a1 = TILE_LEFT_RIGHT :=
  (direction_rule CPuzzle.new Reach.fresh).1.2.1


/-! ## The depth of the nested calls -/

/-! No operation of the program other than a nested call of `Solve` stops with the
depth fault. -/

theorem ok_inDepth {α : Type} (a : α) : inDepth (Except.ok a : Except Fault α) := by
  intro h; cases h

theorem pure_inDepth {α : Type} (a : α) : inDepth (pure a : Except Fault α) := by
  intro h; cases h

theorem bind_inDepth {α β : Type} {x : Except Fault α} {f : α → Except Fault β}
    (hx : inDepth x) (hf : ∀ a, inDepth (f a)) : inDepth (x >>= f) := by
  cases x with
  | error e =>
    intro h
    have he : e = Fault.outOfFuel := by
      simpa [bind, Except.bind] using h
    exact hx (by rw [he])
  | ok a => exact hf a

theorem Arr3_get_inDepth {α : Type} (a : Arr3 α) (i : Int) : inDepth (a.get i) := by
  unfold Arr3.get inDepth; split_ifs <;> simp

theorem Arr3_set_inDepth {α : Type} (a : Arr3 α) (i : Int) (v : α) : inDepth (a.set i v) := by
  unfold Arr3.set inDepth; split_ifs <;> simp

theorem Arr4_get_inDepth {α : Type} (a : Arr4 α) (i : Int) : inDepth (a.get i) := by
  unfold Arr4.get inDepth; split_ifs <;> simp

theorem Arr4_set_inDepth {α : Type} (a : Arr4 α) (i : Int) (v : α) : inDepth (a.set i v) := by
  unfold Arr4.set inDepth; split_ifs <;> simp

theorem Arr6_get_inDepth {α : Type} (a : Arr6 α) (i : Int) : inDepth (a.get i) := by
  unfold Arr6.get inDepth; split_ifs <;> simp

theorem Arr6_set_inDepth {α : Type} (a : Arr6 α) (i : Int) (v : α) : inDepth (a.set i v) := by
  unfold Arr6.set inDepth; split_ifs <;> simp

theorem index_inDepth (p : CPiece) (i : Int) : inDepth (p.index i) := by
  unfold CPiece.index
  simp only []
  split <;> refine bind_inDepth (Arr3_get_inDepth _ _) fun a => ?_ <;>
    (split_ifs <;> exact pure_inDepth _)

theorem cell_inDepth (s : CPuzzle) (i j k : Int) : inDepth (s.cell i j k) := by
  unfold CPuzzle.cell
  exact bind_inDepth (Arr3_get_inDepth _ _) fun _ =>
    bind_inDepth (Arr4_get_inDepth _ _) fun _ => Arr3_get_inDepth _ _

theorem setCell_inDepth (s : CPuzzle) (i j k v : Int) : inDepth (s.setCell i j k v) := by
  unfold CPuzzle.setCell
  exact bind_inDepth (Arr3_get_inDepth _ _) fun _ =>
    bind_inDepth (Arr4_get_inDepth _ _) fun _ =>
    bind_inDepth (Arr3_set_inDepth _ _ _) fun _ =>
    bind_inDepth (Arr4_set_inDepth _ _ _) fun _ =>
    bind_inDepth (Arr3_set_inDepth _ _ _) fun _ => pure_inDepth _

theorem copyPlaced_inDepth (src : Arr6 Int) (l : List Int) (dst : Arr6 Int) :
    inDepth (copyPlaced src l dst) := by
  induction l generalizing dst with
  | nil => exact pure_inDepth _
  | cons i rest ih =>
    unfold copyPlaced
    exact bind_inDepth (Arr6_get_inDepth _ _) fun _ =>
      bind_inDepth (Arr6_set_inDepth _ _ _) fun _ => ih _

theorem assign_inDepth (q p : CPuzzle) : inDepth (q.assign p) := by
  unfold CPuzzle.assign
  exact bind_inDepth (copyPlaced_inDepth _ _ _) fun _ => pure_inDepth _

theorem fitsAbove_inDepth (c b : Int) : inDepth (fitsAbove c b) := by
  unfold fitsAbove inDepth; split_ifs <;> simp

theorem fitAt_inDepth (s : CPuzzle) (p : CPiece) (i : Int) : inDepth (fitAt s p i) := by
  unfold fitAt
  refine bind_inDepth (index_inDepth _ _) fun _ =>
    bind_inDepth (Arr4_get_inDepth _ _) fun _ => ?_
  simp only []
  split <;> exact bind_inDepth (cell_inDepth _ _ _ _) fun _ => fitsAbove_inDepth _ _

theorem placeTest_inDepth (s : CPuzzle) (p : CPiece) (l : List Int) (fit : Int) :
    inDepth (placeTest s p l fit) := by
  induction l generalizing fit with
  | nil => exact pure_inDepth _
  | cons i rest ih =>
    unfold placeTest
    refine bind_inDepth (fitAt_inDepth _ _ _) fun f => ?_
    split
    · exact pure_inDepth _
    · exact ih _

theorem writeAt_inDepth (p : CPiece) (i : Int) (s : CPuzzle) : inDepth (writeAt p i s) := by
  unfold writeAt
  refine bind_inDepth (index_inDepth _ _) fun _ =>
    bind_inDepth (Arr4_get_inDepth _ _) fun _ => ?_
  split <;> exact setCell_inDepth _ _ _ _ _

theorem placeWrite_inDepth (p : CPiece) (l : List Int) (s : CPuzzle) :
    inDepth (placeWrite p l s) := by
  induction l generalizing s with
  | nil => exact pure_inDepth _
  | cons i rest ih =>
    unfold placeWrite
    exact bind_inDepth (writeAt_inDepth _ _ _) fun _ => ih _

theorem PlacePiece_inDepth (s : CPuzzle) (n : Int) (p : CPiece) :
    inDepth (s.PlacePiece n p) := by
  unfold CPuzzle.PlacePiece
  refine bind_inDepth (placeTest_inDepth _ _ _ _) fun fit => ?_
  split
  · exact bind_inDepth (placeWrite_inDepth _ _ _) fun _ => pure_inDepth _
  · exact pure_inDepth _

theorem alreadyPlacedLoop_inDepth (placed : Arr6 Int) (piece : Int) (l : List Int) :
    inDepth (alreadyPlacedLoop placed piece l) := by
  induction l with
  | nil => exact pure_inDepth _
  | cons i rest ih =>
    unfold alreadyPlacedLoop
    refine bind_inDepth (Arr6_get_inDepth _ _) fun _ => ?_
    split
    · exact pure_inDepth _
    · exact ih

theorem AlreadyPlaced_inDepth (s : CPuzzle) (piece : Int) : inDepth (s.AlreadyPlaced piece) :=
  alreadyPlacedLoop_inDepth _ _ _

theorem orientationBody_inDepth {solve : SolveFn} (H : ∀ m c, inDepth (solve m c)) (i : Int)
    (o : Nat) (v : SolveVars) : inDepth (orientationBody solve i o v) := by
  unfold orientationBody
  refine bind_inDepth (Arr6_get_inDepth _ _) fun piece =>
    bind_inDepth (assign_inDepth _ _) fun q =>
    bind_inDepth (PlacePiece_inDepth _ _ _) fun r => ?_
  obtain ⟨fit, q', n'⟩ := r
  simp only []
  split
  · refine bind_inDepth (Arr6_set_inDepth _ _ _) fun pl => bind_inDepth (H _ _) fun r2 => ?_
    obtain ⟨sv, c', n2⟩ := r2
    simp only []
    split
    · exact bind_inDepth (assign_inDepth _ _) fun _ => pure_inDepth _
    · exact pure_inDepth _
  · exact pure_inDepth _

theorem orientationLoop_inDepth {solve : SolveFn} (H : ∀ m c, inDepth (solve m c)) (i : Int)
    (l : List Nat) (v : SolveVars) : inDepth (orientationLoop solve i l v) := by
  induction l generalizing v with
  | nil => exact pure_inDepth _
  | cons o rest ih =>
    unfold orientationLoop
    split
    · exact pure_inDepth _
    · exact bind_inDepth (orientationBody_inDepth H _ _ _) fun _ => ih _

theorem pieceLoop_inDepth {solve : SolveFn} (H : ∀ m c, inDepth (solve m c))
    (l : List Int) (v : SolveVars) : inDepth (pieceLoop solve l v) := by
  induction l generalizing v with
  | nil => exact pure_inDepth _
  | cons i rest ih =>
    by_cases hv : v.solved = 0
    · rw [pieceLoop_cons _ _ _ _ hv]
      refine bind_inDepth (AlreadyPlaced_inDepth _ _) fun already =>
        bind_inDepth ?_ fun _ => ih _
      split
      · exact orientationLoop_inDepth H _ _ _
      · exact pure_inDepth _
    · rw [pieceLoop_solved _ _ _ hv]
      exact ok_inDepth _

theorem directionLoop_inDepth {solve : SolveFn} (H : ∀ m c, inDepth (solve m c))
    (l : List Nat) (v : SolveVars) : inDepth (directionLoop solve l v) := by
  induction l generalizing v with
  | nil => exact pure_inDepth _
  | cons d rest ih =>
    by_cases hv : v.solved = 0
    · rw [directionLoop_cons _ _ _ _ hv]
      refine bind_inDepth (pieceLoop_inDepth H _ _) fun v1 => ?_
      split
      · refine bind_inDepth (Arr4_get_inDepth _ _) fun direction => ?_
        split
        · exact bind_inDepth (Arr4_set_inDepth _ _ _) fun _ => ih _
        · exact ih _
      · exact pure_inDepth _
    · rw [directionLoop_solved _ _ _ hv]
      exact ok_inDepth _

/-- The body of `Solve` has no depth fault of its own. -/
theorem solveBody_inDepth {solve : SolveFn} (H : ∀ m c, inDepth (solve m c)) (n : Int)
    (s : CPuzzle) : inDepth (solveBody solve n s) := by
  rw [solveBody_eq]
  split
  · exact bind_inDepth (directionLoop_inDepth H _ _) fun _ => pure_inDepth _
  · exact pure_inDepth _

/-- With depth for one call per piece left and one more, `SolveAux` has no
depth fault, and any larger depth gives the same result. -/
theorem SolveAux_depth (d : Nat) (s : CPuzzle) (hd : (s.pieceCount - s.placedCount).toNat ≤ d)
    (n : Int) :
    inDepth (CPuzzle.SolveAux (d + 1) n s) ∧
    ∀ fuel, d + 1 ≤ fuel → CPuzzle.SolveAux fuel n s = CPuzzle.SolveAux (d + 1) n s := by
  induction d generalizing s n with
  | zero =>
    have hge : ¬ s.placedCount < s.pieceCount := by omega
    have hb : ∀ solve : SolveFn, solveBody solve n s = pure (1, atLevel s, n) := by
      intro solve
      rw [solveBody_eq, if_neg hge]
    refine ⟨?_, ?_⟩
    · show inDepth (solveBody _ n s)
      rw [hb]
      exact pure_inDepth _
    · intro fuel hf
      obtain ⟨f, rfl⟩ : ∃ f, fuel = f + 1 := ⟨fuel - 1, by omega⟩
      show solveBody _ n s = solveBody _ n s
      rw [hb, hb]
  | succ d ih =>
    refine ⟨?_, ?_⟩
    · show inDepth (solveBody (CPuzzle.SolveAux (d + 1)) n s)
      have hc : solveBody (CPuzzle.SolveAux (d + 1)) n s =
          solveBody (fun m c =>
            if c.placedCount = s.placedCount + 1 ∧ c.pieceCount = s.pieceCount then
              CPuzzle.SolveAux (d + 1) m c
            else .error .messedUp) n s :=
        solveBody_cong n s fun m c h1 h2 => by simp [h1, h2]
      rw [hc]
      apply solveBody_inDepth
      intro m c
      show inDepth (if c.placedCount = s.placedCount + 1 ∧ c.pieceCount = s.pieceCount then
        CPuzzle.SolveAux (d + 1) m c else .error .messedUp)
      split
      · rename_i h
        exact (ih c (by omega) m).1
      · intro h; cases h
    · intro fuel hf
      obtain ⟨f, rfl⟩ : ∃ f, fuel = f + 1 := ⟨fuel - 1, by omega⟩
      show solveBody (CPuzzle.SolveAux f) n s = solveBody (CPuzzle.SolveAux (d + 1)) n s
      apply solveBody_cong
      intro m c h1 h2
      exact (ih c (by omega) m).2 f (by omega)


/-- C17: `Solve` on a puzzle of six pieces with `placedCount = k` in `0..6`
needs no more than `7 - k` nested calls: with that depth it stops without the
depth fault, every larger depth gives the same result, and its body uses the
recursive call only on puzzles with `placedCount = k + 1` (two stand-ins for
the recursive call that agree on those give the same result). -/
theorem Solve_depth_bound (s : CPuzzle) (hpc : s.pieceCount = 6) (h0 : 0 ≤ s.placedCount)
    (h6 : s.placedCount ≤ 6) (n : Int) :
    s.Solve n ≠ .error .outOfFuel ∧
    (∀ fuel : Nat, 7 - s.placedCount ≤ fuel → CPuzzle.SolveAux fuel n s = s.Solve n) ∧
    (∀ solve₁ solve₂ : SolveFn,
      (∀ m c, c.placedCount = s.placedCount + 1 → c.pieceCount = 6 → solve₁ m c = solve₂ m c) →
      solveBody solve₁ n s = solveBody solve₂ n s) := by
  obtain ⟨h1, h2⟩ := SolveAux_depth (s.pieceCount - s.placedCount).toNat s (le_refl _) n
  refine ⟨h1, ?_, ?_⟩
  · intro fuel hf
    exact h2 fuel (by rw [hpc]; omega)
  · intro solve₁ solve₂ H
    exact solveBody_cong n s fun m c hc1 hc2 => H m c hc1 (by rw [hc2, hpc])

/-- Witness of C17: the fresh puzzle. -/
theorem Solve_depth_bound_witness : CPuzzle.new.Solve 0 ≠ .error .outOfFuel :=
  (Solve_depth_bound CPuzzle.new (by decide) (by decide) (by decide) 0).1

/-! ## What a successful call keeps -/

/-- A puzzle extends itself. -/
theorem Extends.refl (s : CPuzzle) : Extends s s :=
  ⟨fun _ _ _ _ h _ => h, fun _ _ _ => rfl, rfl, le_refl _⟩

/-- Extensions compose. -/
theorem Extends.trans {s s' s'' : CPuzzle} (h : Extends s s') (h' : Extends s' s'') :
    Extends s s'' := by
  obtain ⟨a1, a2, a3, a4⟩ := h
  obtain ⟨b1, b2, b3, b4⟩ := h'
  refine ⟨fun c l k v hv hne => b1 c l k v (a1 c l k v hv hne) hne, ?_, b3.trans a3, by omega⟩
  intro j hj0 hj
  rw [b2 j hj0 (by omega), a2 j hj0 hj]

/-- Reading `a[j]` after the write `a[i] = v`. -/
theorem Arr6_get_of_set {α : Type} {a a' : Arr6 α} {i : Int} {v : α}
    (h : a.set i v = .ok a') (j : Int) (hj : j ≠ i) : a'.get j = a.get j := by
  unfold Arr6.set at h
  unfold Arr6.get
  split_ifs at h with h0 h1 h2 h3 h4 h5 <;> cases h <;> subst_vars <;>
    simp only [hj, if_false]

/-- The cells a placement writes are `Empty` before. -/
theorem Inv.target_empty {t : CPuzzle} (hI : Inv t) (h5 : t.placedCount ≤ 5) {j : Int}
    (hj : j ∈ [(0 : Int), 1, 2]) :
    t.cell (address t j).1 (currentLevel t) (address t j).2 = .ok SPACE_EMPTY := by
  obtain ⟨-, hdir, hdlt, hdge⟩ := hI.direction h5
  obtain ⟨-, h0, -, -, -, -, ha2, -, hone, htwo, -⟩ := hI
  have hr : t.placedCount.tmod 3 ∈ [(0 : Int), 1, 2] := by
    rcases level_cases h0 h5 with ⟨hk, -, hr⟩ | ⟨hk, -, hr⟩ <;> rw [hr] <;>
      simp only [List.mem_cons, List.mem_singleton, List.not_mem_nil, or_false] <;> omega
  unfold address specAddress currentLevel
  rcases level_cases h0 h5 with ⟨hk, hl, hr'⟩ | ⟨hk, hl, hr'⟩
  · rw [hl, hdlt hk, if_pos rfl]
    have H := hone j hj _ hr
    rw [hr'] at H ⊢
    have e : decide (t.placedCount < t.placedCount) = false := by simp
    rw [e] at H
    exact cellHas_false H
  · rw [hl]
    split
    · rename_i hLR
      have H := htwo j hj _ hr
      rw [hdge hk] at hLR
      rw [hr', if_pos hLR] at H
      rw [hr']
      have e : decide (t.placedCount - 3 < t.placedCount - 3) = false := by simp
      rw [e] at H
      exact cellHas_false H
    · rename_i hLR
      have H := htwo _ hr j hj
      rw [hdge hk] at hLR
      rw [hr', if_neg hLR] at H
      rw [hr']
      have e : decide (t.placedCount - 3 < t.placedCount - 3) = false := by simp
      rw [e] at H
      exact cellHas_false H

/-- A placement extends the puzzle. -/
theorem tryPlace_extends {t c : CPuzzle} (hI : Inv t) {i : Int} {o : Nat}
    (h : tryPlace t i o = some c) : Extends t c := by
  obtain ⟨-, -, e2, e4, -, hset, -, hcell⟩ := tryPlace_spec h
  obtain ⟨-, hk5⟩ := Arr6_set_bounds hset
  refine ⟨?_, ?_, by rw [e4], by omega⟩
  · intro x l y v hv hne
    have hno : ∀ j ∈ [(0 : Int), 1, 2],
        ¬ (x = (address t j).1 ∧ l = currentLevel t ∧ y = (address t j).2) := by
      rintro j hj ⟨rfl, rfl, rfl⟩
      rw [hI.target_empty hk5 hj] at hv
      cases hv
      exact hne rfl
    rw [hcell, if_neg (hno 2 (by simp)), if_neg (hno 1 (by simp)), if_neg (hno 0 (by simp))]
    exact hv
  · intro j _ hj
    exact Arr6_get_of_set hset j (by omega)

/-- A choice that passes extends the puzzle. -/
theorem applyChoice_extends {s s' : CPuzzle} {c : Choice} (hI : SolveInv s)
    (h : applyChoice s c = some s') : Extends s s' := by
  obtain ⟨-, -, h5⟩ := hI.after_choice h
  unfold applyChoice at h
  split_ifs at h with h1 h2 h3
  · exact tryPlace_extends hI.1 h
  · have hk := (retryApplies_iff hI.1.2.1 h5).1 h3.1
    have hE := tryPlace_extends (hI.1.with_upDown hk) h
    rw [withUpDown_eq hk] at hE
    exact hE

/-- A sequence of choices that pass extends the puzzle. -/
theorem applyChoices_extends {s s' : CPuzzle} (hI : SolveInv s) (choices : List Choice)
    (h : applyChoices s choices = some s') : Extends s s' := by
  induction choices generalizing s with
  | nil =>
    simp only [applyChoices, Option.some.injEq] at h
    rw [← h]
    exact Extends.refl s
  | cons c rest ih =>
    simp only [applyChoices] at h
    cases h1 : applyChoice s c with
    | none => simp [h1] at h
    | some s1 =>
      simp only [h1, Option.some_bind] at h
      exact (applyChoice_extends hI h1).trans (ih (hI.after_choice h1).1 h)

/-- C19: when `Solve` returns `1` on a puzzle the search reaches, the puzzle it
leaves agrees with the puzzle it was called on in every cell that was not
`Empty`, in the first `placedCount` entries of the placement list and in the
direction of level 1. -/
theorem Solve_success_extends (s : CPuzzle) (hR : Reach s) (n : Int) (s' : CPuzzle) (n' : Int)
    (h : s.Solve n = .ok (1, s', n')) :
    (∀ c l k v, s.cell c l k = .ok v → v ≠ SPACE_EMPTY → s'.cell c l k = .ok v) ∧
    (∀ j, 0 ≤ j → j < s.placedCount → s'.placed.get j = s.placed.get j) ∧
    s'.tileDirection.a1 = s.tileDirection.a1 := by
  have hI := hR.solveInv
  obtain ⟨-, ⟨-, choices, r', hr', hat, -⟩ | ⟨h0, -⟩⟩ := Solve_result hI h
  · obtain ⟨a1, a2, a3, -⟩ := applyChoices_extends hI choices hr'
    rw [hat]
    exact ⟨a1, a2, a3⟩
  · exact absurd h0 (by decide)

/-- Witness of C19: the run on the fresh puzzle. -/
theorem Solve_success_extends_witness :
    solvedPuzzle.tileDirection.a1 = CPuzzle.new.tileDirection.a1 :=
  (Solve_success_extends CPuzzle.new Reach.fresh 0 solvedPuzzle 12395 (Solve_new 0)).2.2


/-! ## Both levels tiled left to right -/

/-- The list `compatiblePairs` holds every compatible pair of table pieces. -/
theorem compatible_mem : ∀ a ∈ [(0 : Int), 1, 2, 3, 4, 5], ∀ b ∈ [(0 : Int), 1, 2, 3, 4, 5],
    compatible a b → (a, b) ∈ compatiblePairs := by
  decide

/-- Three compatible pairs never use six different pieces. -/
theorem compatiblePairs_clash : ∀ x ∈ compatiblePairs, ∀ y ∈ compatiblePairs,
    ∀ z ∈ compatiblePairs, ¬ [x.2, y.2, z.2, x.1, y.1, z.1].Nodup := by
  decide

/-- A choice under `LeftRight` is a placement on the puzzle as it is. -/
theorem applyChoice_leftRight {s s' : CPuzzle} {c : Choice} (h : applyChoice s c = some s')
    (hc : c.direction = TILE_LEFT_RIGHT) :
    directionOf s = TILE_LEFT_RIGHT ∧ tryPlace s c.piece c.orientation = some s' := by
  unfold applyChoice at h
  split_ifs at h with h1 h2 h3
  · exact ⟨by rw [← h2, hc], h⟩
  · rw [hc] at h3
    exact absurd h3.2.2 (by decide)

/-- A piece placed on level 1 fills its row with its three reads. -/
theorem row_written {s s' : CPuzzle} {c : Choice} (hI : SolveInv s)
    (h : applyChoice s c = some s') (hc : c.direction = TILE_LEFT_RIGHT)
    (hk : s.placedCount < 3) :
    ∀ j ∈ [(0 : Int), 1, 2], s'.cell j 1 s.placedCount = tableRead c.piece c.orientation j := by
  obtain ⟨-, -, h5⟩ := hI.after_choice h
  obtain ⟨hd, ht⟩ := applyChoice_leftRight h hc
  obtain ⟨-, -, -, -, -, -, -, hcell⟩ := tryPlace_spec ht
  have hl : currentLevel s = 1 ∧ s.placedCount.tmod 3 = s.placedCount := by
    unfold currentLevel
    rcases level_cases hI.1.2.1 h5 with ⟨-, hl, hr⟩ | ⟨h3, -, -⟩
    · exact ⟨hl, hr⟩
    · omega
  intro j hj
  rw [hcell]
  unfold address specAddress
  rw [hd, hl.1, hl.2]
  simp only [List.mem_cons, List.mem_singleton, List.not_mem_nil, or_false] at hj
  rcases hj with rfl | rfl | rfl <;> simp

/-- A later placement leaves the rows of level 1 that were filled as they
were. -/
theorem row_kept {s s' : CPuzzle} {c : Choice} (hI : SolveInv s)
    (h : applyChoice s c = some s') (hc : c.direction = TILE_LEFT_RIGHT) (j r : Int)
    (hr : r < s.placedCount) : s'.cell j 1 r = s.cell j 1 r := by
  obtain ⟨-, -, h5⟩ := hI.after_choice h
  obtain ⟨hd, ht⟩ := applyChoice_leftRight h hc
  obtain ⟨-, -, -, -, -, -, -, hcell⟩ := tryPlace_spec ht
  rw [hcell]
  unfold address specAddress currentLevel
  rw [hd]
  rcases level_cases hI.1.2.1 h5 with ⟨-, hl, hr'⟩ | ⟨h3, hl, -⟩
  · rw [hl, hr']
    have hne : ¬ r = s.placedCount := by omega
    simp [hne]
  · rw [hl]
    simp

/-- A piece placed on level 2 under `LeftRight` fits over the row of level 1
below it. -/
theorem row_fit {s s' : CPuzzle} {c : Choice} (hI : SolveInv s)
    (h : applyChoice s c = some s') (hc : c.direction = TILE_LEFT_RIGHT)
    (hk : 3 ≤ s.placedCount) :
    ∀ j ∈ [(0 : Int), 1, 2], ∃ v b, tableRead c.piece c.orientation j = .ok v ∧
      s.cell j 1 (s.placedCount - 3) = .ok b ∧ fitsAbove v b = .ok 1 := by
  obtain ⟨-, -, h5⟩ := hI.after_choice h
  obtain ⟨hd, ht⟩ := applyChoice_leftRight h hc
  obtain ⟨-, -, -, -, -, -, hfit, -⟩ := tryPlace_spec ht
  have hl : currentLevel s = 2 ∧ s.placedCount.tmod 3 = s.placedCount - 3 := by
    unfold currentLevel
    rcases level_cases hI.1.2.1 h5 with ⟨h3, -, -⟩ | ⟨-, hl, hr⟩
    · omega
    · exact ⟨hl, hr⟩
  intro j hj
  obtain ⟨v, b, hv, hb, hf⟩ := hfit j hj
  unfold address specAddress at hb
  rw [hd, hl.1, hl.2] at hb
  exact ⟨v, b, hv, hb, hf⟩

/-- A piece placed on level 1, two more placements, and a piece placed on level
2 over it, all under `LeftRight`: the upper piece fits over the lower one. -/
theorem rowFits_of_chain {s s1 s2 s3 s4 : CPuzzle} {c x y c' : Choice} (hI : SolveInv s)
    (hk : s.placedCount < 3)
    (h1 : applyChoice s c = some s1) (h2 : applyChoice s1 x = some s2)
    (h3 : applyChoice s2 y = some s3) (h4 : applyChoice s3 c' = some s4)
    (hc : c.direction = TILE_LEFT_RIGHT) (hx : x.direction = TILE_LEFT_RIGHT)
    (hy : y.direction = TILE_LEFT_RIGHT) (hc' : c'.direction = TILE_LEFT_RIGHT) :
    rowFits c'.piece c'.orientation c.piece c.orientation := by
  obtain ⟨hI1, e1, -⟩ := hI.after_choice h1
  obtain ⟨hI2, e2, -⟩ := hI1.after_choice h2
  obtain ⟨hI3, e3, -⟩ := hI2.after_choice h3
  have h0 := hI.1.2.1
  intro j hj
  obtain ⟨v, b, hv, hb, hf⟩ := row_fit hI3 h4 hc' (by omega) j hj
  have hrow : s3.cell j 1 (s3.placedCount - 3) = tableRead c.piece c.orientation j := by
    have e : s3.placedCount - 3 = s.placedCount := by omega
    rw [e, row_kept hI2 h3 hy j _ (by omega), row_kept hI1 h2 hx j _ (by omega)]
    exact row_written hI h1 hc hk j hj
  rw [hrow] at hb
  rw [hv, hb]
  exact hf


/-- A choice that passes is one of the forty-eight, and its piece is appended
to the pieces placed so far. -/
theorem applyChoice_placed {s s' : CPuzzle} {c : Choice} (hI : SolveInv s)
    (h : applyChoice s c = some s') :
    c ∈ allChoices ∧ placedSoFar s' = placedSoFar s ++ [c.piece] := by
  obtain ⟨-, -, h5⟩ := hI.after_choice h
  unfold applyChoice at h
  split_ifs at h with h1 h2 h3
  · exact ⟨h1.1, (tryPlace_placed hI.1 h).2⟩
  · have hk := (retryApplies_iff hI.1.2.1 h5).1 h3.1
    refine ⟨h1.1, ?_⟩
    rw [(tryPlace_placed (hI.1.with_upDown hk) h).2, placedSoFar_withUpDown]

/-- No full valid choice sequence from the fresh puzzle tiles both levels
`LeftRight`. -/
theorem no_leftRight_solution (choices : List Choice) (hv : ValidFrom CPuzzle.new choices)
    (hLR : ∀ c ∈ choices, c.direction = TILE_LEFT_RIGHT) : False := by
  have hI0 : SolveInv CPuzzle.new := Reach.fresh.solveInv
  have hlen := hv.length hI0 (m := 6) (by decide)
  obtain ⟨s6, hs6, -⟩ := hv
  match choices, hlen with
  | [c0, c1, c2, c3, c4, c5], _ =>
    simp only [applyChoices] at hs6
    cases h0 : applyChoice CPuzzle.new c0 with
    | none => simp [h0] at hs6
    | some s1 =>
    simp only [h0, Option.some_bind] at hs6
    cases h1 : applyChoice s1 c1 with
    | none => simp [h1] at hs6
    | some s2 =>
    simp only [h1, Option.some_bind] at hs6
    cases h2 : applyChoice s2 c2 with
    | none => simp [h2] at hs6
    | some s3 =>
    simp only [h2, Option.some_bind] at hs6
    cases h3 : applyChoice s3 c3 with
    | none => simp [h3] at hs6
    | some s4 =>
    simp only [h3, Option.some_bind] at hs6
    cases h4 : applyChoice s4 c4 with
    | none => simp [h4] at hs6
    | some s5 =>
    simp only [h4, Option.some_bind] at hs6
    cases h5 : applyChoice s5 c5 with
    | none => simp [h5] at hs6
    | some s6' =>
    simp only [h5, Option.some_bind, Option.some.injEq] at hs6
    subst hs6
    have d0 := hLR c0 (by simp)
    have d1 := hLR c1 (by simp)
    have d2 := hLR c2 (by simp)
    have d3 := hLR c3 (by simp)
    have d4 := hLR c4 (by simp)
    have d5 := hLR c5 (by simp)
    obtain ⟨hI1, e1, -⟩ := hI0.after_choice h0
    obtain ⟨hI2, e2, -⟩ := hI1.after_choice h1
    obtain ⟨hI3, e3, -⟩ := hI2.after_choice h2
    obtain ⟨hI4, e4, -⟩ := hI3.after_choice h3
    obtain ⟨hI5, e5, -⟩ := hI4.after_choice h4
    obtain ⟨hI6, e6, -⟩ := hI5.after_choice h5
    have k0 : CPuzzle.new.placedCount = 0 := rfl
    have f0 := rowFits_of_chain hI0 (by omega) h0 h1 h2 h3 d0 d1 d2 d3
    have f1 := rowFits_of_chain hI1 (by omega) h1 h2 h3 h4 d1 d2 d3 d4
    have f2 := rowFits_of_chain hI2 (by omega) h2 h3 h4 h5 d2 d3 d4 d5
    obtain ⟨m0, p0⟩ := applyChoice_placed hI0 h0
    obtain ⟨m1, p1⟩ := applyChoice_placed hI1 h1
    obtain ⟨m2, p2⟩ := applyChoice_placed hI2 h2
    obtain ⟨m3, p3⟩ := applyChoice_placed hI3 h3
    obtain ⟨m4, p4⟩ := applyChoice_placed hI4 h4
    obtain ⟨m5, p5⟩ := applyChoice_placed hI5 h5
    have hnil : placedSoFar CPuzzle.new = [] := rfl
    have hnd := hI6.1.2.2.2.2.2.2.2.2.2.2.2.1
    rw [p5, p4, p3, p2, p1, p0, hnil] at hnd
    simp only [List.nil_append, List.cons_append, List.singleton_append] at hnd
    obtain ⟨-, i0, o0⟩ := (mem_allChoices c0).1 m0
    obtain ⟨-, i1, o1⟩ := (mem_allChoices c1).1 m1
    obtain ⟨-, i2, o2⟩ := (mem_allChoices c2).1 m2
    obtain ⟨-, i3, o3⟩ := (mem_allChoices c3).1 m3
    obtain ⟨-, i4, o4⟩ := (mem_allChoices c4).1 m4
    obtain ⟨-, i5, o5⟩ := (mem_allChoices c5).1 m5
    have q0 := compatible_mem _ i3 _ i0 ⟨_, o3, _, o0, f0⟩
    have q1 := compatible_mem _ i4 _ i1 ⟨_, o4, _, o1, f1⟩
    have q2 := compatible_mem _ i5 _ i2 ⟨_, o5, _, o2, f2⟩
    exact compatiblePairs_clash _ q0 _ q1 _ q2 hnd

/-- C20: no full valid choice sequence from the fresh puzzle has every piece
placed under `LeftRight` (no placement of the six pieces with levels 1 and 2
both tiled `LeftRight` passes `PlacePiece` for every piece), and the puzzle
`Solve` leaves when run on the fresh puzzle has level 2 tiled `UpDown` and
level 1 tiled `LeftRight`. -/
theorem retry_needed (n : Int) :
    (∀ choices, ValidFrom CPuzzle.new choices →
      ¬ ∀ c ∈ choices, c.direction = TILE_LEFT_RIGHT) ∧
    ∃ s' n', CPuzzle.new.Solve n = .ok (1, s', n') ∧
      s'.tileDirection.a2 = TILE_UP_DOWN ∧ s'.tileDirection.a1 = TILE_LEFT_RIGHT :=
  ⟨fun choices hv hLR => no_leftRight_solution choices hv hLR,
    solvedPuzzle, n + 12395, Solve_new n, rfl, rfl⟩


/-! ## The puzzles `Solve` is called on -/

/-- One attempt on the puzzle `t` asks the recursive call only about the puzzle
after the placement. -/
theorem orientationBody_asks {solve₁ solve₂ : SolveFn} {t : CPuzzle} (hI : Inv t)
    (h5 : t.placedCount ≤ 5) {i : Int} {o : Nat} (hi : i ∈ [(0 : Int), 1, 2, 3, 4, 5])
    (ho : o ∈ [0, 1, 2, 3])
    (H : ∀ c, tryPlace t i o = some c → ∀ m, solve₁ m c = solve₂ m c)
    (v : SolveVars) (hv : v.self = t) :
    orientationBody solve₁ i o v = orientationBody solve₂ i o v := by
  obtain ⟨piece, fit, s1, hp, hpp, -, hsome⟩ := hI.PlacePiece_total h5 hi ho
  have hassign : v.newPuzzle.assign v.self = .ok t := by
    rw [hv]; exact CPuzzle.assign_eq _ _ hI.1
  have hop : (if o &&& 2 ≠ 0 then
        (if o &&& 1 ≠ 0 then (CPiece.assign piece).Flip else CPiece.assign piece).Reverse
      else if o &&& 1 ≠ 0 then (CPiece.assign piece).Flip else CPiece.assign piece) =
      orientedPiece piece o := rfl
  unfold orientationBody
  simp only [hp, hassign, bind, Except.bind, hop, hpp v.iterations]
  by_cases hfit : fit = 0
  · simp only [hfit, ne_eq, not_true_eq_false, if_false]
  · obtain ⟨pl, hpl, htry⟩ := hsome hfit
    simp only [ne_eq, hfit, not_false_eq_true, if_true, hv, hpl]
    rw [H _ htry]

/-- The orientation loop on the puzzle `t` asks the recursive call only about
puzzles after a placement on `t`. -/
theorem orientationLoop_asks {solve₁ solve₂ : SolveFn} {t : CPuzzle} (hI : Inv t)
    (h5 : t.placedCount ≤ 5) {i : Int} (hi : i ∈ [(0 : Int), 1, 2, 3, 4, 5])
    (os : List Nat) (hos : ∀ o ∈ os, o ∈ [0, 1, 2, 3])
    (H : ∀ o ∈ os, ∀ c, tryPlace t i o = some c → ∀ m, solve₁ m c = solve₂ m c)
    (v : SolveVars) (hv : v.self = t) :
    orientationLoop solve₁ i os v = orientationLoop solve₂ i os v := by
  induction os generalizing v with
  | nil => rfl
  | cons o rest ih =>
    by_cases hs : v.solved = 0
    · rw [orientationLoop, orientationLoop, if_neg (by simpa using hs),
        if_neg (by simpa using hs),
        orientationBody_asks hI h5 hi (hos o (by simp)) (H o (by simp)) v hv]
      apply bind_congr_ok
      intro v1 hb
      by_cases h1 : v1.solved = 0
      · exact ih (fun o' ho' => hos o' (by simp [ho'])) (fun o' ho' => H o' (by simp [ho'])) v1
          ((orientationBody_unsolved hb h1).trans hv)
      · rw [orientationLoop_solved _ _ _ _ h1, orientationLoop_solved _ _ _ _ h1]
    · rw [orientationLoop_solved _ _ _ _ hs, orientationLoop_solved _ _ _ _ hs]

/-- The piece loop on the puzzle `t` asks the recursive call only about puzzles
after a placement on `t` of a piece that is not placed yet. -/
theorem pieceLoop_asks {solve₁ solve₂ : SolveFn} {t : CPuzzle} (hI : Inv t)
    (h5 : t.placedCount ≤ 5) (is : List Int) (his : ∀ i ∈ is, i ∈ [(0 : Int), 1, 2, 3, 4, 5])
    (H : ∀ i ∈ is, i ∉ placedSoFar t → ∀ o ∈ [0, 1, 2, 3], ∀ c,
      tryPlace t i o = some c → ∀ m, solve₁ m c = solve₂ m c)
    (v : SolveVars) (hv : v.self = t) :
    pieceLoop solve₁ is v = pieceLoop solve₂ is v := by
  induction is generalizing v with
  | nil => rfl
  | cons i rest ih =>
    by_cases hs : v.solved = 0
    · have hi := his i (by simp)
      have hi0 : 0 ≤ i := by
        simp only [List.mem_cons, List.mem_singleton, List.not_mem_nil, or_false] at hi
        omega
      have hlen : (placedSoFar t).length ≤ 6 := by
        have := placedSoFar_length t hI.2.1 hI.2.2.1
        omega
      have hap := alreadyPlaced_placedOf t (placedSoFar t) i hlen hi0 hI.1
        hI.2.2.2.2.2.2.2.2.2.2.1
      have ihr := ih (fun i' hi' => his i' (by simp [hi']))
        (fun i' hi' => H i' (by simp [hi']))
      rw [pieceLoop_cons _ _ _ _ hs, pieceLoop_cons _ _ _ _ hs]
      apply bind_congr_ok
      intro already ha
      rw [hv, hap] at ha
      by_cases hmem : i ∈ placedSoFar t
      · rw [if_pos hmem] at ha
        cases ha
        rw [if_neg (by decide), if_neg (by decide), pure_bind, pure_bind]
        exact ihr v hv
      · rw [if_neg hmem] at ha
        cases ha
        rw [if_pos rfl, if_pos rfl,
          orientationLoop_asks hI h5 hi [0, 1, 2, 3] (fun _ h => h) (H i (by simp) hmem) v hv]
        apply bind_congr_ok
        intro v1 hb
        by_cases h1 : v1.solved = 0
        · exact ihr v1 ((orientationLoop_unsolved _ hb h1).trans hv)
        · rw [pieceLoop_solved _ _ _ h1, pieceLoop_solved _ _ _ h1]
    · rw [pieceLoop_solved _ _ _ hs, pieceLoop_solved _ _ _ hs]

/-- The puzzles of `Reach` are closed under the calls of `Solve`: on a puzzle
of `Reach` the body of `Solve` asks the recursive call only about puzzles of
`Reach` (two stand-ins for the recursive call that agree on `Reach` give the
same result). -/
theorem Reach.calls {s : CPuzzle} (hR : Reach s) {solve₁ solve₂ : SolveFn}
    (H : ∀ m c, Reach c → solve₁ m c = solve₂ m c) (n : Int) :
    solveBody solve₁ n s = solveBody solve₂ n s := by
  have hI := hR.solveInv
  have hpc := hI.1.1
  have h0 := hI.1.2.1
  by_cases h5 : s.placedCount ≤ 5
  · obtain ⟨hget, hdir, -, -⟩ := hI.1.direction h5
    have hmem : directionOf s ∈ [TILE_LEFT_RIGHT, TILE_UP_DOWN] := by
      rcases hdir with h | h <;> simp [h]
    have hfirst : ∀ i ∈ [(0 : Int), 1, 2, 3, 4, 5], i ∉ placedSoFar (atLevel s) →
        ∀ o ∈ [0, 1, 2, 3], ∀ c, tryPlace (atLevel s) i o = some c →
        ∀ m, solve₁ m c = solve₂ m c := by
      intro i hi hnew o ho c hc m
      have hnew' : i ∉ placedSoFar s := hnew
      refine H m c (Reach.step ⟨directionOf s, i, o⟩ hR ?_)
      rw [applyChoice_mk s hmem hi ho, if_neg hnew', if_pos rfl]
      exact hc
    by_cases hk : s.placedCount = 3
    · have hd := hI.2 (by omega)
      have hLR : directionOf s = TILE_LEFT_RIGHT := by
        rw [(hI.1.direction h5).2.2.2 (by omega), hd]
      have hsecond : ∀ i ∈ [(0 : Int), 1, 2, 3, 4, 5],
          i ∉ placedSoFar (withUpDown (atLevel s)) →
          ∀ o ∈ [0, 1, 2, 3], ∀ c, tryPlace (withUpDown (atLevel s)) i o = some c →
          ∀ m, solve₁ m c = solve₂ m c := by
        intro i hi hnew o ho c hc m
        have hnew' : i ∉ placedSoFar s := by
          rw [placedSoFar_withUpDown] at hnew
          exact hnew
        refine H m c (Reach.step ⟨TILE_UP_DOWN, i, o⟩ hR ?_)
        rw [applyChoice_mk s (by simp) hi ho, if_neg hnew', if_neg (by rw [hLR]; decide),
          if_pos ⟨(retryApplies_iff h0 h5).2 hk, hLR, rfl⟩]
        rw [withUpDown_atLevel] at hc
        exact hc
      rw [solveBody_two_passes solve₁ n hpc hk hd, solveBody_two_passes solve₂ n hpc hk hd,
        pieceLoop_asks hI.1.at_level h5 _ (fun _ h => h) hfirst _ rfl]
      apply bind_congr_ok
      intro v1 _
      split_ifs
      · rfl
      · rw [pieceLoop_asks (Inv.with_upDown (s := atLevel s) hI.1 hk)
          (by rw [withUpDown_eq (s := atLevel s) hk]; exact h5) _ (fun _ h => h) hsecond _ rfl]
    · rw [solveBody_one_pass solve₁ n hpc h0 h5 hk, solveBody_one_pass solve₂ n hpc h0 h5 hk,
        pieceLoop_asks hI.1.at_level h5 _ (fun _ h => h) hfirst _ rfl]
  · rw [solveBody_eq, solveBody_eq, if_neg (by omega), if_neg (by omega)]


end PrairieDog
